import Mathlib

/-!
# codeanalyzer: tree builder, layout and component statistics

A shallow embedding of `model/node.go`, of the parts of `utils/utils.go` that
it calls, and of the ignore list of `analyzer/analyzer.go`.

Modelling conventions

* Go `string` is `Str` (a list of characters); Go `int` is `Int`; Go `float64`
  is `ℚ` (exact arithmetic: every float operation of the layout is an
  addition, a subtraction, a maximum or a halving).
* A Go map is an association list; the nil map is `none`.  Reading a nil map
  finds nothing, writing to it is the runtime fault `Fault.nilMapWrite`.
* `range` over a map visits the entries in an order Go leaves unspecified.
  The merge loop of `New` therefore takes its entries as a list (the order in
  which the loop visits them), and `GenerateChildList` takes a `RangeOrder`,
  a permutation of the children it visits.
* Pointers: a child reached through `childrenMap` is updated in place in Go;
  the model writes the updated child back under the same key. No pointer of
  the input is nil.
-/

namespace CodeAnalyzer

/-- Go strings, as lists of characters. -/
abbrev Str := List Char

/-- Runtime faults of the Go program that the model tracks. -/
inductive Fault where
  | nilMapWrite
  | divideByZero
  deriving DecidableEq, Repr

/-! ## utils -/

/-- The function `strings.Split(s, sep)` for the one-character separator `sep`. -/
def Split (sep : Char) : Str → List Str
  | [] => [[]]
  | c :: cs =>
    if c = sep then [] :: Split sep cs
    else
      match Split sep cs with
      | [] => [[c]]
      | s :: ss => (c :: s) :: ss

/-- The class `\w` of Go regular expressions: `[0-9A-Za-z_]`. -/
def isWordChar (c : Char) : Bool :=
  ('0' ≤ c ∧ c ≤ '9') ∨ ('A' ≤ c ∧ c ≤ 'Z') ∨ ('a' ≤ c ∧ c ≤ 'z') ∨ c = '_'

/-- The tail `\.go(?:\.\((\w+)\))?$` of `regexpFile`, matched against the whole
of `s`: the text of group 2 when the tail matches (empty when the optional
group does not take part). The optional group is tried first. -/
def matchTail (s : Str) : Option Str :=
  if s.take 3 = ['.', 'g', 'o'] then
    let rest := s.drop 3
    let w := (rest.drop 2).takeWhile isWordChar
    if rest.take 2 = ['.', '('] ∧ w ≠ [] ∧ (rest.drop 2).dropWhile isWordChar = [')'] then
      some w
    else if rest = [] then some []
    else none
  else none

/-- The head `[^/]+` of `regexpFile` at the start of `s`, greedy: the longest
prefix of at most `k` characters, none of them a slash, after which the tail
matches. Returns groups 1 and 2. -/
def matchHead (s : Str) : Nat → Option (Str × Str)
  | 0 => none
  | k + 1 =>
    if (s.take (k + 1)).all (fun c => c ≠ '/') ∧ (s.take (k + 1)).length = k + 1 then
      match matchTail (s.drop (k + 1)) with
      | some w => some (s.take (k + 1) ++ ['.', 'g', 'o'], w)
      | none => matchHead s k
    else matchHead s k

/-- Leftmost match of `regexpFile` in `s`: groups 1 and 2. -/
def regexpFileFind : Str → Option (Str × Str)
  | [] => none
  | c :: cs =>
    match matchHead (c :: cs) (c :: cs).length with
    | some r => some r
    | none => regexpFileFind cs

/-- The call `regexpFile.FindStringSubmatch`: nil, or the match and its two groups. -/
def FindStringSubmatch (s : Str) : List Str :=
  match regexpFileFind s with
  | none => []
  | some (g1, g2) =>
    [if g2 = [] then g1 else g1 ++ ['.', '('] ++ g2 ++ [')'], g1, g2]

/-- The function `utils.GetFileAndStruct`. -/
def GetFileAndStruct (identifier : Str) : Str × Str :=
  let result := FindStringSubmatch identifier
  let fileName := if result.length > 1 then result.getD 1 [] else []
  let structName := if result.length > 2 then result.getD 2 [] else []
  (fileName, structName)

/-- The function `strings.Contains(s, substr)`. -/
def Contains : Str → Str → Bool
  | [], substr => substr.isPrefixOf []
  | c :: cs, substr => substr.isPrefixOf (c :: cs) || Contains cs substr

/-! ## analyzer -/

/-- The struct `analyzer`. -/
structure analyzer where
  PackageName : Str
  IgnoreNodes : List Str
  deriving DecidableEq, Repr

/-- The option `WithIgnoreList(files...)`, as the function it returns. -/
def WithIgnoreList (files : List Str) : analyzer → analyzer :=
  fun a => { a with IgnoreNodes := files }

/-- The function `NewAnalyzer`: the options are applied in order to an
analyzer without ignore list. -/
def NewAnalyzer (packageName : Str) (options : List (analyzer → analyzer)) : analyzer :=
  options.foldl (fun a option => option a) { PackageName := packageName, IgnoreNodes := [] }

/-- The method `analyzer.IsInvalidPath`: the `return` of line 47 is the body of
the loop, so the first pass of the loop decides. -/
def analyzer.IsInvalidPath (p : analyzer) (path : Str) : Bool :=
  match p.IgnoreNodes with
  | [] => false
  | value :: _ => Contains path value

/-! ## model: data -/

/-- The type `NodeType`; `Unset` is the zero value `""` of a node built without a type. -/
inductive NodeType where
  | Unset
  | StructType
  | FileType
  | PackageType
  deriving DecidableEq, Repr

/-- Modelled from the spec: the type `Position` is declared outside the files
at hand; "position: {x, y} floats". -/
structure Position where
  X : ℚ
  Y : ℚ
  deriving DecidableEq, Repr

/-- Modelled from the spec: the type `analyzer.NodeInfo` is declared outside
the files at hand; "metrics{line:int, numberAttributes:int, numberMethods:int,
numberLines:int, numberStmts:int}", under the names `model.New` reads them by.
The values of the input map are non-nil pointers. -/
structure NodeInfo where
  Line : Int
  NumberAttributes : Int
  NumberMethods : Int
  NumberLines : Int
  NumberStmts : Int
  deriving DecidableEq, Repr

/-- The struct `Node`. `Type_` is the field `Type`. -/
structure Node where
  Name : Str
  URL : Str
  Type_ : NodeType
  Width : ℚ
  Depth : ℚ
  Position : Position
  NumberOfLines : Int
  NumberOfMethods : Int
  NumberOfAttributes : Int
  NumberOfStmts : Int
  Children : List Node
  Line : Int
  childrenMap : Option (List (Str × Node))

/-- The zero value of `Node`. -/
def Node.zero : Node :=
  { Name := [], URL := [], Type_ := .Unset, Width := 0, Depth := 0, Position := ⟨0, 0⟩,
    NumberOfLines := 0, NumberOfMethods := 0, NumberOfAttributes := 0, NumberOfStmts := 0,
    Children := [], Line := 0, childrenMap := none }

/-- Reading `m[k]` of a map. -/
def lookupChild (k : Str) : List (Str × Node) → Option Node
  | [] => none
  | (k', v) :: m => if k' = k then some v else lookupChild k m

/-- Writing `m[k] = v` into a map. -/
def storeChild (k : Str) (v : Node) : List (Str × Node) → List (Str × Node)
  | [] => [(k, v)]
  | (k', v') :: m => if k' = k then (k, v) :: m else (k', v') :: storeChild k v m

/-- Reading `n.childrenMap[k]`; the nil map has no entry. -/
def Node.getChild (n : Node) (k : Str) : Option Node :=
  match n.childrenMap with
  | none => none
  | some m => lookupChild k m

/-- Writing `n.childrenMap[k] = v`; a fault on the nil map. -/
def Node.setChild (n : Node) (k : Str) (v : Node) : Except Fault Node :=
  match n.childrenMap with
  | none => .error .nilMapWrite
  | some m => .ok { n with childrenMap := some (storeChild k v m) }

/-! ## model: the merge loop of `New` -/

/-- The function `getPathAndFile`. -/
def getPathAndFile (fullPath : Str) : List Str × Str × Str :=
  let pathlist := Split '/' fullPath
  let paths := pathlist.take (pathlist.length - 1)
  let fs := GetFileAndStruct (pathlist.getD (pathlist.length - 1) [])
  (paths, fs.1, fs.2)

/-- The node of lines 166-170. -/
def newPackage (path : Str) : Node :=
  { Node.zero with Name := path, Type_ := .PackageType, childrenMap := some [] }

/-- The node of lines 177-181. -/
def newFile (fileName : Str) : Node :=
  { Node.zero with Name := fileName, Type_ := .FileType, childrenMap := some [] }

/-- The node of lines 189-197; it has no `childrenMap`. -/
def newStruct (structName : Str) (value : NodeInfo) : Node :=
  { Node.zero with
    Name := structName, Type_ := .StructType, Line := value.Line,
    NumberOfAttributes := value.NumberAttributes, NumberOfMethods := value.NumberMethods,
    NumberOfLines := value.NumberLines, NumberOfStmts := value.NumberStmts }

/-- The four `+=` of lines 199-202 and 205-208. -/
def Node.addCounters (n : Node) (value : NodeInfo) : Node :=
  { n with
    NumberOfAttributes := n.NumberOfAttributes + value.NumberAttributes,
    NumberOfLines := n.NumberOfLines + value.NumberLines,
    NumberOfMethods := n.NumberOfMethods + value.NumberMethods,
    NumberOfStmts := n.NumberOfStmts + value.NumberStmts }

/-- The pattern `_, ok := n.childrenMap[k]; if !ok { n.childrenMap[k] = fresh }`
followed by work `f` on `n.childrenMap[k]` through the pointer. On the nil map
the read finds nothing and the write is a fault. -/
def Node.withChild (n : Node) (k : Str) (fresh : Node) (f : Node → Except Fault Node) :
    Except Fault Node :=
  match n.childrenMap with
  | none => .error .nilMapWrite
  | some m =>
    match f ((lookupChild k m).getD fresh) with
    | .error e => .error e
    | .ok c => .ok { n with childrenMap := some (storeChild k c m) }

/-- Lines 186-209, on the file node. -/
def mergeValue (fileNode : Node) (structName : Str) (value : NodeInfo) : Except Fault Node :=
  if structName.length > 0 then
    match fileNode.getChild structName with
    | none => fileNode.setChild structName (newStruct structName value)
    | some structNode => fileNode.setChild structName (structNode.addCounters value)
  else .ok (fileNode.addCounters value)

/-- Lines 163-209: the walk down `paths` from `currentNode`, then the file. -/
def mergeAt (fileName structName : Str) (value : NodeInfo) : List Str → Node → Except Fault Node
  | [], currentNode =>
    currentNode.withChild fileName (newFile fileName) (fun fileNode =>
      mergeValue fileNode structName value)
  | path :: paths, currentNode =>
    currentNode.withChild path (newPackage path) (mergeAt fileName structName value paths)

/-- One iteration of the loop of line 160. -/
def mergeEntry (tree : Node) (key : Str) (value : NodeInfo) : Except Fault Node :=
  let r := getPathAndFile key
  mergeAt r.2.1 r.2.2 value r.1 tree

/-- The root of lines 154-158. -/
def newRoot (repositoryName : Str) : Node :=
  { Node.zero with Name := repositoryName, childrenMap := some [], Children := [] }

/-- The loop of lines 160-210 from `tree`, over the entries in the order the
loop visits them. -/
def mergeLoop : List (Str × NodeInfo) → Node → Except Fault Node
  | [], tree => .ok tree
  | (key, value) :: items, tree =>
    match mergeEntry tree key value with
    | .error e => .error e
    | .ok tree' => mergeLoop items tree'

/-- Lines 154-210 of `New`: the tree before finalisation. -/
def buildTree (items : List (Str × NodeInfo)) (repositoryName : Str) : Except Fault Node :=
  mergeLoop items (newRoot repositoryName)

/-! ## model: finalisation -/

/-- The constant `BaseTypeFlag`. -/
def BaseTypeFlag : Str := "\x7b\x7bTYPE\x7d\x7d".toList

/-- The constant `PackageBaseTypeURL`. -/
def PackageBaseTypeURL : Str := "tree".toList

/-- The constant `FileBaseTypeURL`. -/
def FileBaseTypeURL : Str := "blob".toList

/-- The scan of `strings.Replace`: `skip` characters of a replaced occurrence
are still to be passed over. -/
def replaceFrom (old new : Str) : Nat → Str → Str
  | _, [] => []
  | skip + 1, _ :: cs => replaceFrom old new skip cs
  | 0, c :: cs =>
    if old.isPrefixOf (c :: cs) then new ++ replaceFrom old new (old.length - 1) cs
    else c :: replaceFrom old new 0 cs

/-- The function `strings.Replace(s, old, new, -1)` for a non-empty `old`. -/
def Replace (s old new : Str) : Str := replaceFrom old new 0 s

/-- The verb `%d` of `fmt.Sprintf` on an `int`. -/
def formatInt : Int → Str
  | Int.ofNat n => Nat.toDigits 10 n
  | Int.negSucc n => '-' :: Nat.toDigits 10 (n + 1)

/-- The function `getNodeURL`: the pair `(raw, formatted)`. -/
def getNodeURL (node : Node) (parentPath : Str) : Str × Str :=
  if node.Type_ = NodeType.StructType then
    let formatted :=
      Replace parentPath BaseTypeFlag FileBaseTypeURL ++ ['#', 'L'] ++ formatInt node.Line
    (formatted, formatted)
  else
    let raw := if node.Name.length > 0 then parentPath ++ ['/'] ++ node.Name else parentPath
    if node.Type_ = NodeType.PackageType then (raw, Replace raw BaseTypeFlag PackageBaseTypeURL)
    else (raw, Replace raw BaseTypeFlag FileBaseTypeURL)

/-- Modelled from the spec: the type `byWidth` and its `Less` are declared
outside the files at hand; "sorts each node's immediate children by descending
width (stable tie-break)". This is `sort.Sort(sort.Reverse(byWidth(children)))`:
a larger `Width` comes first, equal widths keep their order. -/
def sortByWidth (children : List Node) : List Node :=
  children.insertionSort (fun a b => b.Width ≤ a.Width)

/-- The length of a map; the nil map has length 0. -/
def mapLen (m : Option (List (Str × Node))) : Nat :=
  match m with
  | none => 0
  | some l => l.length

/-- An order in which a `range` may visit the entries of a map: a permutation
of the order in which the model keeps them. -/
structure RangeOrder where
  apply : List Node → List Node
  perm : ∀ l, (apply l).Perm l

/-- The order in which the model keeps the entries. -/
def RangeOrder.same : RangeOrder where
  apply := id
  perm := fun l => List.Perm.refl l

/-- The opposite of the order in which the model keeps the entries. -/
def RangeOrder.reversed : RangeOrder where
  apply := List.reverse
  perm := fun l => List.reverse_perm l

mutual
/-- The method `Node.GenerateChildList`. The children met by the `range` of
line 64 are appended in the order `ord` puts them in. The entries of
`childrenMap` are not read again afterwards and stay as they are. -/
def GenerateChildList (ord : RangeOrder) : Node → Str → Node
  | ⟨name, url, ty, w, d, pos, nl, nm, na, ns, children, line, none⟩, _ =>
    ⟨name, url, ty, w, d, pos, nl, nm, na, ns, sortByWidth children, line, none⟩
  | ⟨name, url, ty, w, d, pos, nl, nm, na, ns, children, line, some m⟩, parentPath =>
    ⟨name, url, ty, w, d, pos, nl, nm, na, ns,
      sortByWidth (children ++ ord.apply (visitChildren ord m parentPath)), line, some m⟩
/-- The body of the loop of lines 64-71, for each entry of the map. -/
def visitChildren (ord : RangeOrder) : List (Str × Node) → Str → List Node
  | [], _ => []
  | (_, child) :: m, parentPath =>
    let u := getNodeURL child parentPath
    let child' :=
      if mapLen child.childrenMap > 0 then GenerateChildList ord child u.1 else child
    { child' with URL := u.2 } :: visitChildren ord m parentPath
end

/-! ## model: layout -/

/-- The position generator of lines 84-90, which is declared outside the files
at hand and is a parameter of the layout: `NewGenerator`, `NextPosition` and
`GetBounds`, with the state of the generator made explicit. -/
structure Generator (σ : Type) where
  NewGenerator : Nat → σ
  NextPosition : σ → ℚ → ℚ → σ × Position
  GetBounds : σ → Position

/-- Lines 94-95: the shift of a child by half the bounds. -/
def shiftChild (bounds : Position) (child : Node) : Node :=
  { child with
    Position := ⟨child.Position.X - bounds.X / 2, child.Position.Y - bounds.Y / 2⟩ }

mutual
/-- The method `Node.GenerateChildrenPosition`. -/
def GenerateChildrenPosition {σ : Type} (G : Generator σ) : Node → Node
  | ⟨name, url, ty, _, _, pos, nl, nm, na, ns, children, line, cm⟩ =>
    if children.length = 0 then
      ⟨name, url, ty, (na : ℚ) + 1, (na : ℚ) + 1, pos, nl, nm, na, ns, children, line, cm⟩
    else
      let r := placeChildren G children (G.NewGenerator children.length)
      let bounds := G.GetBounds r.2
      let kids := r.1.map (shiftChild bounds)
      if ty = NodeType.FileType then
        ⟨name, url, ty, bounds.X + (na : ℚ), bounds.Y + (na : ℚ), pos, nl, nm, na, ns,
          kids, line, cm⟩
      else
        ⟨name, url, ty, bounds.X, bounds.Y, pos, nl, nm, na, ns, kids, line, cm⟩
/-- The loop of lines 85-88: the children laid out, and the generator after. -/
def placeChildren {σ : Type} (G : Generator σ) : List Node → σ → List Node × σ
  | [], g => ([], g)
  | child :: rest, g =>
    let child' := GenerateChildrenPosition G child
    let p := G.NextPosition g child'.Width child'.Depth
    let r := placeChildren G rest p.1
    ({ child' with Position := p.2 } :: r.1, r.2)
end

/-- The state of the shelf packing: the cursor, the height of the current
shelf, the largest x-extent so far. -/
structure Shelf where
  x : ℚ
  y : ℚ
  shelfHeight : ℚ
  maxX : ℚ
  deriving DecidableEq, Repr

/-- Closing the shelf: "advance y by the shelf height, reset x to 0, start a
new shelf". -/
def Shelf.close (s : Shelf) : Shelf :=
  { x := 0, y := s.y + s.shelfHeight, shelfHeight := 0, maxX := s.maxX }

/-- Modelled from the spec: the position generator (`NewGenerator`,
`NextPosition`, `GetBounds`) is declared outside the files at hand. "Maintain
a cursor (x, y) and the current shelf's height (max child height placed in it
so far). Place the next child at the cursor; if placing it would make the
shelf's accumulated width exceed the shelf's height, close the shelf before
placing." The child occupies the rectangle whose corner is the cursor; its
position is the centre of that rectangle, rectangles being "centered at
position". The bounds are "(max x-extent, total y-extent)". -/
def shelfGenerator : Generator Shelf where
  NewGenerator := fun _ => { x := 0, y := 0, shelfHeight := 0, maxX := 0 }
  NextPosition := fun s width depth =>
    let s := if s.x + width > s.shelfHeight then s.close else s
    ({ x := s.x + width, y := s.y, shelfHeight := max s.shelfHeight depth,
       maxX := max s.maxX (s.x + width) },
     ⟨s.x + width / 2, s.y + depth / 2⟩)
  GetBounds := fun s => ⟨s.maxX, s.y + s.shelfHeight⟩

/-! ## model: component statistics -/

/-- Modelled from the spec: the type `Component` is declared outside the files
at hand; "keyed by dotted package path; holds nbFiles, nbMethods, nbStmts,
isRoot", with the field `name` that line 120 sets. -/
structure Component where
  name : Str
  isRoot : Bool
  nbMethods : Int
  nbFiles : Int
  nbStmts : Int
  deriving DecidableEq, Repr

/-- Reading `components[k]`. -/
def lookupComponent (k : Str) : List (Str × Component) → Option Component
  | [] => none
  | (k', v) :: m => if k' = k then some v else lookupComponent k m

/-- Writing `components[k] = v`. -/
def storeComponent (k : Str) (v : Component) : List (Str × Component) → List (Str × Component)
  | [] => [(k, v)]
  | (k', v') :: m => if k' = k then (k, v) :: m else (k', v') :: storeComponent k v m

/-- Lines 109-126: the package path at node `n`. -/
def packageNameAt (currentPackageName : Str) (n : Node) : Str :=
  if n.Type_ = NodeType.PackageType then
    if n.Name ≠ [] then
      if currentPackageName ≠ [] then currentPackageName ++ ['.'] ++ n.Name else n.Name
    else currentPackageName
  else currentPackageName

/-- Lines 109-136: what the visit of node `n` does to the statement count and
to the components. -/
def visitNode (rootPackageName currentPackageName : Str) (n : Node)
    (st : Int × List (Str × Component)) : Int × List (Str × Component) :=
  let current := packageNameAt currentPackageName n
  let components :=
    if n.Type_ = NodeType.PackageType then
      match lookupComponent current st.2 with
      | some _ => st.2
      | none =>
        storeComponent current
          { name := current, isRoot := current = rootPackageName,
            nbMethods := n.NumberOfMethods, nbFiles := 0, nbStmts := 0 } st.2
    else st.2
  match lookupComponent current components with
  | some cmp =>
    (st.1 + n.NumberOfStmts,
     storeComponent current
       { cmp with
         nbFiles := if n.Type_ = NodeType.FileType then cmp.nbFiles + 1 else cmp.nbFiles,
         nbMethods := cmp.nbMethods + n.NumberOfMethods,
         nbStmts := cmp.nbStmts + n.NumberOfStmts } components)
  | none => (st.1, components)

mutual
/-- The function `generateStateByComponents`, on a node that is not nil; the
state is the pair of `*stmtCount` and `components`. -/
def generateStateByComponents (rootPackageName : Str) :
    Str → Node → Int × List (Str × Component) → Int × List (Str × Component)
  | currentPackageName, ⟨name, url, ty, w, d, pos, nl, nm, na, ns, children, line, cm⟩, st =>
    let n : Node := ⟨name, url, ty, w, d, pos, nl, nm, na, ns, children, line, cm⟩
    generateStateOfChildren rootPackageName (packageNameAt currentPackageName n) children
      (visitNode rootPackageName currentPackageName n st)
/-- The loop of lines 139-141. -/
def generateStateOfChildren (rootPackageName : Str) :
    Str → List Node → Int × List (Str × Component) → Int × List (Str × Component)
  | _, [], st => st
  | currentPackageName, child :: rest, st =>
    generateStateOfChildren rootPackageName currentPackageName rest
      (generateStateByComponents rootPackageName currentPackageName child st)
end

/-- The summary scalars of lines 216-232. -/
structure Summary where
  nbTotalStmts : Int
  nbTotalComponents : Int
  mean : ℚ
  squareDiffSum : ℚ
  deriving DecidableEq, Repr

/-- Lines 223-232: the integer division of line 225 faults on a zero divisor;
the mean is the truncated quotient, converted. -/
def summarise (st : Int × List (Str × Component)) : Except Fault Summary :=
  let nbTotalStmts := st.1
  let nbTotalComponents : Int := st.2.length
  if nbTotalComponents = 0 then .error .divideByZero
  else
    let mean : ℚ := ((Int.tdiv nbTotalStmts nbTotalComponents : Int) : ℚ)
    .ok { nbTotalStmts := nbTotalStmts, nbTotalComponents := nbTotalComponents, mean := mean,
          squareDiffSum := (st.2.map (fun kc => (|(kc.2.nbStmts : ℚ) - mean|) ^ 2)).sum }

/-- The format of line 213: `https://<repositoryName>/<BaseTypeFlag>/master`. -/
def rootPath (repositoryName : Str) : Str :=
  "https://".toList ++ repositoryName ++ ['/'] ++ BaseTypeFlag ++ "/master".toList

/-- Lines 213-214: finalisation and layout of the merged tree. -/
def finishTree {σ : Type} (G : Generator σ) (ord : RangeOrder) (tree : Node)
    (repositoryName : Str) : Node :=
  GenerateChildrenPosition G (GenerateChildList ord tree (rootPath repositoryName))

/-- The function `model.New`: the returned tree, or the fault that stops it.
The report written to standard output is not part of the result. -/
def New {σ : Type} (G : Generator σ) (ord : RangeOrder)
    (items : List (Str × NodeInfo)) (repositoryName : Str) : Except Fault Node :=
  match buildTree items repositoryName with
  | .error e => .error e
  | .ok tree =>
    let tree := finishTree G ord tree repositoryName
    match summarise (generateStateByComponents repositoryName repositoryName tree (0, [])) with
    | .error e => .error e
    | .ok _ => .ok tree

/-- Lines 154-232 of `New`: the summary scalars that the report prints, or the
fault that stops `New` before. -/
def summaryOf {σ : Type} (G : Generator σ) (ord : RangeOrder)
    (items : List (Str × NodeInfo)) (repositoryName : Str) : Except Fault Summary :=
  match buildTree items repositoryName with
  | .error e => .error e
  | .ok tree =>
    summarise (generateStateByComponents repositoryName repositoryName
      (finishTree G ord tree repositoryName) (0, []))

/-- The state of the walk of line 222 over the tree that `New` returns: the
statement count and the components. -/
def walkOf (repositoryName : Str) (t : Node) : Int × List (Str × Component) :=
  generateStateByComponents repositoryName repositoryName t (0, [])

/-! ## Observations on the merged tree -/

/-- The node reached from `n` along `path`, one key of `childrenMap` for each
segment. -/
def nodeAt : Node → List Str → Option Node
  | n, [] => some n
  | n, k :: path =>
    match n.getChild k with
    | none => none
    | some c => nodeAt c path

/-- What the merge loop decides about a node: its type, its line, its four
counters, and whether it has a child index. -/
structure Info where
  type : NodeType
  line : Int
  lines : Int
  methods : Int
  attributes : Int
  stmts : Int
  hasMap : Bool
  deriving DecidableEq, Repr

/-- The observation of one node. -/
def Node.info (n : Node) : Info :=
  { type := n.Type_, line := n.Line, lines := n.NumberOfLines, methods := n.NumberOfMethods,
    attributes := n.NumberOfAttributes, stmts := n.NumberOfStmts,
    hasMap := n.childrenMap.isSome }

/-- The observation of the node at `path`, if there is one. -/
def infoAt (t : Node) (path : List Str) : Option Info :=
  (nodeAt t path).map Node.info

/-- The four counters (lines, methods, attributes, statements) of the node at
`path`; a node that is absent counts as zero. -/
def countersAt (t : Node) (path : List Str) : Int × Int × Int × Int :=
  match nodeAt t path with
  | some n => (n.NumberOfLines, n.NumberOfMethods, n.NumberOfAttributes, n.NumberOfStmts)
  | none => (0, 0, 0, 0)

/-- The four counters of an entry, in the same order. -/
def NodeInfo.counters (v : NodeInfo) : Int × Int × Int × Int :=
  (v.NumberLines, v.NumberMethods, v.NumberAttributes, v.NumberStmts)

/-- The path of the node that receives the counters of an entry: the directory
segments, the file name, and the struct name when there is one. -/
def targetOf (paths : List Str) (fileName structName : Str) : List Str :=
  if structName.length > 0 then paths ++ [fileName, structName] else paths ++ [fileName]

/-- The target path of an identifier. -/
def targetPath (key : Str) : List Str :=
  targetOf (getPathAndFile key).1 (getPathAndFile key).2.1 (getPathAndFile key).2.2

/-- The type the loop gives to a node it creates at depth `n` on the way of an
entry with `dirs` directory segments. -/
def roleOf (dirs n : Nat) : NodeType :=
  if n ≤ dirs then NodeType.PackageType
  else if n = dirs + 1 then NodeType.FileType
  else NodeType.StructType

/-- Two identifiers agree on the type of every node that both create: no path
is a directory for one and a file or a struct for the other. -/
def NoClash (k1 k2 : Str) : Prop :=
  ∀ p ∈ (targetPath k1).inits, p ∈ (targetPath k2).inits →
    roleOf (getPathAndFile k1).1.length p.length = roleOf (getPathAndFile k2).1.length p.length

instance (k1 k2 : Str) : Decidable (NoClash k1 k2) := by
  unfold NoClash; infer_instance

/-- A tree seen as a function from paths to observations. -/
abbrev Flat := List Str → Option Info

/-- The four `+=` on an observation. -/
def Info.add (i : Info) (v : NodeInfo) : Info :=
  { i with
    attributes := i.attributes + v.NumberAttributes, lines := i.lines + v.NumberLines,
    methods := i.methods + v.NumberMethods, stmts := i.stmts + v.NumberStmts }

/-- The observation of the node that an entry leaves at depth `n` of its
target path when no node was there. -/
def createdInfo (dirs : Nat) (structName : Str) (v : NodeInfo) (n : Nat) : Info :=
  if n ≤ dirs then (newPackage []).info
  else if n = dirs + 1 then
    if structName.length > 0 then (newFile []).info else ((newFile []).info).add v
  else (newStruct [] v).info

/-- The walk of an entry is stopped: a node strictly above its target has no
child index. -/
def flatBlocked (target : List Str) (z : Flat) : Bool :=
  target.inits.any (fun p =>
    decide (p ≠ target) &&
      match z p with
      | some i => !i.hasMap
      | none => false)

/-- The observations after a merge along `target`: a node on the way is kept,
or created with the observation `created` gives its depth; the node at
`target` receives the counters of `v`. -/
def flatValAt (target : List Str) (created : Nat → Info) (v : NodeInfo) (z : Flat) : Flat :=
  fun p =>
    if p ∈ target.inits then
      match z p with
      | some i => some (if p = target then i.add v else i)
      | none => some (created p.length)
    else z p

/-- The observations after the merge of one entry. -/
def flatVal (paths : List Str) (fileName structName : Str) (v : NodeInfo) (z : Flat) : Flat :=
  flatValAt (targetOf paths fileName structName) (createdInfo paths.length structName v) v z

/-- One iteration of the merge loop on observations; `none` is the fault. -/
def flatStep (st : Option Flat) (e : Str × NodeInfo) : Option Flat :=
  match st with
  | none => none
  | some z =>
    if flatBlocked (targetPath e.1) z then none
    else
      some (flatVal (getPathAndFile e.1).1 (getPathAndFile e.1).2.1 (getPathAndFile e.1).2.2
        e.2 z)

/-! ## Observations on the finished tree -/

/-- The first node of `children` named `name`. -/
def childNamed (name : Str) : List Node → Option Node
  | [] => none
  | c :: cs => if c.Name = name then some c else childNamed name cs

/-- The node reached from `n` along `path` through `Children`. -/
def descendant : Node → List Str → Option Node
  | n, [] => some n
  | n, k :: path =>
    match childNamed k n.Children with
    | none => none
    | some c => descendant c path

/-- The generator fed with the sizes of the children, in order: the positions
it hands out and its state afterwards. -/
def placeAll {σ : Type} (G : Generator σ) : List (ℚ × ℚ) → σ → List Position × σ
  | [], g => ([], g)
  | wd :: rest, g =>
    let p := G.NextPosition g wd.1 wd.2
    let r := placeAll G rest p.1
    (p.2 :: r.1, r.2)

/-! ## Notions used by the proofs -/

/-- A function on nodes follows the observation-level merge along `T`. -/
def Follows (g : Node → Except Fault Node) (T : List Str) (cr : Nat → Info) (v : NodeInfo) :
    Prop :=
  ∀ c : Node,
    (∀ e, g c = .error e → e = Fault.nilMapWrite ∧ flatBlocked T (infoAt c) = true) ∧
    (∀ c', g c = .ok c' →
      flatBlocked T (infoAt c) = false ∧ infoAt c' = flatValAt T cr v (infoAt c))

/-- Two entries can be merged in either order: they agree on the type of
every node both create, and when both are the same struct they carry the same
line. -/
def Compatible (x y : Str × NodeInfo) : Prop :=
  NoClash x.1 y.1 ∧
    (targetPath x.1 = targetPath y.1 → 0 < (getPathAndFile x.1).2.2.length → x.2.Line = y.2.Line)

/-- Every node without a child index is the struct of one of the entries of
`L`. -/
def StructsFrom (L : List (Str × NodeInfo)) (z : Flat) : Prop :=
  ∀ p i, z p = some i → i.hasMap = false →
    ∃ e ∈ L, p = targetPath e.1 ∧ 0 < (getPathAndFile e.1).2.2.length

/-- The four counters of an observation. -/
def Info.counters (i : Info) : Int × Int × Int × Int :=
  (i.lines, i.methods, i.attributes, i.stmts)

/-- The four counters at a path of a flat tree; zero where there is no node. -/
def flatCounters (z : Flat) (p : List Str) : Int × Int × Int × Int :=
  match z p with
  | some i => i.counters
  | none => 0

/-- The counters that the entries of `items` bring to the node at `p`. -/
def broughtTo (p : List Str) (items : List (Str × NodeInfo)) : Int × Int × Int × Int :=
  (items.map (fun e => if p = targetPath e.1 then e.2.counters else 0)).sum

/-- The inverse of `Split`: the segments joined by `sep`. -/
def unsplit (sep : Char) : List Str → Str
  | [] => []
  | [s] => s
  | s :: t :: ss => s ++ sep :: unsplit sep (t :: ss)

/-- The text that the optional group of `regexpFile` matches. -/
def groupSuffix (g2 : Str) : Str :=
  if g2 = [] then [] else ['.', '('] ++ g2 ++ [')']

/-- The type of the node at `path` in the outcome of a build, if the build
completes and the node exists. -/
def typeIn (r : Except Fault Node) (path : List Str) : Option NodeType :=
  match r with
  | .ok t => (infoAt t path).map Info.type
  | .error _ => none

/-- The tree of an outcome; the zero node stands for a fault. -/
def treeOr (r : Except Fault Node) : Node :=
  match r with
  | .ok t => t
  | .error _ => Node.zero

/-! ## Sample data -/

/-- A FILE node with two attributes of its own and two laid-out structs. -/
def sampleFile : Node :=
  { newFile "f.go".toList with
    NumberOfAttributes := 2,
    Children := [newStruct "A".toList ⟨3, 0, 1, 4, 2⟩, newStruct "B".toList ⟨9, 5, 1, 8, 3⟩] }

/-- Two structs of one file: `A` without attributes, `B` with five. -/
def sampleStructs : List (Str × NodeInfo) :=
  [("p/f.go.(A)".toList, ⟨3, 0, 1, 4, 2⟩), ("p/f.go.(B)".toList, ⟨9, 5, 1, 8, 3⟩)]

/-- A file `a.go`, and a file below a directory that is also named `a.go`. -/
def sampleClash : List (Str × NodeInfo) :=
  [("a.go".toList, ⟨0, 1, 1, 10, 5⟩), ("a.go/b.go".toList, ⟨0, 2, 3, 20, 7⟩)]

/-- An identifier whose last segment is not a Go file name. -/
def sampleUnparseable : Str × NodeInfo :=
  ("x/notes".toList, ⟨0, 1, 2, 3, 4⟩)

/-- Two identifiers without a parseable file name in one directory: both
resolve to the node with the empty name below `x`. -/
def sampleNotes : List (Str × NodeInfo) :=
  [("x/notes".toList, ⟨0, 1, 2, 3, 4⟩), ("x/other".toList, ⟨0, 10, 20, 30, 40⟩)]

/-! ## Rectangles -/

/-- An axis-parallel rectangle, by its extent on both axes. -/
structure Rect where
  x0 : ℚ
  x1 : ℚ
  y0 : ℚ
  y1 : ℚ
  deriving DecidableEq, Repr

/-- The rectangle centred at `p` of size `w × d`. -/
def rectAt (p : Position) (w d : ℚ) : Rect :=
  { x0 := p.X - w / 2, x1 := p.X + w / 2, y0 := p.Y - d / 2, y1 := p.Y + d / 2 }

/-- The bounding rectangle of a node: centred at its position, of size
`Width × Depth`. -/
def Node.rect (c : Node) : Rect := rectAt c.Position c.Width c.Depth

/-- Two rectangles do not overlap: they are apart on one of the axes (a common
edge is allowed). -/
def Rect.Disjoint (a b : Rect) : Prop :=
  a.x1 ≤ b.x0 ∨ b.x1 ≤ a.x0 ∨ a.y1 ≤ b.y0 ∨ b.y1 ≤ a.y0

instance (a b : Rect) : Decidable (a.Disjoint b) := by
  unfold Rect.Disjoint; infer_instance

/-- A rectangle moved by `(-dx, -dy)`. -/
def Rect.shift (dx dy : ℚ) (r : Rect) : Rect :=
  { x0 := r.x0 - dx, x1 := r.x1 - dx, y0 := r.y0 - dy, y1 := r.y1 - dy }

/-- The rectangles of the positions handed out for a list of sizes. -/
def packedRects (positions : List Position) (sizes : List (ℚ × ℚ)) : List Rect :=
  List.zipWith (fun p wd => rectAt p wd.1 wd.2) positions sizes

/-- The state from which a child is placed: the shelf is closed first when
the child would make it wider than it is high. -/
def shelfBefore (s : Shelf) (width : ℚ) : Shelf :=
  if s.x + width > s.shelfHeight then s.close else s

/-- What holds of the shelf packing after the rectangles `R` were placed. -/
structure ShelfInv (s : Shelf) (R : List Rect) : Prop where
  x_nonneg : 0 ≤ s.x
  y_nonneg : 0 ≤ s.y
  h_nonneg : 0 ≤ s.shelfHeight
  x_le : s.x ≤ s.maxX
  inside : ∀ r ∈ R, 0 ≤ r.x0 ∧ r.x1 ≤ s.maxX ∧ 0 ≤ r.y0 ∧ r.y1 ≤ s.y + s.shelfHeight
  shelf : ∀ r ∈ R, r.y1 ≤ s.y ∨ r.x1 ≤ s.x
  disjoint : R.Pairwise Rect.Disjoint
  empty : R = [] → s.x = 0 ∧ s.y = 0 ∧ s.shelfHeight = 0 ∧ s.maxX = 0
  left : R ≠ [] → ∃ r ∈ R, r.x0 = 0
  right : R ≠ [] → ∃ r ∈ R, r.x1 = s.maxX
  bottom : R ≠ [] → ∃ r ∈ R, r.y0 = 0
  top : R ≠ [] → ∃ r ∈ R, r.y1 = s.y + s.shelfHeight

/-- The node reached from `n` along `path`, one index into `Children` for each
step. -/
def subnode : Node → List Nat → Option Node
  | n, [] => some n
  | n, i :: path =>
    match n.Children.get? i with
    | none => none
    | some c => subnode c path

/-- The names of the nodes met from `n` along `path`, the root left out. -/
def namesOn : Node → List Nat → List Str
  | _, [] => []
  | n, i :: path =>
    match n.Children.get? i with
    | none => []
    | some c => c.Name :: namesOn c path

mutual
/-- No node of the tree has a negative `NumberOfAttributes`. -/
def attrsNonneg : Node → Bool
  | ⟨_, _, _, _, _, _, _, _, na, _, children, _, _⟩ => decide (0 ≤ na) && attrsNonnegAll children
/-- No node of the trees has a negative `NumberOfAttributes`. -/
def attrsNonnegAll : List Node → Bool
  | [] => true
  | c :: cs => attrsNonneg c && attrsNonnegAll cs
end

/-- The bounds of the generator after the laid-out children of `n` were placed
in order: the width and depth of `n` before any padding. -/
def packedBounds {σ : Type} (G : Generator σ) (n : Node) : Position :=
  G.GetBounds
    (placeAll G ((n.Children.map (GenerateChildrenPosition G)).map (fun c => (c.Width, c.Depth)))
      (G.NewGenerator n.Children.length)).2

/-- The names and widths of the children of the node at `path` in the outcome
of `New`, in their order, if `New` returns and the node exists. -/
def childWidthsIn (r : Except Fault Node) (path : List Str) : Option (List (Str × ℚ)) :=
  match r with
  | .ok t => (descendant t path).map (fun n => n.Children.map (fun c => (c.Name, c.Width)))
  | .error _ => none

/-! ## The visits of the aggregation walk -/

/-- Lines 117-136 at a node whose package path `current` is already computed. -/
def visitAt (rootPackageName current : Str) (n : Node)
    (st : Int × List (Str × Component)) : Int × List (Str × Component) :=
  let components :=
    if n.Type_ = NodeType.PackageType then
      match lookupComponent current st.2 with
      | some _ => st.2
      | none =>
        storeComponent current
          { name := current, isRoot := current = rootPackageName,
            nbMethods := n.NumberOfMethods, nbFiles := 0, nbStmts := 0 } st.2
    else st.2
  match lookupComponent current components with
  | some cmp =>
    (st.1 + n.NumberOfStmts,
     storeComponent current
       { cmp with
         nbFiles := if n.Type_ = NodeType.FileType then cmp.nbFiles + 1 else cmp.nbFiles,
         nbMethods := cmp.nbMethods + n.NumberOfMethods,
         nbStmts := cmp.nbStmts + n.NumberOfStmts } components)
  | none => (st.1, components)

mutual
/-- The nodes that the walk of `generateStateByComponents` visits from `n`, in
the order of the visits, each with the package path under which it is visited
(`currentPackageName` at line 128). -/
def visitsOf : Str → Node → List (Str × Node)
  | currentPackageName, ⟨name, url, ty, w, d, pos, nl, nm, na, ns, children, line, cm⟩ =>
    let n : Node := ⟨name, url, ty, w, d, pos, nl, nm, na, ns, children, line, cm⟩
    (packageNameAt currentPackageName n, n) ::
      visitsOfChildren (packageNameAt currentPackageName n) children
/-- The visits of the loop of lines 139-141. -/
def visitsOfChildren : Str → List Node → List (Str × Node)
  | _, [] => []
  | currentPackageName, child :: rest =>
    visitsOf currentPackageName child ++ visitsOfChildren currentPackageName rest
end

/-- The visits under the package path `k` that find its component: those from
the first visit of a PACKAGE node under `k` on, which creates the component. -/
def countedVisits (k : Str) (visits : List (Str × Node)) : List (Str × Node) :=
  (visits.dropWhile
    (fun v => !(decide (v.1 = k) && decide (v.2.Type_ = NodeType.PackageType)))).filter
    (fun v => decide (v.1 = k))

/-- The number of FILE nodes among visits. -/
def fileCount (visits : List (Str × Node)) : Int :=
  ((visits.filter (fun v => decide (v.2.Type_ = NodeType.FileType))).length : Int)

/-- The sum of `NumberOfStmts` over visits. -/
def stmtsOf (visits : List (Str × Node)) : Int :=
  (visits.map (fun v => v.2.NumberOfStmts)).sum

/-- The sum of `NumberOfMethods` over visits. -/
def methodsOf (visits : List (Str × Node)) : Int :=
  (visits.map (fun v => v.2.NumberOfMethods)).sum

/-- A file at the top of the repository, and a file below a directory with the
empty name. -/
def sampleLate : List (Str × NodeInfo) :=
  [("a.go".toList, ⟨0, 0, 2, 10, 3⟩), ("/b.go".toList, ⟨0, 0, 1, 5, 4⟩)]

/-- The tree of `sampleLate` for the repository `r`, with its child lists. -/
def sampleLateTree : Node :=
  GenerateChildList RangeOrder.same (treeOr (buildTree sampleLate "r".toList))
    (rootPath "r".toList)

/-! ## The finished tree against the merged tree -/

/-- The entries of the child index of a node; none for the nil map. -/
def kidsOf (c : Node) : List (Str × Node) :=
  match c.childrenMap with
  | none => []
  | some m => m

/-- What the body of the loop of lines 64-71 makes of the child `c`. -/
def finNode (ord : RangeOrder) (c : Node) (parentPath : Str) : Node :=
  { (if mapLen c.childrenMap > 0 then GenerateChildList ord c (getNodeURL c parentPath).1
      else c) with
    URL := (getNodeURL c parentPath).2 }

/-- Two nodes with the same name, type, line and counters. -/
structure SameFields (a b : Node) : Prop where
  name : a.Name = b.Name
  type : a.Type_ = b.Type_
  line : a.Line = b.Line
  lines : a.NumberOfLines = b.NumberOfLines
  methods : a.NumberOfMethods = b.NumberOfMethods
  attributes : a.NumberOfAttributes = b.NumberOfAttributes
  stmts : a.NumberOfStmts = b.NumberOfStmts

/-- A node as the merge loop leaves it: no child list yet, and a child index
whose keys are distinct and are the names of the children. -/
structure NodeOk (c : Node) : Prop where
  children : c.Children = []
  keys : ((kidsOf c).map Prod.fst).Nodup
  names : ∀ kc ∈ kidsOf c, kc.2.Name = kc.1

/-- Every node of the tree below `n`, through the child indexes, is as the
merge loop leaves it. -/
def WfTree (n : Node) : Prop :=
  ∀ keys c, nodeAt n keys = some c → NodeOk c

/-- The node `X` of the finished tree comes from the node `c` of the merged
tree, whose raw path is `raw`: the same fields, and as children what the loop
of lines 64-71 makes of the entries of the child index, in some order. -/
structure Img (ord : RangeOrder) (c : Node) (raw : Str) (X : Node) : Prop where
  same : SameFields X c
  children : X.Children.Perm ((kidsOf c).map (fun kc => finNode ord kc.2 raw))

/-- Every node but the root has the type, the line and the child index of the
node that one of the entries of `L` creates at that place. -/
def Origin (L : List (Str × NodeInfo)) (z : Flat) : Prop :=
  ∀ p i, z p = some i → p ≠ [] →
    ∃ e ∈ L, p <+: targetPath e.1 ∧
      i.type = roleOf (getPathAndFile e.1).1.length p.length ∧
      i.hasMap = decide (p.length ≤ (getPathAndFile e.1).1.length + 1) ∧
      (p = targetPath e.1 → 0 < (getPathAndFile e.1).2.2.length → i.line = e.2.Line)

/-- A step of the merge keeps the tree well formed, and the name of its root. -/
def Keeps (g : Node → Except Fault Node) : Prop :=
  ∀ c c', WfTree c → g c = .ok c' → WfTree c' ∧ c'.Name = c.Name

/-- A file `a.go`, a file below a directory that is also named `a.go`, and a
file in a package, in the order in which the merge loop takes them. -/
def sampleNested : List (Str × NodeInfo) :=
  [("a.go".toList, ⟨0, 1, 1, 10, 5⟩), ("a.go/b.go".toList, ⟨0, 2, 3, 20, 7⟩),
    ("p/c.go".toList, ⟨0, 0, 1, 4, 2⟩)]

/-- The struct `Widget`, declared at line 42 of `pkg/sub/file.go`, and the
code of that file outside the struct. -/
def sampleWidget : List (Str × NodeInfo) :=
  [("pkg/sub/file.go.(Widget)".toList, ⟨42, 1, 2, 10, 5⟩),
    ("pkg/sub/file.go".toList, ⟨0, 0, 1, 6, 3⟩)]

/-- The repository name `github.com/acme/svc`. -/
def sampleRepository : Str := "github.com/acme/svc".toList

/-- The tree that `New` returns for `sampleWidget` with the shelf packing. -/
def sampleWidgetTree : Node :=
  finishTree shelfGenerator RangeOrder.same (treeOr (buildTree sampleWidget sampleRepository))
    sampleRepository

/-- The tree that `New` returns for `sampleNested` with the shelf packing. -/
def sampleNestedTree : Node :=
  finishTree shelfGenerator RangeOrder.same (treeOr (buildTree sampleNested "r".toList))
    "r".toList

/-- The FILE node `pkg/sub/file.go` of `sampleWidgetTree`. -/
def sampleWidgetFile : Node :=
  (subnode sampleWidgetTree [0, 0, 0]).getD Node.zero

/-- The STRUCT node `Widget` of `sampleWidgetTree`. -/
def sampleWidgetStruct : Node :=
  (subnode sampleWidgetTree [0, 0, 0, 0]).getD Node.zero

/-- The segments, each after a slash. -/
def slashed : List Str → Str
  | [] => []
  | s :: ss => '/' :: (s ++ slashed ss)

/-- A file in a directory named as the flag of the URL template. -/
def sampleFlag : List (Str × NodeInfo) :=
  [("\x7b\x7bTYPE\x7d\x7d/gen.go".toList, ⟨0, 0, 1, 6, 3⟩)]

/-- The tree that `New` returns for `sampleFlag` with the shelf packing. -/
def sampleFlagTree : Node :=
  finishTree shelfGenerator RangeOrder.same (treeOr (buildTree sampleFlag sampleRepository))
    sampleRepository

/-! ## Statement counts -/

mutual
/-- The sum of `NumberOfStmts` over the node and the nodes below it through
the child indexes. -/
def mapStmts : Node → Int
  | ⟨_, _, _, _, _, _, _, _, _, ns, _, _, none⟩ => ns
  | ⟨_, _, _, _, _, _, _, _, _, ns, _, _, some m⟩ => ns + mapStmtsAll m
/-- The sum of `mapStmts` over the entries of a child index. -/
def mapStmtsAll : List (Str × Node) → Int
  | [] => 0
  | (_, c) :: m => mapStmts c + mapStmtsAll m
end

/-- A step of the merge adds the statements of the entry to the tree. -/
def Adds (g : Node → Except Fault Node) (v : NodeInfo) : Prop :=
  ∀ c c', g c = .ok c' → mapStmts c' = mapStmts c + v.NumberStmts

/-- The statement count of the walk is the sum of the statement counts of the
components. -/
def SumInv (st : Int × List (Str × Component)) : Prop :=
  st.1 = (st.2.map (fun kc => kc.2.nbStmts)).sum

end CodeAnalyzer

/-! # Properties -/

namespace CodeAnalyzer

/-! ## Maps -/

theorem lookupChild_storeChild_same (k : Str) (v : Node) (m : List (Str × Node)) :
    lookupChild k (storeChild k v m) = some v := by
  induction m with
  | nil => simp [storeChild, lookupChild]
  | cons kv m ih =>
    obtain ⟨k', v'⟩ := kv
    by_cases h : k' = k
    · simp [storeChild, lookupChild, h]
    · simp [storeChild, lookupChild, h, ih]

theorem lookupChild_storeChild_ne {k k' : Str} (h : k' ≠ k) (v : Node) (m : List (Str × Node)) :
    lookupChild k' (storeChild k v m) = lookupChild k' m := by
  induction m with
  | nil => simp [storeChild, lookupChild, Ne.symm h]
  | cons kv m ih =>
    obtain ⟨k₀, v₀⟩ := kv
    by_cases h₀ : k₀ = k
    · subst h₀
      simp [storeChild, lookupChild, Ne.symm h]
    · by_cases h₁ : k₀ = k'
      · subst h₁
        simp [storeChild, lookupChild, h₀]
      · simp [storeChild, lookupChild, h₀, h₁, ih]

/-- The observations of a node after `childrenMap[k] = c`. -/
theorem infoAt_store (n : Node) (m : List (Str × Node)) (hm : n.childrenMap = some m)
    (k : Str) (c : Node) (p : List Str) :
    infoAt { n with childrenMap := some (storeChild k c m) } p =
      match p with
      | [] => infoAt n []
      | k' :: q => if k' = k then infoAt c q else infoAt n (k' :: q) := by
  cases p with
  | nil => simp [infoAt, nodeAt, Node.info, hm]
  | cons k' q =>
    by_cases h : k' = k
    · subst h
      simp [infoAt, nodeAt, Node.getChild, lookupChild_storeChild_same]
    · simp [infoAt, nodeAt, Node.getChild, lookupChild_storeChild_ne h, hm, h]

end CodeAnalyzer

namespace CodeAnalyzer

/-! ## The merge loop on observations -/

theorem infoAt_nil (t : Node) : infoAt t [] = some t.info := rfl

theorem flatBlocked_eq_true {T : List Str} {z : Flat} :
    flatBlocked T z = true ↔
      ∃ p i, p <+: T ∧ p ≠ T ∧ z p = some i ∧ i.hasMap = false := by
  unfold flatBlocked
  rw [List.any_eq_true]
  constructor
  · rintro ⟨p, hp, h⟩
    rw [List.mem_inits] at hp
    rw [Bool.and_eq_true] at h
    obtain ⟨h1, h2⟩ := h
    cases hz : z p with
    | none => simp [hz] at h2
    | some i =>
      simp [hz] at h2
      exact ⟨p, i, hp, by simpa using h1, hz, h2⟩
  · rintro ⟨p, i, hp, hne, hz, hi⟩
    exact ⟨p, (List.mem_inits _ _).2 hp, by simp [hne, hz, hi]⟩

theorem flatBlocked_eq_false {T : List Str} {z : Flat} :
    flatBlocked T z = false ↔
      ∀ p i, p <+: T → p ≠ T → z p = some i → i.hasMap = true := by
  rw [← Bool.not_eq_true, flatBlocked_eq_true]
  constructor
  · intro h p i hp hne hz
    by_contra hi
    exact h ⟨p, i, hp, hne, hz, by simpa using hi⟩
  · rintro h ⟨p, i, hp, hne, hz, hi⟩
    have := h p i hp hne hz
    simp [hi] at this

theorem infoAt_cons_of_lookup {n : Node} {m : List (Str × Node)} (hm : n.childrenMap = some m)
    (k : Str) (q : List Str) :
    infoAt n (k :: q) =
      match lookupChild k m with
      | some c => infoAt c q
      | none => none := by
  simp only [infoAt, nodeAt, Node.getChild, hm]
  cases lookupChild k m <;> rfl

theorem infoAt_empty_map {n : Node} (hm : n.childrenMap = some []) (k : Str) (q : List Str) :
    infoAt n (k :: q) = none := by
  rw [infoAt_cons_of_lookup hm]; rfl

theorem withChild_follows {g : Node → Except Fault Node} {T : List Str} {cr : Nat → Info}
    (cr' : Nat → Info) {v : NodeInfo} (hg : Follows g T cr v) (k : Str) (fresh : Node)
    (hfm : fresh.childrenMap = some [])
    (hfi : cr' 1 = if T = [] then fresh.info.add v else fresh.info)
    (hcr : ∀ n, cr' (n + 2) = cr (n + 1)) :
    Follows (fun n => n.withChild k fresh g) (k :: T) cr' v := by
  intro n
  cases hm : n.childrenMap with
  | none =>
    constructor
    · intro e he
      simp only [Node.withChild, hm] at he
      refine ⟨by injection he with he; exact he.symm, ?_⟩
      rw [flatBlocked_eq_true]
      exact ⟨[], n.info, List.nil_prefix, by simp, rfl, by simp [Node.info, hm]⟩
    · intro c' hc'
      simp [Node.withChild, hm] at hc'
  | some m =>
    -- the child the walk continues in, and what is known of it
    have hchild : ∀ q, infoAt ((lookupChild k m).getD fresh) q =
        match lookupChild k m with
        | some _ => infoAt n (k :: q)
        | none => infoAt fresh q := by
      intro q
      rw [infoAt_cons_of_lookup hm]
      cases lookupChild k m <;> rfl
    obtain ⟨hgE, hgO⟩ := hg ((lookupChild k m).getD fresh)
    constructor
    · intro e he
      simp only [Node.withChild, hm] at he
      cases hgc : g ((lookupChild k m).getD fresh) with
      | ok c' => simp [hgc] at he
      | error e' =>
        simp only [hgc] at he
        injection he with he
        subst he
        obtain ⟨he', hb⟩ := hgE e' hgc
        refine ⟨he', ?_⟩
        rw [flatBlocked_eq_true] at hb ⊢
        obtain ⟨p, i, hp, hne, hz, hi⟩ := hb
        rw [hchild] at hz
        cases hl : lookupChild k m with
        | some c =>
          simp only [hl] at hz
          exact ⟨k :: p, i, by simpa using hp, by simpa using hne, hz, hi⟩
        | none =>
          simp only [hl] at hz
          cases p with
          | nil =>
            rw [infoAt_nil] at hz
            injection hz with hz
            subst hz
            simp [Node.info, hfm] at hi
          | cons a q => rw [infoAt_empty_map hfm] at hz; cases hz
    · intro t' ht'
      simp only [Node.withChild, hm] at ht'
      cases hgc : g ((lookupChild k m).getD fresh) with
      | error e' => simp [hgc] at ht'
      | ok c' =>
        simp only [hgc] at ht'
        injection ht' with ht'
        subst ht'
        obtain ⟨hb, hv⟩ := hgO c' hgc
        rw [flatBlocked_eq_false] at hb
        constructor
        · rw [flatBlocked_eq_false]
          intro p i hp hne hz
          cases p with
          | nil =>
            rw [infoAt_nil] at hz
            injection hz with hz
            subst hz
            simp [Node.info, hm]
          | cons a q =>
            obtain ⟨ha, hq⟩ := List.cons_prefix_cons.1 hp
            subst ha
            rw [infoAt_cons_of_lookup hm] at hz
            cases hl : lookupChild a m with
            | none => simp [hl] at hz
            | some c =>
              simp only [hl] at hz
              refine hb q i hq (by simpa using hne) ?_
              rw [hchild, hl]
              simp only
              rw [infoAt_cons_of_lookup hm, hl]
              exact hz
        · funext p
          rw [infoAt_store n m hm]
          cases p with
          | nil =>
            simp only [flatValAt, List.mem_inits, List.nil_prefix, if_true, infoAt_nil]
            simp
          | cons a q =>
            simp only
            by_cases ha : a = k
            · subst ha
              simp only [if_true, hv, flatValAt, List.mem_inits, List.cons_prefix_cons, true_and,
                List.cons.injEq, List.length_cons]
              rw [hchild]
              cases hl : lookupChild a m with
              | some c =>
                simp only
                cases q with
                | nil =>
                  rw [infoAt_cons_of_lookup hm, hl]
                  simp [infoAt_nil]
                | cons b r => simp only [List.length_cons, hcr]
              | none =>
                simp only
                rw [infoAt_cons_of_lookup hm, hl]
                cases q with
                | nil =>
                  simp only [infoAt_nil, List.nil_prefix, if_true, List.length_nil, hfi]
                  by_cases hT : T = []
                  · simp [hT]
                  · simp [hT, Ne.symm hT]
                | cons b r => simp only [infoAt_empty_map hfm, List.length_cons, hcr]
            · simp only [ha, if_false, flatValAt, List.mem_inits, List.cons_prefix_cons, false_and]

end CodeAnalyzer

namespace CodeAnalyzer

theorem infoAt_addCounters (n : Node) (v : NodeInfo) (p : List Str) :
    infoAt (n.addCounters v) p =
      match p with
      | [] => some (n.info.add v)
      | k :: q => infoAt n (k :: q) := by
  cases p with
  | nil => rfl
  | cons k q => rfl

theorem mergeValue_follows (s : Str) (v : NodeInfo) (cr : Nat → Info)
    (hcr : cr 1 = (newStruct [] v).info) :
    Follows (fun fileNode => mergeValue fileNode s v) (if s.length > 0 then [s] else []) cr v := by
  intro n
  by_cases hs : s.length > 0
  · simp only [hs, if_true, mergeValue]
    cases hm : n.childrenMap with
    | none =>
      constructor
      · intro e he
        simp only [Node.getChild, hm, Node.setChild] at he
        refine ⟨by injection he with he; exact he.symm, ?_⟩
        rw [flatBlocked_eq_true]
        exact ⟨[], n.info, List.nil_prefix, by simp, rfl, by simp [Node.info, hm]⟩
      · intro c' hc'
        simp [Node.getChild, hm, Node.setChild] at hc'
    | some m =>
      have hset : ∀ c, n.setChild s c = .ok { n with childrenMap := some (storeChild s c m) } := by
        intro c; simp [Node.setChild, hm]
      constructor
      · intro e he
        simp only [Node.getChild, hm] at he
        cases hl : lookupChild s m <;> simp [hl, hset] at he
      · intro c' hc'
        simp only [Node.getChild, hm] at hc'
        constructor
        · rw [flatBlocked_eq_false]
          intro p i hp hne hz
          have hp' : p = [] := by
            rcases List.prefix_cons_iff.1 hp with h | ⟨t, rfl, ht⟩
            · exact h
            · exact absurd (by simpa using ht) hne
          subst hp'
          rw [infoAt_nil] at hz
          injection hz with hz
          subst hz
          simp [Node.info, hm]
        · funext p
          cases hl : lookupChild s m with
          | none =>
            simp only [hl, hset] at hc'
            injection hc' with hc'
            subst hc'
            rw [infoAt_store n m hm]
            cases p with
            | nil => simp [flatValAt, infoAt_nil]
            | cons a q =>
              simp only
              by_cases ha : a = s
              · subst ha
                simp only [if_true, flatValAt, List.mem_inits, List.cons_prefix_cons, true_and,
                  List.prefix_nil, infoAt_cons_of_lookup hm, hl]
                cases q with
                | nil =>
                  simp only [infoAt_nil, if_true, List.length_cons, List.length_nil, hcr]
                  rfl
                | cons b r =>
                  have : infoAt (newStruct a v) (b :: r) = none := rfl
                  simp [this]
              · simp [ha, flatValAt, List.cons_prefix_cons]
          | some sn =>
            simp only [hl, hset] at hc'
            injection hc' with hc'
            subst hc'
            rw [infoAt_store n m hm]
            cases p with
            | nil => simp [flatValAt, infoAt_nil]
            | cons a q =>
              simp only
              by_cases ha : a = s
              · subst ha
                simp only [if_true, flatValAt, List.mem_inits, List.cons_prefix_cons, true_and,
                  List.prefix_nil, infoAt_cons_of_lookup hm, hl, infoAt_addCounters]
                cases q with
                | nil => simp [infoAt_nil]
                | cons b r => simp
              · simp [ha, flatValAt, List.cons_prefix_cons]
  · simp only [hs, if_false, mergeValue]
    constructor
    · intro e he; cases he
    · intro c' hc'
      injection hc' with hc'
      subst hc'
      constructor
      · rw [flatBlocked_eq_false]
        intro p i hp hne
        exact absurd (List.prefix_nil.1 hp) hne
      · funext p
        rw [infoAt_addCounters]
        cases p with
        | nil => simp [flatValAt, infoAt_nil]
        | cons a q => simp [flatValAt]

theorem targetOf_cons (path : Str) (paths : List Str) (f s : Str) :
    targetOf (path :: paths) f s = path :: targetOf paths f s := by
  unfold targetOf; split <;> rfl

theorem targetOf_ne_nil (paths : List Str) (f s : Str) : targetOf paths f s ≠ [] := by
  unfold targetOf; split <;> simp

theorem length_targetOf (paths : List Str) (f s : Str) :
    (targetOf paths f s).length = paths.length + 1 + (if s.length > 0 then 1 else 0) := by
  unfold targetOf; split <;> simp

theorem mergeAt_follows (f s : Str) (v : NodeInfo) (paths : List Str) :
    Follows (mergeAt f s v paths) (targetOf paths f s) (createdInfo paths.length s v) v := by
  induction paths with
  | nil =>
    have h := withChild_follows (createdInfo 0 s v)
      (mergeValue_follows s v (fun _ => (newStruct [] v).info) rfl) f (newFile f) rfl
      (by
        by_cases hs : s.length > 0
        · simp [createdInfo, hs]; rfl
        · simp [createdInfo, hs]; rfl)
      (by intro n; simp [createdInfo])
    have hT : targetOf [] f s = f :: (if s.length > 0 then [s] else []) := by
      unfold targetOf; split <;> rfl
    rw [hT]
    exact h
  | cons path rest ih =>
    have h := withChild_follows (createdInfo (rest.length + 1) s v) ih path
      (newPackage path) rfl
      (by simp [createdInfo, targetOf_ne_nil]; rfl)
      (by intro n; simp [createdInfo])
    rw [targetOf_cons]
    exact h

theorem mergeEntry_flat (t : Node) (key : Str) (value : NodeInfo) :
    (∀ e, mergeEntry t key value = .error e →
      e = Fault.nilMapWrite ∧ flatStep (some (infoAt t)) (key, value) = none) ∧
    (∀ t', mergeEntry t key value = .ok t' →
      flatStep (some (infoAt t)) (key, value) = some (infoAt t')) := by
  obtain ⟨hE, hO⟩ := mergeAt_follows (getPathAndFile key).2.1 (getPathAndFile key).2.2 value
    (getPathAndFile key).1 t
  constructor
  · intro e he
    obtain ⟨h1, h2⟩ := hE e he
    exact ⟨h1, by simp [flatStep, targetPath, h2]⟩
  · intro t' ht'
    obtain ⟨h1, h2⟩ := hO t' ht'
    simp [flatStep, targetPath, h1, h2, flatVal]

theorem foldl_flatStep_none (items : List (Str × NodeInfo)) :
    items.foldl flatStep none = none := by
  induction items with
  | nil => rfl
  | cons e items ih => simpa [List.foldl, flatStep] using ih

theorem mergeLoop_flat (items : List (Str × NodeInfo)) (t : Node) :
    (∀ e, mergeLoop items t = .error e →
      e = Fault.nilMapWrite ∧ items.foldl flatStep (some (infoAt t)) = none) ∧
    (∀ t', mergeLoop items t = .ok t' →
      items.foldl flatStep (some (infoAt t)) = some (infoAt t')) := by
  induction items generalizing t with
  | nil =>
    constructor
    · intro e he; cases he
    · intro t' ht'
      injection ht' with ht'
      subst ht'
      rfl
  | cons kv items ih =>
    obtain ⟨key, value⟩ := kv
    obtain ⟨hE, hO⟩ := mergeEntry_flat t key value
    simp only [mergeLoop, List.foldl]
    cases hm : mergeEntry t key value with
    | error e' =>
      constructor
      · intro e he
        injection he with he
        subst he
        obtain ⟨h1, h2⟩ := hE e' hm
        exact ⟨h1, by rw [h2]; exact foldl_flatStep_none items⟩
      · intro t' ht'; cases ht'
    | ok t₁ =>
      simp only
      rw [hO t₁ hm]
      exact ih t₁

end CodeAnalyzer

namespace CodeAnalyzer

/-! ## Two entries in either order -/

theorem Info.add_add_comm (i : Info) (a b : NodeInfo) : (i.add a).add b = (i.add b).add a := by
  simp only [Info.add, Info.mk.injEq, true_and, and_true]
  refine ⟨?_, ?_, ?_, ?_⟩ <;> ring

theorem Info.add_hasMap (i : Info) (v : NodeInfo) : (i.add v).hasMap = i.hasMap := rfl

theorem prefix_eq_iff_length {p T : List Str} (h : p <+: T) : p = T ↔ p.length = T.length :=
  ⟨fun e => by rw [e], fun e => h.eq_of_length e⟩

theorem flatValAt_comm (T1 T2 : List Str) (cr1 cr2 : Nat → Info) (v1 v2 : NodeInfo)
    (H : ∀ p, p <+: T1 → p <+: T2 →
      (if p = T2 then (cr1 p.length).add v2 else cr1 p.length) =
        (if p = T1 then (cr2 p.length).add v1 else cr2 p.length))
    (z : Flat) :
    flatValAt T2 cr2 v2 (flatValAt T1 cr1 v1 z) = flatValAt T1 cr1 v1 (flatValAt T2 cr2 v2 z) := by
  funext p
  simp only [flatValAt, List.mem_inits]
  by_cases h1 : p <+: T1 <;> by_cases h2 : p <+: T2
  · cases hz : z p with
    | none => simp only [h1, h2, if_true, hz]; rw [H p h1 h2]
    | some i =>
      simp only [h1, h2, if_true, hz]
      split_ifs <;> first | rfl | exact congrArg some (Info.add_add_comm i v1 v2)
  · cases hz : z p <;> simp [h1, h2, hz]
  · cases hz : z p <;> simp [h1, h2, hz]
  · simp [h1, h2]

theorem flatBlocked_flatValAt (T1 T2 : List Str) (cr1 : Nat → Info) (v1 : NodeInfo)
    (hmap : ∀ p, p <+: T1 → p <+: T2 → p ≠ T2 → (cr1 p.length).hasMap = true) (z : Flat) :
    flatBlocked T2 (flatValAt T1 cr1 v1 z) = flatBlocked T2 z := by
  rw [Bool.eq_iff_iff, flatBlocked_eq_true, flatBlocked_eq_true]
  constructor
  · rintro ⟨p, i, hp, hne, hz, hi⟩
    simp only [flatValAt, List.mem_inits] at hz
    by_cases h1 : p <+: T1
    · simp only [h1, if_true] at hz
      cases hzp : z p with
      | none =>
        simp only [hzp] at hz
        injection hz with hz
        subst hz
        rw [hmap p h1 hp hne] at hi
        cases hi
      | some i₀ =>
        simp only [hzp] at hz
        injection hz with hz
        subst hz
        refine ⟨p, i₀, hp, hne, hzp, ?_⟩
        split at hi
        · simpa [Info.add_hasMap] using hi
        · exact hi
    · simp only [h1, if_false] at hz
      exact ⟨p, i, hp, hne, hz, hi⟩
  · rintro ⟨p, i, hp, hne, hz, hi⟩
    by_cases h1 : p <+: T1
    · refine ⟨p, if p = T1 then i.add v1 else i, hp, hne, ?_, ?_⟩
      · simp [flatValAt, h1, hz]
      · split
        · simpa [Info.add_hasMap] using hi
        · exact hi
    · exact ⟨p, i, hp, hne, by simp [flatValAt, h1, hz], hi⟩

theorem createdInfo_hasMap (d : Nat) (s : Str) (v : NodeInfo) (n : Nat) :
    (createdInfo d s v n).hasMap = decide (n ≤ d + 1) := by
  unfold createdInfo
  by_cases h1 : n ≤ d
  · simp [h1, Node.info, newPackage, Node.zero]; omega
  · by_cases h2 : n = d + 1
    · by_cases hs : s.length > 0 <;>
        simp [h1, h2, hs, Node.info, newFile, Node.zero, Info.add]
    · simp [h1, h2, Node.info, newStruct, Node.zero]; omega

theorem roleOf_eq_iff (d1 d2 n : Nat) :
    roleOf d1 n = roleOf d2 n ↔ ((n ≤ d1 ↔ n ≤ d2) ∧ (n = d1 + 1 ↔ n = d2 + 1)) := by
  unfold roleOf
  split_ifs <;> simp <;> omega

theorem newStruct_info_add (v1 v2 : NodeInfo) (h : v1.Line = v2.Line) :
    (newStruct [] v1).info.add v2 = (newStruct [] v2).info.add v1 := by
  simp only [Info.add, Node.info, newStruct, Node.zero, Info.mk.injEq, true_and, and_true, h]
  refine ⟨?_, ?_, ?_, ?_⟩ <;> ring

theorem createdInfo_pkg {d n : Nat} (s : Str) (v : NodeInfo) (h : n ≤ d) :
    createdInfo d s v n = (newPackage []).info := by
  simp [createdInfo, h]

theorem createdInfo_file (d : Nat) (s : Str) (v : NodeInfo) :
    createdInfo d s v (d + 1) =
      if s.length > 0 then (newFile []).info else (newFile []).info.add v := by
  simp [createdInfo]

theorem createdInfo_struct {d n : Nat} (s : Str) (v : NodeInfo) (h : d + 2 ≤ n) :
    createdInfo d s v n = (newStruct [] v).info := by
  have h1 : ¬ n ≤ d := by omega
  have h2 : ¬ n = d + 1 := by omega
  simp [createdInfo, h1, h2]

theorem createdInfo_compat {P1 P2 : List Str} {f1 s1 f2 s2 : Str} {v1 v2 : NodeInfo}
    (hrole : ∀ p, p <+: targetOf P1 f1 s1 → p <+: targetOf P2 f2 s2 →
      roleOf P1.length p.length = roleOf P2.length p.length)
    (hline : targetOf P1 f1 s1 = targetOf P2 f2 s2 → 0 < s1.length → v1.Line = v2.Line)
    (p : List Str) (h1 : p <+: targetOf P1 f1 s1) (h2 : p <+: targetOf P2 f2 s2) :
    (if p = targetOf P2 f2 s2 then (createdInfo P1.length s1 v1 p.length).add v2
      else createdInfo P1.length s1 v1 p.length) =
    (if p = targetOf P1 f1 s1 then (createdInfo P2.length s2 v2 p.length).add v1
      else createdInfo P2.length s2 v2 p.length) := by
  obtain ⟨hA, hB⟩ := (roleOf_eq_iff _ _ _).1 (hrole p h1 h2)
  have l1 := h1.length_le
  have l2 := h2.length_le
  have e1 := prefix_eq_iff_length h1
  have e2 := prefix_eq_iff_length h2
  rw [length_targetOf] at l1 l2 e1 e2
  by_cases a1 : p.length ≤ P1.length
  · have a2 := hA.1 a1
    have n1 : ¬ p = targetOf P1 f1 s1 := fun h => by have := e1.1 h; omega
    have n2 : ¬ p = targetOf P2 f2 s2 := fun h => by have := e2.1 h; omega
    rw [if_neg n1, if_neg n2, createdInfo_pkg s1 v1 a1, createdInfo_pkg s2 v2 a2]
  · have a2 : ¬ p.length ≤ P2.length := fun h => a1 (hA.2 h)
    by_cases b1 : p.length = P1.length + 1
    · have b2 := hB.1 b1
      have c1 : p = targetOf P1 f1 s1 ↔ ¬ s1.length > 0 := by
        rw [e1, b1]; by_cases hs : s1.length > 0 <;> simp [hs]
      have c2 : p = targetOf P2 f2 s2 ↔ ¬ s2.length > 0 := by
        rw [e2, b2]; by_cases hs : s2.length > 0 <;> simp [hs]
      have i1 : createdInfo P1.length s1 v1 p.length =
          if s1.length > 0 then (newFile []).info else (newFile []).info.add v1 := by
        rw [b1]; exact createdInfo_file _ _ _
      have i2 : createdInfo P2.length s2 v2 p.length =
          if s2.length > 0 then (newFile []).info else (newFile []).info.add v2 := by
        rw [b2]; exact createdInfo_file _ _ _
      rw [i1, i2]
      by_cases hs1 : s1.length > 0 <;> by_cases hs2 : s2.length > 0
      · rw [if_neg (fun h => c2.1 h hs2), if_neg (fun h => c1.1 h hs1), if_pos hs1, if_pos hs2]
      · rw [if_pos (c2.2 hs2), if_neg (fun h => c1.1 h hs1), if_pos hs1, if_neg hs2]
      · rw [if_neg (fun h => c2.1 h hs2), if_pos (c1.2 hs1), if_neg hs1, if_pos hs2]
      · rw [if_pos (c2.2 hs2), if_pos (c1.2 hs1), if_neg hs1, if_neg hs2]
        exact Info.add_add_comm _ _ _
    · have b2 : ¬ p.length = P2.length + 1 := fun h => b1 (hB.2 h)
      have hs1 : s1.length > 0 := by
        by_contra hs
        simp only [hs, if_false] at l1
        omega
      have hs2 : s2.length > 0 := by
        by_contra hs
        simp only [hs, if_false] at l2
        omega
      simp only [hs1, hs2, if_true] at l1 l2 e1 e2
      have c1 : p = targetOf P1 f1 s1 := e1.2 (by omega)
      have c2 : p = targetOf P2 f2 s2 := e2.2 (by omega)
      have hl := hline (c1.symm.trans c2) hs1
      rw [if_pos c2, if_pos c1, createdInfo_struct s1 v1 (by omega),
        createdInfo_struct s2 v2 (by omega)]
      exact newStruct_info_add v1 v2 hl

theorem createdInfo_hasMap_of_compat {P1 P2 : List Str} {f1 s1 f2 s2 : Str} (v1 : NodeInfo)
    (hrole : ∀ p, p <+: targetOf P1 f1 s1 → p <+: targetOf P2 f2 s2 →
      roleOf P1.length p.length = roleOf P2.length p.length)
    (p : List Str) (h1 : p <+: targetOf P1 f1 s1) (h2 : p <+: targetOf P2 f2 s2)
    (hne : p ≠ targetOf P2 f2 s2) :
    (createdInfo P1.length s1 v1 p.length).hasMap = true := by
  obtain ⟨hA, hB⟩ := (roleOf_eq_iff _ _ _).1 (hrole p h1 h2)
  have l2 := h2.length_le
  have e2 := prefix_eq_iff_length h2
  rw [length_targetOf] at l2 e2
  rw [createdInfo_hasMap, decide_eq_true_eq]
  by_contra hc
  have a1 : ¬ p.length ≤ P1.length := by omega
  have b1 : ¬ p.length = P1.length + 1 := by omega
  have a2 : ¬ p.length ≤ P2.length := fun h => a1 (hA.2 h)
  have b2 : ¬ p.length = P2.length + 1 := fun h => b1 (hB.2 h)
  apply hne
  rw [e2]
  by_cases hs : s2.length > 0 <;> simp only [hs, if_true, if_false] at l2 ⊢ <;> omega

theorem NoClash_iff (k1 k2 : Str) :
    NoClash k1 k2 ↔ ∀ p, p <+: targetPath k1 → p <+: targetPath k2 →
      roleOf (getPathAndFile k1).1.length p.length =
        roleOf (getPathAndFile k2).1.length p.length := by
  unfold NoClash
  simp only [List.mem_inits]

theorem NoClash.symm {k1 k2 : Str} (h : NoClash k1 k2) : NoClash k2 k1 := by
  rw [NoClash_iff] at h ⊢
  intro p h2 h1
  exact (h p h1 h2).symm

theorem flatStep_some (z : Flat) (e : Str × NodeInfo) :
    flatStep (some z) e =
      if flatBlocked (targetPath e.1) z = true then none
      else some (flatValAt (targetPath e.1)
        (createdInfo (getPathAndFile e.1).1.length (getPathAndFile e.1).2.2 e.2) e.2 z) := rfl

theorem flatStep_comm (x y : Str × NodeInfo) (hxy : Compatible x y) (hyx : Compatible y x)
    (st : Option Flat) :
    flatStep (flatStep st x) y = flatStep (flatStep st y) x := by
  cases st with
  | none => rfl
  | some z =>
    obtain ⟨hc, hl⟩ := hxy
    obtain ⟨hc', hl'⟩ := hyx
    rw [NoClash_iff] at hc hc'
    have bx := flatBlocked_flatValAt (targetPath y.1) (targetPath x.1)
      (createdInfo (getPathAndFile y.1).1.length (getPathAndFile y.1).2.2 y.2) y.2
      (fun p h1 h2 hne => createdInfo_hasMap_of_compat y.2 hc' p h1 h2 hne) z
    have by_ := flatBlocked_flatValAt (targetPath x.1) (targetPath y.1)
      (createdInfo (getPathAndFile x.1).1.length (getPathAndFile x.1).2.2 x.2) x.2
      (fun p h1 h2 hne => createdInfo_hasMap_of_compat x.2 hc p h1 h2 hne) z
    have hv := flatValAt_comm (targetPath x.1) (targetPath y.1)
      (createdInfo (getPathAndFile x.1).1.length (getPathAndFile x.1).2.2 x.2)
      (createdInfo (getPathAndFile y.1).1.length (getPathAndFile y.1).2.2 y.2) x.2 y.2
      (fun p h1 h2 => createdInfo_compat hc hl p h1 h2) z
    rw [flatStep_some, flatStep_some]
    by_cases b1 : flatBlocked (targetPath x.1) z = true <;>
      by_cases b2 : flatBlocked (targetPath y.1) z = true
    · simp only [b1, b2, if_true]; rfl
    · simp only [b1, b2, if_true, if_false, Bool.false_eq_true]
      rw [flatStep_some, bx, b1]; rfl
    · simp only [b1, b2, if_true, if_false, Bool.false_eq_true]
      rw [flatStep_some, by_, b2]; rfl
    · simp only [b1, b2, if_false, Bool.false_eq_true]
      rw [flatStep_some, flatStep_some, bx, by_, hv]
      simp only [b1, b2, if_false, Bool.false_eq_true]

end CodeAnalyzer

namespace CodeAnalyzer

/-! ## Any order of the entries -/

theorem foldl_flatStep_perm {l₁ l₂ : List (Str × NodeInfo)} (h : l₁.Perm l₂)
    (hc : ∀ x ∈ l₁, ∀ y ∈ l₁, Compatible x y) (st : Option Flat) :
    l₁.foldl flatStep st = l₂.foldl flatStep st :=
  h.foldl_eq' (fun x hx y hy z => flatStep_comm x y (hc x hx y hy) (hc y hy x hx) z) st

theorem length_targetPath (key : Str) :
    (targetPath key).length =
      (getPathAndFile key).1.length + 1 + (if (getPathAndFile key).2.2.length > 0 then 1 else 0) :=
  length_targetOf _ _ _

theorem not_blocked_of_structsFrom {L : List (Str × NodeInfo)} {z : Flat}
    (hz : StructsFrom L z) (e : Str × NodeInfo) (hc : ∀ x ∈ L, NoClash x.1 e.1) :
    flatBlocked (targetPath e.1) z = false := by
  rw [flatBlocked_eq_false]
  intro p i hp hne hzp
  by_contra hi
  obtain ⟨e₀, he₀, hpe, hs⟩ := hz p i hzp (by simpa using hi)
  have hrole := (NoClash_iff _ _).1 (hc e₀ he₀) p (by rw [hpe]) hp
  obtain ⟨hA, hB⟩ := (roleOf_eq_iff _ _ _).1 hrole
  have l0 : p.length = (targetPath e₀.1).length := by rw [hpe]
  rw [length_targetPath] at l0
  simp only [gt_iff_lt, hs, if_true] at l0
  have l1 := hp.length_le
  have hlt : p.length ≠ (targetPath e.1).length := fun h => hne (hp.eq_of_length h)
  rw [length_targetPath] at l1 hlt
  by_cases hs' : (getPathAndFile e.1).2.2.length > 0 <;>
    simp only [hs', if_true, if_false] at l1 hlt <;> omega

theorem structsFrom_step {L : List (Str × NodeInfo)} {z : Flat} (hz : StructsFrom L z)
    (e : Str × NodeInfo) (he : e ∈ L) :
    StructsFrom L (flatValAt (targetPath e.1)
      (createdInfo (getPathAndFile e.1).1.length (getPathAndFile e.1).2.2 e.2) e.2 z) := by
  intro p i hp hi
  simp only [flatValAt, List.mem_inits] at hp
  by_cases h1 : p <+: targetPath e.1
  · simp only [h1, if_true] at hp
    cases hzp : z p with
    | some i₀ =>
      simp only [hzp] at hp
      injection hp with hp
      subst hp
      refine hz p i₀ hzp ?_
      split at hi
      · simpa [Info.add_hasMap] using hi
      · exact hi
    | none =>
      simp only [hzp] at hp
      injection hp with hp
      subst hp
      rw [createdInfo_hasMap] at hi
      have hlen : ¬ p.length ≤ (getPathAndFile e.1).1.length + 1 := by simpa using hi
      have l1 := h1.length_le
      rw [length_targetPath] at l1
      refine ⟨e, he, ?_, ?_⟩
      · apply h1.eq_of_length
        rw [length_targetPath]
        by_cases hs : (getPathAndFile e.1).2.2.length > 0 <;>
          simp only [hs, if_true, if_false] at l1 ⊢ <;> omega
      · by_contra hs
        simp only [gt_iff_lt, hs, if_false] at l1
        omega
  · simp only [h1, if_false] at hp
    exact hz p i hp hi

theorem structsFrom_root (L : List (Str × NodeInfo)) (r : Str) :
    StructsFrom L (infoAt (newRoot r)) := by
  intro p i hp hi
  cases p with
  | nil =>
    rw [infoAt_nil] at hp
    injection hp with hp
    subst hp
    simp [Node.info, newRoot] at hi
  | cons k q =>
    rw [infoAt_empty_map (by rfl)] at hp
    cases hp

theorem mergeLoop_ok (L : List (Str × NodeInfo)) (hL : ∀ x ∈ L, ∀ y ∈ L, NoClash x.1 y.1)
    (items : List (Str × NodeInfo)) (hsub : ∀ e ∈ items, e ∈ L) (t : Node)
    (ht : StructsFrom L (infoAt t)) : ∃ t', mergeLoop items t = .ok t' := by
  induction items generalizing t with
  | nil => exact ⟨t, rfl⟩
  | cons kv items ih =>
    obtain ⟨key, value⟩ := kv
    have hmem : (key, value) ∈ L := hsub _ (List.mem_cons_self _ _)
    have hnb := not_blocked_of_structsFrom ht (key, value) (fun x hx => hL x hx _ hmem)
    obtain ⟨hE, hO⟩ := mergeEntry_flat t key value
    simp only [mergeLoop]
    cases hm : mergeEntry t key value with
    | error e =>
      have := (hE e hm).2
      rw [flatStep_some] at this
      simp [hnb] at this
    | ok t₁ =>
      simp only
      have := hO t₁ hm
      rw [flatStep_some] at this
      simp only [hnb, Bool.false_eq_true, if_false, Option.some.injEq] at this
      apply ih (fun e he => hsub e (List.mem_cons_of_mem _ he))
      rw [← this]
      exact structsFrom_step ht (key, value) hmem

/-! ## Counters -/

theorem countersAt_eq (t : Node) (p : List Str) : countersAt t p = flatCounters (infoAt t) p := by
  unfold countersAt flatCounters infoAt
  cases nodeAt t p <;> rfl

theorem Info.counters_add (i : Info) (v : NodeInfo) :
    (i.add v).counters = i.counters + v.counters := rfl

theorem createdInfo_counters (P : List Str) (f s : Str) (v : NodeInfo) (q : List Str)
    (hq : q <+: targetOf P f s) :
    (createdInfo P.length s v q.length).counters =
      if q = targetOf P f s then v.counters else 0 := by
  have l1 := hq.length_le
  have e1 := prefix_eq_iff_length hq
  rw [length_targetOf] at l1 e1
  by_cases a : q.length ≤ P.length
  · rw [createdInfo_pkg s v a, if_neg (fun h => by have := e1.1 h; omega)]
    rfl
  · by_cases b : q.length = P.length + 1
    · rw [b, createdInfo_file]
      by_cases hs : s.length > 0
      · simp only [hs, if_true] at e1 ⊢
        rw [if_neg (fun h => by have := e1.1 h; omega)]
        rfl
      · simp only [hs, if_false] at e1 ⊢
        rw [if_pos (e1.2 (by omega)), Info.counters_add]
        simp [Info.counters, Node.info, newFile, Node.zero, NodeInfo.counters]
    · have hs : s.length > 0 := by
        by_contra hs
        simp only [hs, if_false] at l1
        omega
      simp only [hs, if_true] at l1 e1
      rw [createdInfo_struct s v (by omega), if_pos (e1.2 (by omega))]
      rfl

theorem flatCounters_flatValAt (P : List Str) (f s : Str) (v : NodeInfo) (z : Flat)
    (p : List Str) :
    flatCounters (flatValAt (targetOf P f s) (createdInfo P.length s v) v z) p =
      flatCounters z p + (if p = targetOf P f s then v.counters else 0) := by
  unfold flatCounters flatValAt
  by_cases h1 : p <+: targetOf P f s
  · simp only [List.mem_inits, h1, if_true]
    cases hz : z p with
    | some i =>
      simp only
      split
      · rw [Info.counters_add]
      · simp
    | none =>
      simp only [createdInfo_counters P f s v p h1]
      simp
  · have hne : p ≠ targetOf P f s := fun h => h1 (by rw [h])
    simp only [List.mem_inits, h1, if_false, hne]
    cases z p <;> simp

theorem flatVal_isSome (T : List Str) (cr : Nat → Info) (v : NodeInfo) (z : Flat) (p : List Str) :
    (flatValAt T cr v z p).isSome = true ↔ ((z p).isSome = true ∨ p <+: T) := by
  unfold flatValAt
  by_cases h1 : p <+: T
  · simp only [List.mem_inits, h1, if_true, or_true, iff_true]
    cases z p <;> rfl
  · simp only [List.mem_inits, h1, if_false, or_false]

theorem flatCounters_step (e : Str × NodeInfo) (z : Flat) (p : List Str) :
    flatCounters (flatValAt (targetPath e.1)
      (createdInfo (getPathAndFile e.1).1.length (getPathAndFile e.1).2.2 e.2) e.2 z) p =
      flatCounters z p + (if p = targetPath e.1 then e.2.counters else 0) :=
  flatCounters_flatValAt _ _ _ _ _ _

theorem broughtTo_nil (p : List Str) : broughtTo p [] = 0 := rfl

theorem broughtTo_cons (p : List Str) (e : Str × NodeInfo) (items : List (Str × NodeInfo)) :
    broughtTo p (e :: items) =
      (if p = targetPath e.1 then e.2.counters else 0) + broughtTo p items := by
  unfold broughtTo
  rw [List.map_cons, List.sum_cons]

theorem foldl_flatStep_counters (items : List (Str × NodeInfo)) (z z' : Flat)
    (h : items.foldl flatStep (some z) = some z') (p : List Str) :
    flatCounters z' p = flatCounters z p + broughtTo p items ∧
      ((z' p).isSome = true ↔ ((z p).isSome = true ∨ ∃ e ∈ items, p <+: targetPath e.1)) := by
  induction items generalizing z with
  | nil =>
    simp only [List.foldl, Option.some.injEq] at h
    subst h
    refine ⟨by rw [broughtTo_nil, add_zero], ?_⟩
    simp only [List.not_mem_nil, false_and, exists_false, or_false]
  | cons e items ih =>
    simp only [List.foldl] at h
    rw [flatStep_some] at h
    by_cases hb : flatBlocked (targetPath e.1) z = true
    · simp only [hb, if_true] at h
      rw [foldl_flatStep_none] at h
      cases h
    · simp only [hb, if_false] at h
      obtain ⟨h1, h2⟩ := ih _ h
      constructor
      · rw [h1]
        rw [flatCounters_step]
        rw [broughtTo_cons]
        rw [add_assoc]
      · rw [h2, flatVal_isSome]
        simp only [List.mem_cons, exists_eq_or_imp]
        exact or_assoc

end CodeAnalyzer

namespace CodeAnalyzer

/-! ## Identifiers -/

theorem Split_ne_nil (sep : Char) (s : Str) : Split sep s ≠ [] := by
  cases s with
  | nil => simp [Split]
  | cons c cs =>
    unfold Split
    split
    · simp
    · split <;> simp

theorem unsplit_Split (sep : Char) (s : Str) : unsplit sep (Split sep s) = s := by
  induction s with
  | nil => rfl
  | cons c cs ih =>
    unfold Split
    by_cases h : c = sep
    · simp only [h, if_true]
      cases hs : Split sep cs with
      | nil => exact absurd hs (Split_ne_nil sep cs)
      | cons a l =>
        rw [hs] at ih
        simp only [unsplit, List.nil_append, ih]
    · simp only [h, if_false]
      cases hs : Split sep cs with
      | nil => exact absurd hs (Split_ne_nil sep cs)
      | cons a l =>
        rw [hs] at ih
        simp only
        cases l with
        | nil => simp only [unsplit] at ih ⊢; rw [ih]
        | cons b l' => simp only [unsplit, List.cons_append] at ih ⊢; rw [ih]

theorem Split_injective (sep : Char) {a b : Str} (h : Split sep a = Split sep b) : a = b := by
  rw [← unsplit_Split sep a, ← unsplit_Split sep b, h]

theorem not_mem_of_mem_Split (sep : Char) (s : Str) : ∀ seg ∈ Split sep s, sep ∉ seg := by
  induction s with
  | nil => simp [Split]
  | cons c cs ih =>
    unfold Split
    by_cases h : c = sep
    · simp only [h, if_true, List.mem_cons]
      rintro seg (rfl | hseg)
      · simp
      · exact ih seg hseg
    · simp only [h, if_false]
      cases hs : Split sep cs with
      | nil => exact absurd hs (Split_ne_nil sep cs)
      | cons a l =>
        rw [hs] at ih
        simp only [List.mem_cons]
        rintro seg (rfl | hseg)
        · intro hmem
          rcases List.mem_cons.1 hmem with h' | h'
          · exact h h'.symm
          · exact ih a (List.mem_cons_self _ _) h'
        · exact ih seg (List.mem_cons_of_mem _ hseg)

theorem take_append_getD {α : Type} (l : List α) (d : α) (h : l ≠ []) :
    l.take (l.length - 1) ++ [l.getD (l.length - 1) d] = l := by
  induction l with
  | nil => exact absurd rfl h
  | cons a l ih =>
    cases l with
    | nil => rfl
    | cons b l' =>
      have := ih (by simp)
      simp only [List.length_cons, Nat.add_sub_cancel] at this ⊢
      rw [List.take_succ_cons, List.cons_append, List.getD_cons_succ, this]

theorem matchTail_some {r w : Str} (h : matchTail r = some w) :
    r = ['.', 'g', 'o'] ++ groupSuffix w := by
  unfold matchTail at h
  by_cases h3 : r.take 3 = ['.', 'g', 'o']
  · simp only [h3, if_true] at h
    have hr : r = ['.', 'g', 'o'] ++ r.drop 3 := by rw [← h3, List.take_append_drop]
    by_cases hg : (r.drop 3).take 2 = ['.', '('] ∧
        ((r.drop 3).drop 2).takeWhile isWordChar ≠ [] ∧
        ((r.drop 3).drop 2).dropWhile isWordChar = [')']
    · rw [if_pos hg] at h
      injection h with h
      obtain ⟨h2, hw, hd⟩ := hg
      have : r.drop 3 = ['.', '('] ++ w ++ [')'] := by
        rw [← h2, ← h, List.append_assoc, ← hd, List.takeWhile_append_dropWhile,
          List.take_append_drop]
      rw [hr, this, groupSuffix, if_neg (by rw [← h]; exact hw)]
    · rw [if_neg hg] at h
      by_cases he : r.drop 3 = []
      · rw [if_pos he] at h
        injection h with h
        rw [hr, he, ← h, groupSuffix]
        simp
      · rw [if_neg he] at h
        cases h
  · simp only [h3, if_false] at h
    cases h

theorem matchHead_some {s : Str} {k : Nat} {g1 g2 : Str} (h : matchHead s k = some (g1, g2)) :
    ∃ j, 0 < j ∧ g1 = s.take j ++ ['.', 'g', 'o'] ∧ matchTail (s.drop j) = some g2 := by
  induction k with
  | zero => simp [matchHead] at h
  | succ k ih =>
    unfold matchHead at h
    split at h
    · cases ht : matchTail (s.drop (k + 1)) with
      | none => rw [ht] at h; exact ih h
      | some w =>
        rw [ht] at h
        simp only [Option.some.injEq, Prod.mk.injEq] at h
        exact ⟨k + 1, Nat.succ_pos _, h.1.symm, by rw [ht, h.2]⟩
    · exact ih h

theorem matchHead_ne_none {s : Str} {k j : Nat} (hj : 0 < j) (hjk : j ≤ k)
    (hlen : (s.take j).length = j) (hsl : ∀ c ∈ s.take j, c ≠ '/')
    (ht : matchTail (s.drop j) ≠ none) : matchHead s k ≠ none := by
  induction k with
  | zero => omega
  | succ k ih =>
    unfold matchHead
    by_cases hk : j = k + 1
    · rw [hk] at hlen hsl ht
      have hc : ((s.take (k + 1)).all (fun c => decide (c ≠ '/')) = true) ∧
          (s.take (k + 1)).length = k + 1 := by
        refine ⟨?_, hlen⟩
        rw [List.all_eq_true]
        intro c hc
        simpa using hsl c hc
      rw [if_pos hc]
      cases hm : matchTail (s.drop (k + 1)) with
      | none => exact absurd hm ht
      | some w => simp
    · have := ih (by omega)
      split
      · split
        · simp
        · exact this
      · exact this

theorem regexpFileFind_some {s : Str} {r : Str × Str} (h : regexpFileFind s = some r) :
    ∃ pre s', s = pre ++ s' ∧ matchHead s' s'.length = some r := by
  induction s with
  | nil => simp [regexpFileFind] at h
  | cons c cs ih =>
    unfold regexpFileFind at h
    cases hm : matchHead (c :: cs) (c :: cs).length with
    | some r' =>
      rw [hm] at h
      injection h with h
      subst h
      exact ⟨[], c :: cs, rfl, hm⟩
    | none =>
      rw [hm] at h
      obtain ⟨pre, s', hs, hs'⟩ := ih h
      exact ⟨c :: pre, s', by rw [hs]; rfl, hs'⟩

/-- In a text without a slash the leftmost match of `regexpFile` starts at the
first character. -/
theorem regexpFileFind_of_no_slash {s : Str} (hs : ∀ c ∈ s, c ≠ '/') {r : Str × Str}
    (h : regexpFileFind s = some r) : matchHead s s.length = some r := by
  cases s with
  | nil => simp [regexpFileFind] at h
  | cons c cs =>
    unfold regexpFileFind at h
    cases hm : matchHead (c :: cs) (c :: cs).length with
    | some r' =>
      rw [hm] at h
      injection h with h
      rw [h]
    | none =>
      rw [hm] at h
      exfalso
      obtain ⟨pre, s', hcs, hs'⟩ := regexpFileFind_some h
      obtain ⟨g1, g2⟩ := r
      obtain ⟨j, hj, -, ht⟩ := matchHead_some hs'
      have hjl : j < s'.length := by
        by_contra hge
        rw [List.drop_of_length_le (by omega)] at ht
        simp [matchTail] at ht
      refine matchHead_ne_none (s := c :: cs) (k := (c :: cs).length)
        (j := 1 + pre.length + j) (by omega) ?_ ?_ ?_ ?_ hm
      · rw [hcs]; simp; omega
      · rw [List.length_take, hcs]; simp; omega
      · intro x hx
        exact hs x (List.mem_of_mem_take hx)
      · have : (c :: cs).drop (1 + pre.length + j) = s'.drop j := by
          rw [hcs, show 1 + pre.length + j = (c :: pre).length + j by simp; omega]
          rw [← List.cons_append, List.drop_append]
        rw [this, ht]
        simp

theorem regexpFileFind_eq_append {s : Str} (hs : ∀ c ∈ s, c ≠ '/') {g1 g2 : Str}
    (h : regexpFileFind s = some (g1, g2)) : s = g1 ++ groupSuffix g2 := by
  obtain ⟨j, -, hg, ht⟩ := matchHead_some (regexpFileFind_of_no_slash hs h)
  have := matchTail_some ht
  rw [hg, List.append_assoc, ← this, List.take_append_drop]

theorem GetFileAndStruct_eq (s : Str) :
    GetFileAndStruct s =
      match regexpFileFind s with
      | none => ([], [])
      | some r => r := by
  unfold GetFileAndStruct FindStringSubmatch
  cases regexpFileFind s with
  | none => rfl
  | some r => obtain ⟨g1, g2⟩ := r; rfl

/-- A last segment with a struct name is its file name, then the struct name
between `.(` and `)`. -/
theorem segment_of_GetFileAndStruct {s : Str} (hs : ∀ c ∈ s, c ≠ '/')
    (h : 0 < (GetFileAndStruct s).2.length) :
    s = (GetFileAndStruct s).1 ++ ['.', '('] ++ (GetFileAndStruct s).2 ++ [')'] := by
  rw [GetFileAndStruct_eq] at h ⊢
  cases hr : regexpFileFind s with
  | none => rw [hr] at h; simp at h
  | some r =>
    obtain ⟨g1, g2⟩ := r
    rw [hr] at h
    simp only at h ⊢
    have := regexpFileFind_eq_append hs hr
    rw [groupSuffix, if_neg (by intro h0; rw [h0] at h; simp at h)] at this
    rw [this]
    simp

theorem Split_eq_of_getPathAndFile (key : Str) :
    Split '/' key = (getPathAndFile key).1 ++
      [(Split '/' key).getD ((Split '/' key).length - 1) []] := by
  unfold getPathAndFile
  exact (take_append_getD _ _ (Split_ne_nil _ _)).symm

/-- An identifier with a struct name is determined by its directory segments,
its file name and its struct name. -/
theorem key_eq_of_getPathAndFile_eq {k1 k2 : Str}
    (h : getPathAndFile k1 = getPathAndFile k2) (hs : 0 < (getPathAndFile k1).2.2.length) :
    k1 = k2 := by
  apply Split_injective '/'
  rw [Split_eq_of_getPathAndFile k1, Split_eq_of_getPathAndFile k2, h]
  congr 2
  have hs2 : 0 < (getPathAndFile k2).2.2.length := by rw [← h]; exact hs
  have e1 := segment_of_GetFileAndStruct (s := (Split '/' k1).getD ((Split '/' k1).length - 1) [])
    (by
      intro c hc hc'
      subst hc'
      refine not_mem_of_mem_Split '/' k1 _ ?_ hc
      rw [List.getD_eq_getElem _ _ (by
        have := List.length_pos.2 (Split_ne_nil '/' k1); omega)]
      exact List.getElem_mem _) hs
  have e2 := segment_of_GetFileAndStruct (s := (Split '/' k2).getD ((Split '/' k2).length - 1) [])
    (by
      intro c hc hc'
      subst hc'
      refine not_mem_of_mem_Split '/' k2 _ ?_ hc
      rw [List.getD_eq_getElem _ _ (by
        have := List.length_pos.2 (Split_ne_nil '/' k2); omega)]
      exact List.getElem_mem _) hs2
  have h1 : (getPathAndFile k1).2.1 =
      (GetFileAndStruct ((Split '/' k1).getD ((Split '/' k1).length - 1) [])).1 := rfl
  have h2 : (getPathAndFile k1).2.2 =
      (GetFileAndStruct ((Split '/' k1).getD ((Split '/' k1).length - 1) [])).2 := rfl
  have h3 : (getPathAndFile k2).2.1 =
      (GetFileAndStruct ((Split '/' k2).getD ((Split '/' k2).length - 1) [])).1 := rfl
  have h4 : (getPathAndFile k2).2.2 =
      (GetFileAndStruct ((Split '/' k2).getD ((Split '/' k2).length - 1) [])).2 := rfl
  rw [e1, e2, ← h1, ← h2, ← h3, ← h4, h]

end CodeAnalyzer

namespace CodeAnalyzer

theorem compatible_of_nodup {L : List (Str × NodeInfo)} (hnd : (L.map Prod.fst).Nodup)
    (hnc : ∀ x ∈ L, ∀ y ∈ L, NoClash x.1 y.1) : ∀ x ∈ L, ∀ y ∈ L, Compatible x y := by
  intro x hx y hy
  refine ⟨hnc x hx y hy, fun hT hs => ?_⟩
  have hrole := (NoClash_iff _ _).1 (hnc x hx y hy) (targetPath x.1) (List.prefix_refl _)
    (by rw [hT])
  obtain ⟨hA, hB⟩ := (roleOf_eq_iff _ _ _).1 hrole
  have lx := length_targetPath x.1
  have ly := length_targetPath y.1
  rw [← hT] at ly
  simp only [gt_iff_lt, hs, if_true] at lx
  have hsy : 0 < (getPathAndFile y.1).2.2.length := by
    by_contra h
    simp only [gt_iff_lt, h, if_false] at ly
    omega
  simp only [gt_iff_lt, hsy, if_true] at ly
  have hlen : (getPathAndFile x.1).1.length = (getPathAndFile y.1).1.length := by omega
  unfold targetPath targetOf at hT
  simp only [gt_iff_lt, hs, hsy, if_true] at hT
  obtain ⟨h1, h2⟩ := List.append_inj hT hlen
  simp only [List.cons.injEq, and_true] at h2
  have hkey : x.1 = y.1 :=
    key_eq_of_getPathAndFile_eq (Prod.ext h1 (Prod.ext h2.1 h2.2)) hs
  have hxy : x = y := List.inj_on_of_nodup_map hnd hx hy hkey
  rw [hxy]

/-- C2 (amended). For entries with distinct identifiers of which no two use
one path both as a directory and as a file or struct, the merge loop of
`model.New` completes in every order, and two orders give identical trees: the
same nodes at the same paths, with the same type, line and four counters. -/
theorem mergeLoop_order_independent (items₁ items₂ : List (Str × NodeInfo))
    (repositoryName : Str) (hperm : items₁.Perm items₂)
    (hkeys : (items₁.map Prod.fst).Nodup)
    (hclash : ∀ x ∈ items₁, ∀ y ∈ items₁, NoClash x.1 y.1) :
    ∃ t₁ t₂, buildTree items₁ repositoryName = .ok t₁ ∧
      buildTree items₂ repositoryName = .ok t₂ ∧
      ∀ path, infoAt t₁ path = infoAt t₂ path := by
  obtain ⟨t₁, h₁⟩ := mergeLoop_ok items₁ hclash items₁ (fun _ h => h) (newRoot repositoryName)
    (structsFrom_root _ _)
  obtain ⟨t₂, h₂⟩ := mergeLoop_ok items₁ hclash items₂ (fun _ h => hperm.symm.subset h)
    (newRoot repositoryName) (structsFrom_root _ _)
  refine ⟨t₁, t₂, h₁, h₂, ?_⟩
  have f₁ := (mergeLoop_flat items₁ (newRoot repositoryName)).2 t₁ h₁
  have f₂ := (mergeLoop_flat items₂ (newRoot repositoryName)).2 t₂ h₂
  rw [foldl_flatStep_perm hperm (compatible_of_nodup hkeys hclash), f₂] at f₁
  intro path
  injection f₁ with f₁
  rw [f₁]

/-- C3. When the entries `items` are split into `items₁` and `items₂`, each
counter of each node of the tree built from `items` is the sum of the counters
of the node at the same path in the trees built from `items₁` and from
`items₂`, a node absent from a tree counting as zero; and the tree built from
`items` has a node exactly where one of the two has. -/
theorem counters_of_split (items items₁ items₂ : List (Str × NodeInfo)) (repositoryName : Str)
    (hsplit : items.Perm (items₁ ++ items₂)) (t t₁ t₂ : Node)
    (ht : buildTree items repositoryName = .ok t)
    (ht₁ : buildTree items₁ repositoryName = .ok t₁)
    (ht₂ : buildTree items₂ repositoryName = .ok t₂) (path : List Str) :
    countersAt t path = countersAt t₁ path + countersAt t₂ path ∧
      ((nodeAt t path).isSome = true ↔
        ((nodeAt t₁ path).isSome = true ∨ (nodeAt t₂ path).isSome = true)) := by
  have f := (mergeLoop_flat items (newRoot repositoryName)).2 t ht
  have f₁ := (mergeLoop_flat items₁ (newRoot repositoryName)).2 t₁ ht₁
  have f₂ := (mergeLoop_flat items₂ (newRoot repositoryName)).2 t₂ ht₂
  obtain ⟨c, e⟩ := foldl_flatStep_counters _ _ _ f path
  obtain ⟨c₁, e₁⟩ := foldl_flatStep_counters _ _ _ f₁ path
  obtain ⟨c₂, e₂⟩ := foldl_flatStep_counters _ _ _ f₂ path
  have hroot : flatCounters (infoAt (newRoot repositoryName)) path = 0 := by
    cases path with
    | nil => rfl
    | cons k q => unfold flatCounters; rw [infoAt_empty_map (by rfl)]
  have hsum : broughtTo path items = broughtTo path items₁ + broughtTo path items₂ := by
    unfold broughtTo
    rw [(hsplit.map _).sum_eq, List.map_append, List.sum_append]
  have hi : ∀ u : Node, (infoAt u path).isSome = (nodeAt u path).isSome := by
    intro u; unfold infoAt; cases nodeAt u path <;> rfl
  constructor
  · rw [countersAt_eq, countersAt_eq, countersAt_eq, c, c₁, c₂, hroot, hsum]
    simp only [zero_add]
  · rw [← hi, ← hi, ← hi, e, e₁, e₂]
    constructor
    · rintro (h | ⟨x, hx, hp⟩)
      · exact Or.inl (Or.inl h)
      · rcases List.mem_append.1 (hsplit.subset hx) with h | h
        · exact Or.inl (Or.inr ⟨x, h, hp⟩)
        · exact Or.inr (Or.inr ⟨x, h, hp⟩)
    · rintro ((h | ⟨x, hx, hp⟩) | (h | ⟨x, hx, hp⟩))
      · exact Or.inl h
      · exact Or.inr ⟨x, hsplit.symm.subset (List.mem_append_left _ hx), hp⟩
      · exact Or.inl h
      · exact Or.inr ⟨x, hsplit.symm.subset (List.mem_append_right _ hx), hp⟩

theorem structName_nil_of_fileName_nil (s : Str) (h : (GetFileAndStruct s).1 = []) :
    (GetFileAndStruct s).2 = [] := by
  rw [GetFileAndStruct_eq] at h ⊢
  cases hr : regexpFileFind s with
  | none => rfl
  | some r =>
    obtain ⟨g1, g2⟩ := r
    rw [hr] at h
    simp only at h
    obtain ⟨pre, s', -, hs'⟩ := regexpFileFind_some hr
    obtain ⟨j, -, hg, -⟩ := matchHead_some hs'
    rw [h] at hg
    simp at hg

/-- C5 (amended). An entry whose identifier has no parseable file-name
segment is not dropped. Its target is the node with the empty name below its
directory segments; when the loop completes the iteration, that node exists
and has received the four counters of the entry, no other node has a counter
changed, and the node is a FILE if the iteration created it. -/
theorem unparseable_entry_merged (tree tree' : Node) (key : Str) (value : NodeInfo)
    (hname : (getPathAndFile key).2.1 = [])
    (h : mergeEntry tree key value = .ok tree') :
    targetPath key = (getPathAndFile key).1 ++ [[]] ∧
      (nodeAt tree' (targetPath key)).isSome = true ∧
      countersAt tree' (targetPath key) = countersAt tree (targetPath key) + value.counters ∧
      (∀ path, path ≠ targetPath key → countersAt tree' path = countersAt tree path) ∧
      (nodeAt tree (targetPath key) = none →
        (infoAt tree' (targetPath key)).map Info.type = some NodeType.FileType) := by
  have hstruct : (getPathAndFile key).2.2 = [] := structName_nil_of_fileName_nil _ hname
  have hT : targetPath key = (getPathAndFile key).1 ++ [[]] := by
    unfold targetPath targetOf
    rw [hstruct, hname]
    rfl
  have hf := (mergeEntry_flat tree key value).2 tree' h
  rw [flatStep_some] at hf
  by_cases hb : flatBlocked (targetPath key) (infoAt tree) = true
  · simp [hb] at hf
  rw [if_neg hb] at hf
  injection hf with hf
  have hc : ∀ path, countersAt tree' path =
      countersAt tree path + (if path = targetPath key then value.counters else 0) := by
    intro path
    rw [countersAt_eq, countersAt_eq, ← hf]
    exact flatCounters_step (key, value) (infoAt tree) path
  have hsome : (infoAt tree' (targetPath key)).isSome = true := by
    rw [← hf, flatVal_isSome]
    exact Or.inr (List.prefix_refl _)
  refine ⟨hT, ?_, ?_, ?_, ?_⟩
  · unfold infoAt at hsome
    cases hn : nodeAt tree' (targetPath key) with
    | none => rw [hn] at hsome; cases hsome
    | some n => rfl
  · rw [hc, if_pos rfl]
  · intro path hp
    rw [hc, if_neg hp, add_zero]
  · intro hnone
    have hz : infoAt tree (targetPath key) = none := by unfold infoAt; rw [hnone]; rfl
    rw [← hf]
    simp only [flatValAt, List.mem_inits, List.prefix_refl, if_true, hz, Option.map_some']
    rw [hT, List.length_append, List.length_singleton, createdInfo_file]
    rw [hstruct]
    rfl

end CodeAnalyzer

namespace CodeAnalyzer

/-! ## The layout of one node -/

theorem placeChildren_eq {σ : Type} (G : Generator σ) (cs : List Node) (g : σ) :
    placeChildren G cs g =
      (List.zipWith (fun c p => { c with Position := p }) (cs.map (GenerateChildrenPosition G))
        (placeAll G ((cs.map (GenerateChildrenPosition G)).map (fun c => (c.Width, c.Depth))) g).1,
       (placeAll G ((cs.map (GenerateChildrenPosition G)).map (fun c => (c.Width, c.Depth))) g).2) := by
  induction cs generalizing g with
  | nil => simp [placeChildren, placeAll]
  | cons c cs ih =>
    rw [placeChildren]
    simp only [List.map_cons, placeAll, List.zipWith_cons_cons]
    rw [ih]

theorem GenerateChildrenPosition_leaf {σ : Type} (G : Generator σ) (n : Node)
    (h : n.Children = []) :
    GenerateChildrenPosition G n =
      { n with Width := (n.NumberOfAttributes : ℚ) + 1, Depth := (n.NumberOfAttributes : ℚ) + 1 } := by
  obtain ⟨name, url, ty, w, d, pos, nl, nm, na, ns, children, line, cm⟩ := n
  simp only at h
  subst h
  simp [GenerateChildrenPosition]

theorem GenerateChildrenPosition_internal {σ : Type} (G : Generator σ) (n : Node)
    (h : n.Children ≠ []) :
    GenerateChildrenPosition G n =
      { n with
        Width := (G.GetBounds (placeChildren G n.Children (G.NewGenerator n.Children.length)).2).X +
          (if n.Type_ = NodeType.FileType then (n.NumberOfAttributes : ℚ) else 0),
        Depth := (G.GetBounds (placeChildren G n.Children (G.NewGenerator n.Children.length)).2).Y +
          (if n.Type_ = NodeType.FileType then (n.NumberOfAttributes : ℚ) else 0),
        Children := (placeChildren G n.Children (G.NewGenerator n.Children.length)).1.map
          (shiftChild (G.GetBounds (placeChildren G n.Children (G.NewGenerator n.Children.length)).2)) } := by
  obtain ⟨name, url, ty, w, d, pos, nl, nm, na, ns, children, line, cm⟩ := n
  simp only at h
  have hl : children.length ≠ 0 := by simpa using h
  rw [GenerateChildrenPosition]
  simp only [hl, if_false]
  by_cases hty : ty = NodeType.FileType
  · simp [hty]
  · simp [hty]

/-- C1 (the code at the failing input). On the empty metrics map the finished
tree yields no component, and `model.New` stops at the integer division of
line 225 with a zero divisor; there is no EmptyCorpus outcome. -/
theorem New_empty_divides_by_zero {σ : Type} (G : Generator σ) (ord : RangeOrder)
    (repositoryName : Str) : New G ord [] repositoryName = .error .divideByZero := by
  have h : ord.apply [] = [] := (ord.perm []).eq_nil
  have hl : GenerateChildList ord (newRoot repositoryName) (rootPath repositoryName) =
      newRoot repositoryName := by
    simp only [newRoot, Node.zero]
    rw [GenerateChildList]
    simp only [visitChildren, h, List.append_nil, sortByWidth, List.insertionSort]
  simp only [New, buildTree, mergeLoop, finishTree, hl]
  rw [GenerateChildrenPosition_leaf G _ rfl]
  rfl

/-- C6 (the code at the failing input). With a struct `W` of file `x/a.go` and
a file below the directory `x/a.go/W`, visited in this order, the merge loop
writes into the child index of the STRUCT node, which has none: `model.New`
stops with a runtime fault. -/
theorem New_writes_nil_map {σ : Type} (G : Generator σ) (ord : RangeOrder)
    (repositoryName : Str) (v w : NodeInfo) :
    New G ord [("x/a.go.(W)".toList, v), ("x/a.go/W/b.go".toList, w)] repositoryName =
      .error .nilMapWrite := rfl

/-- C7. A node without children gets `width = depth = numberOfAttributes + 1`:
1 for no attribute, 6 for five attributes. -/
theorem leaf_width_depth {σ : Type} (G : Generator σ) (n : Node) (h : n.Children = []) :
    (GenerateChildrenPosition G n).Width = (n.NumberOfAttributes : ℚ) + 1 ∧
      (GenerateChildrenPosition G n).Depth = (n.NumberOfAttributes : ℚ) + 1 ∧
      (n.NumberOfAttributes = 0 →
        (GenerateChildrenPosition G n).Width = 1 ∧ (GenerateChildrenPosition G n).Depth = 1) ∧
      (n.NumberOfAttributes = 5 →
        (GenerateChildrenPosition G n).Width = 6 ∧ (GenerateChildrenPosition G n).Depth = 6) := by
  rw [GenerateChildrenPosition_leaf G n h]
  refine ⟨rfl, rfl, ?_, ?_⟩
  · intro h0
    simp only [h0]
    norm_num
  · intro h5
    simp only [h5]
    norm_num

theorem leaf_width_depth_witness :
    (newStruct "Widget".toList ⟨42, 5, 0, 0, 0⟩).Children = [] ∧
      (GenerateChildrenPosition shelfGenerator (newStruct "Widget".toList ⟨42, 5, 0, 0, 0⟩)).Width =
        6 ∧
      (GenerateChildrenPosition shelfGenerator (newStruct "Widget".toList ⟨42, 5, 0, 0, 0⟩)).Depth =
        6 :=
  ⟨rfl, (leaf_width_depth shelfGenerator (newStruct "Widget".toList ⟨42, 5, 0, 0, 0⟩) rfl).2.2.2
    rfl⟩

/-- C8. A node with children gets as width and depth the bounds of the
generator after its laid-out children were placed in order, increased by
`numberOfAttributes` on both dimensions for a FILE and by nothing for any
other type; each child keeps its own width and depth and has the position the
generator gave it, less half of the bounds. -/
theorem internal_width_depth {σ : Type} (G : Generator σ) (n : Node) (h : n.Children ≠ []) :
    let laid := n.Children.map (GenerateChildrenPosition G)
    let packed := placeAll G (laid.map (fun c => (c.Width, c.Depth)))
      (G.NewGenerator n.Children.length)
    let bounds := G.GetBounds packed.2
    (GenerateChildrenPosition G n).Width =
        bounds.X + (if n.Type_ = NodeType.FileType then (n.NumberOfAttributes : ℚ) else 0) ∧
      (GenerateChildrenPosition G n).Depth =
        bounds.Y + (if n.Type_ = NodeType.FileType then (n.NumberOfAttributes : ℚ) else 0) ∧
      (GenerateChildrenPosition G n).Children =
        List.zipWith
          (fun c p => { c with Position := ⟨p.X - bounds.X / 2, p.Y - bounds.Y / 2⟩ })
          laid packed.1 := by
  intro laid packed bounds
  rw [GenerateChildrenPosition_internal G n h, placeChildren_eq]
  refine ⟨rfl, rfl, ?_⟩
  simp only [List.map_zipWith]
  rfl

end CodeAnalyzer

namespace CodeAnalyzer

/-! ## The shelf packing -/

theorem shelfInv_init (n : Nat) : ShelfInv (shelfGenerator.NewGenerator n) [] where
  x_nonneg := le_refl _
  y_nonneg := le_refl _
  h_nonneg := le_refl _
  x_le := le_refl _
  inside := by intro r hr; cases hr
  shelf := by intro r hr; cases hr
  disjoint := List.Pairwise.nil
  empty := fun _ => ⟨rfl, rfl, rfl, rfl⟩
  left := fun h => absurd rfl h
  right := fun h => absurd rfl h
  bottom := fun h => absurd rfl h
  top := fun h => absurd rfl h

theorem NextPosition_fst (s : Shelf) (w d : ℚ) :
    (shelfGenerator.NextPosition s w d).1 =
      { x := (shelfBefore s w).x + w, y := (shelfBefore s w).y,
        shelfHeight := max (shelfBefore s w).shelfHeight d,
        maxX := max (shelfBefore s w).maxX ((shelfBefore s w).x + w) } := rfl

theorem NextPosition_rect (s : Shelf) (w d : ℚ) :
    rectAt (shelfGenerator.NextPosition s w d).2 w d =
      { x0 := (shelfBefore s w).x, x1 := (shelfBefore s w).x + w,
        y0 := (shelfBefore s w).y, y1 := (shelfBefore s w).y + d } := by
  show rectAt ⟨(shelfBefore s w).x + w / 2, (shelfBefore s w).y + d / 2⟩ w d = _
  simp only [rectAt, Rect.mk.injEq]
  refine ⟨?_, ?_, ?_, ?_⟩ <;> ring

theorem shelfInv_before {s : Shelf} {R : List Rect} (h : ShelfInv s R) (w : ℚ) :
    ShelfInv (shelfBefore s w) R ∧
      (R ≠ [] → (shelfBefore s w).shelfHeight > 0 → shelfBefore s w = s) := by
  unfold shelfBefore
  by_cases hc : s.x + w > s.shelfHeight
  · rw [if_pos hc]
    refine ⟨?_, fun _ hpos => absurd hpos (by simp [Shelf.close])⟩
    have hmax : 0 ≤ s.maxX := le_trans h.x_nonneg h.x_le
    exact
      { x_nonneg := le_refl _
        y_nonneg := add_nonneg h.y_nonneg h.h_nonneg
        h_nonneg := le_refl _
        x_le := hmax
        inside := by
          intro r hr
          obtain ⟨a, b, c, d⟩ := h.inside r hr
          exact ⟨a, b, c, by simpa [Shelf.close] using d⟩
        shelf := by
          intro r hr
          exact Or.inl (h.inside r hr).2.2.2
        disjoint := h.disjoint
        empty := by
          intro hR
          obtain ⟨a, b, c, d⟩ := h.empty hR
          simp [Shelf.close, b, c, d]
        left := h.left
        right := h.right
        bottom := h.bottom
        top := by
          intro hR
          obtain ⟨r, hr, e⟩ := h.top hR
          exact ⟨r, hr, by simpa [Shelf.close] using e⟩ }
  · rw [if_neg hc]
    exact ⟨h, fun _ _ => rfl⟩

theorem shelfInv_step {s : Shelf} {R : List Rect} (h : ShelfInv s R) {w d : ℚ}
    (hw : 0 ≤ w) (hd : 0 ≤ d) :
    ShelfInv (shelfGenerator.NextPosition s w d).1
      (R ++ [rectAt (shelfGenerator.NextPosition s w d).2 w d]) := by
  rw [NextPosition_fst, NextPosition_rect]
  obtain ⟨hb, hkeep⟩ := shelfInv_before h w
  generalize shelfBefore s w = b at hb hkeep
  have hne : R ++ [({ x0 := b.x, x1 := b.x + w, y0 := b.y, y1 := b.y + d } : Rect)] ≠ [] := by
    simp
  exact
    { x_nonneg := add_nonneg hb.x_nonneg hw
      y_nonneg := hb.y_nonneg
      h_nonneg := le_trans hb.h_nonneg (le_max_left _ _)
      x_le := le_max_right _ _
      inside := by
        intro r hr
        rcases List.mem_append.1 hr with hr | hr
        · obtain ⟨a, b', c, e⟩ := hb.inside r hr
          refine ⟨a, le_trans b' (le_max_left _ _), c, le_trans e ?_⟩
          exact add_le_add_left (le_max_left _ _) _
        · rw [List.mem_singleton] at hr
          subst hr
          refine ⟨hb.x_nonneg, le_max_right _ _, hb.y_nonneg, ?_⟩
          exact add_le_add_left (le_max_right _ _) _
      shelf := by
        intro r hr
        rcases List.mem_append.1 hr with hr | hr
        · rcases hb.shelf r hr with h1 | h1
          · exact Or.inl h1
          · exact Or.inr (le_trans h1 (le_add_of_nonneg_right hw))
        · rw [List.mem_singleton] at hr
          subst hr
          exact Or.inr (le_refl _)
      disjoint := by
        rw [List.pairwise_append]
        refine ⟨hb.disjoint, List.pairwise_singleton _ _, ?_⟩
        intro r hr r' hr'
        rw [List.mem_singleton] at hr'
        subst hr'
        rcases hb.shelf r hr with h1 | h1
        · exact Or.inr (Or.inr (Or.inl h1))
        · exact Or.inl h1
      empty := fun e => absurd e hne
      left := by
        intro _
        by_cases hR : R = []
        · refine ⟨_, List.mem_append_right _ (List.mem_singleton_self _), ?_⟩
          exact (hb.empty hR).1
        · obtain ⟨r, hr, e⟩ := hb.left hR
          exact ⟨r, List.mem_append_left _ hr, e⟩
      right := by
        intro _
        rcases le_total b.maxX (b.x + w) with hm | hm
        · refine ⟨_, List.mem_append_right _ (List.mem_singleton_self _), ?_⟩
          exact (max_eq_right hm).symm
        · by_cases hR : R = []
          · refine ⟨_, List.mem_append_right _ (List.mem_singleton_self _), ?_⟩
            obtain ⟨e1, -, -, e4⟩ := hb.empty hR
            simp only
            rw [e1, e4] at hm ⊢
            rw [max_eq_right (by linarith)]
          · obtain ⟨r, hr, e⟩ := hb.right hR
            exact ⟨r, List.mem_append_left _ hr, by rw [e, max_eq_left hm]⟩
      bottom := by
        intro _
        by_cases hR : R = []
        · refine ⟨_, List.mem_append_right _ (List.mem_singleton_self _), ?_⟩
          exact (hb.empty hR).2.1
        · obtain ⟨r, hr, e⟩ := hb.bottom hR
          exact ⟨r, List.mem_append_left _ hr, e⟩
      top := by
        intro _
        rcases le_total b.shelfHeight d with hm | hm
        · refine ⟨_, List.mem_append_right _ (List.mem_singleton_self _), ?_⟩
          simp only
          rw [max_eq_right hm]
        · by_cases hR : R = []
          · refine ⟨_, List.mem_append_right _ (List.mem_singleton_self _), ?_⟩
            obtain ⟨-, -, e3, -⟩ := hb.empty hR
            simp only
            rw [e3] at hm ⊢
            rw [max_eq_right hd, le_antisymm hm hd]
          · obtain ⟨r, hr, e⟩ := hb.top hR
            exact ⟨r, List.mem_append_left _ hr, by rw [e, max_eq_left hm]⟩ }

theorem shelfInv_placeAll (sizes : List (ℚ × ℚ)) (hs : ∀ wd ∈ sizes, 0 ≤ wd.1 ∧ 0 ≤ wd.2)
    (s : Shelf) (R : List Rect) (h : ShelfInv s R) :
    ShelfInv (placeAll shelfGenerator sizes s).2
      (R ++ packedRects (placeAll shelfGenerator sizes s).1 sizes) := by
  induction sizes generalizing s R with
  | nil => simpa [placeAll, packedRects] using h
  | cons wd sizes ih =>
    obtain ⟨hw, hd⟩ := hs wd (List.mem_cons_self _ _)
    have := ih (fun x hx => hs x (List.mem_cons_of_mem _ hx)) _ _ (shelfInv_step h hw hd)
    simpa [placeAll, packedRects, List.append_assoc] using this

end CodeAnalyzer

namespace CodeAnalyzer

/-! ## The layout of the children of a node -/

theorem layout_children {σ : Type} (G : Generator σ) (n : Node) (h : n.Children ≠ []) :
    (GenerateChildrenPosition G n).Width =
        (packedBounds G n).X +
          (if n.Type_ = NodeType.FileType then (n.NumberOfAttributes : ℚ) else 0) ∧
      (GenerateChildrenPosition G n).Depth =
        (packedBounds G n).Y +
          (if n.Type_ = NodeType.FileType then (n.NumberOfAttributes : ℚ) else 0) ∧
      (GenerateChildrenPosition G n).Children =
        List.zipWith
          (fun c p =>
            { c with
              Position := ⟨p.X - (packedBounds G n).X / 2, p.Y - (packedBounds G n).Y / 2⟩ })
          (n.Children.map (GenerateChildrenPosition G))
          (placeAll G
            ((n.Children.map (GenerateChildrenPosition G)).map (fun c => (c.Width, c.Depth)))
            (G.NewGenerator n.Children.length)).1 := by
  rw [GenerateChildrenPosition_internal G n h, placeChildren_eq]
  refine ⟨rfl, rfl, ?_⟩
  simp only [List.map_zipWith]
  rfl

theorem rectAt_shift (p : Position) (w d dx dy : ℚ) :
    rectAt ⟨p.X - dx, p.Y - dy⟩ w d = (rectAt p w d).shift dx dy := by
  simp only [rectAt, Rect.shift, Rect.mk.injEq]
  refine ⟨?_, ?_, ?_, ?_⟩ <;> ring

theorem rects_of_placed (dx dy : ℚ) (laid : List Node) (positions : List Position) :
    (List.zipWith (fun c p => ({ c with Position := ⟨p.X - dx, p.Y - dy⟩ } : Node))
        laid positions).map Node.rect =
      (packedRects positions (laid.map (fun c => (c.Width, c.Depth)))).map (Rect.shift dx dy) := by
  induction laid generalizing positions with
  | nil => simp [packedRects]
  | cons c laid ih =>
    cases positions with
    | nil => simp [packedRects]
    | cons p positions =>
      have := ih positions
      simp only [packedRects] at this ⊢
      simp only [List.zipWith_cons_cons, List.map_cons, this, List.cons.injEq, and_true]
      exact rectAt_shift p c.Width c.Depth dx dy

theorem Rect.Disjoint.shift {a b : Rect} (h : a.Disjoint b) (dx dy : ℚ) :
    (a.shift dx dy).Disjoint (b.shift dx dy) := by
  unfold Rect.Disjoint at *
  simp only [Rect.shift]
  rcases h with h | h | h | h
  · exact Or.inl (by linarith)
  · exact Or.inr (Or.inl (by linarith))
  · exact Or.inr (Or.inr (Or.inl (by linarith)))
  · exact Or.inr (Or.inr (Or.inr (by linarith)))

theorem shelf_nonneg_placeAll (sizes : List (ℚ × ℚ)) (s : Shelf) (hy : 0 ≤ s.y)
    (hh : 0 ≤ s.shelfHeight) (hm : 0 ≤ s.maxX) :
    0 ≤ (placeAll shelfGenerator sizes s).2.y ∧
      0 ≤ (placeAll shelfGenerator sizes s).2.shelfHeight ∧
      0 ≤ (placeAll shelfGenerator sizes s).2.maxX := by
  induction sizes generalizing s with
  | nil => exact ⟨hy, hh, hm⟩
  | cons wd sizes ih =>
    simp only [placeAll]
    apply ih
    · rw [NextPosition_fst]
      unfold shelfBefore
      split
      · exact add_nonneg hy hh
      · exact hy
    · rw [NextPosition_fst]
      unfold shelfBefore
      split
      · exact le_max_left _ _
      · exact le_trans hh (le_max_left _ _)
    · rw [NextPosition_fst]
      unfold shelfBefore
      split
      · exact le_trans hm (le_max_left _ _)
      · exact le_trans hm (le_max_left _ _)

theorem packedBounds_nonneg (n : Node) :
    0 ≤ (packedBounds shelfGenerator n).X ∧ 0 ≤ (packedBounds shelfGenerator n).Y := by
  obtain ⟨hy, hh, hm⟩ := shelf_nonneg_placeAll
    ((n.Children.map (GenerateChildrenPosition shelfGenerator)).map (fun c => (c.Width, c.Depth)))
    (shelfGenerator.NewGenerator n.Children.length) (le_refl _) (le_refl _) (le_refl _)
  exact ⟨hm, add_nonneg hy hh⟩

theorem layout_size_nonneg (c : Node) (h : 0 ≤ c.NumberOfAttributes) :
    0 ≤ (GenerateChildrenPosition shelfGenerator c).Width ∧
      0 ≤ (GenerateChildrenPosition shelfGenerator c).Depth := by
  have hq : (0 : ℚ) ≤ (c.NumberOfAttributes : ℚ) := by exact_mod_cast h
  by_cases hc : c.Children = []
  · rw [GenerateChildrenPosition_leaf _ c hc]
    exact ⟨by simp only; linarith, by simp only; linarith⟩
  · obtain ⟨hw, hd, -⟩ := layout_children shelfGenerator c hc
    obtain ⟨bx, by_⟩ := packedBounds_nonneg c
    rw [hw, hd]
    constructor <;> split <;> linarith

theorem sizes_nonneg (n : Node) (h : ∀ c ∈ n.Children, 0 ≤ c.NumberOfAttributes) :
    ∀ wd ∈ (n.Children.map (GenerateChildrenPosition shelfGenerator)).map
      (fun c => (c.Width, c.Depth)), 0 ≤ wd.1 ∧ 0 ≤ wd.2 := by
  intro wd hwd
  simp only [List.map_map, List.mem_map, Function.comp] at hwd
  obtain ⟨c, hc, rfl⟩ := hwd
  exact layout_size_nonneg c (h c hc)

/-- The packing of the children of `n`, seen from the rectangles. -/
theorem shelfInv_children (n : Node) (h : ∀ c ∈ n.Children, 0 ≤ c.NumberOfAttributes) :
    ShelfInv
      (placeAll shelfGenerator
        ((n.Children.map (GenerateChildrenPosition shelfGenerator)).map
          (fun c => (c.Width, c.Depth)))
        (shelfGenerator.NewGenerator n.Children.length)).2
      (packedRects
        (placeAll shelfGenerator
          ((n.Children.map (GenerateChildrenPosition shelfGenerator)).map
            (fun c => (c.Width, c.Depth)))
          (shelfGenerator.NewGenerator n.Children.length)).1
        ((n.Children.map (GenerateChildrenPosition shelfGenerator)).map
          (fun c => (c.Width, c.Depth)))) := by
  have := shelfInv_placeAll _ (sizes_nonneg n h) _ [] (shelfInv_init n.Children.length)
  simpa using this

theorem children_rects (n : Node) (hc : n.Children ≠ []) :
    (GenerateChildrenPosition shelfGenerator n).Children.map Node.rect =
      (packedRects
        (placeAll shelfGenerator
          ((n.Children.map (GenerateChildrenPosition shelfGenerator)).map
            (fun c => (c.Width, c.Depth)))
          (shelfGenerator.NewGenerator n.Children.length)).1
        ((n.Children.map (GenerateChildrenPosition shelfGenerator)).map
          (fun c => (c.Width, c.Depth)))).map
        (Rect.shift ((packedBounds shelfGenerator n).X / 2)
          ((packedBounds shelfGenerator n).Y / 2)) := by
  rw [(layout_children shelfGenerator n hc).2.2]
  exact rects_of_placed _ _ _ _

theorem children_disjoint (n : Node) (h : ∀ c ∈ n.Children, 0 ≤ c.NumberOfAttributes) :
    (GenerateChildrenPosition shelfGenerator n).Children.Pairwise
      (fun a b => a.rect.Disjoint b.rect) := by
  by_cases hc : n.Children = []
  · rw [GenerateChildrenPosition_leaf _ n hc]
    simp only [hc]
    exact List.Pairwise.nil
  · rw [← List.pairwise_map (f := Node.rect) (R := Rect.Disjoint), children_rects n hc]
    exact (shelfInv_children n h).disjoint.map _ (fun _ _ hab => hab.shift _ _)

end CodeAnalyzer

namespace CodeAnalyzer

/-! ## Every node of a laid-out tree -/

theorem attrsNonneg_eq (n : Node) :
    attrsNonneg n = (decide (0 ≤ n.NumberOfAttributes) && attrsNonnegAll n.Children) := by
  cases n
  rw [attrsNonneg]

theorem attrsNonnegAll_mem {cs : List Node} (h : attrsNonnegAll cs = true) :
    ∀ c ∈ cs, attrsNonneg c = true := by
  induction cs with
  | nil => intro c hc; cases hc
  | cons a cs ih =>
    rw [attrsNonnegAll, Bool.and_eq_true] at h
    intro c hc
    rcases List.mem_cons.1 hc with rfl | hc
    · exact h.1
    · exact ih h.2 c hc

theorem attrsNonneg_children {n : Node} (h : attrsNonneg n = true) :
    0 ≤ n.NumberOfAttributes ∧ ∀ c ∈ n.Children, attrsNonneg c = true := by
  rw [attrsNonneg_eq, Bool.and_eq_true, decide_eq_true_eq] at h
  exact ⟨h.1, attrsNonnegAll_mem h.2⟩

theorem attrsNonneg_subnode (path : List Nat) :
    ∀ n m, attrsNonneg n = true → subnode n path = some m → attrsNonneg m = true := by
  induction path with
  | nil =>
    intro n m hn hm
    simp only [subnode, Option.some.injEq] at hm
    rw [← hm]; exact hn
  | cons i path ih =>
    intro n m hn hm
    simp only [subnode] at hm
    cases hg : n.Children.get? i with
    | none => rw [hg] at hm; cases hm
    | some c =>
      rw [hg] at hm
      exact ih c m ((attrsNonneg_children hn).2 c (List.get?_mem hg)) hm

theorem get?_placed {σ : Type} (G : Generator σ) (dx dy : ℚ) (cs : List Node)
    (positions : List Position) (i : Nat) (c' : Node)
    (h : (List.zipWith (fun c p => ({ c with Position := ⟨p.X - dx, p.Y - dy⟩ } : Node))
      (cs.map (GenerateChildrenPosition G)) positions).get? i = some c') :
    ∃ c, cs.get? i = some c ∧ c'.Children = (GenerateChildrenPosition G c).Children := by
  induction cs generalizing positions i with
  | nil => simp at h
  | cons a cs ih =>
    cases positions with
    | nil => simp at h
    | cons p positions =>
      cases i with
      | zero =>
        simp only [List.map_cons, List.zipWith_cons_cons, List.get?_cons_zero,
          Option.some.injEq] at h
        exact ⟨a, rfl, by rw [← h]⟩
      | succ i =>
        simp only [List.map_cons, List.zipWith_cons_cons, List.get?_cons_succ] at h
        exact ih positions i h

theorem subnode_of_children_eq {a b : Node} (h : a.Children = b.Children) (i : Nat)
    (path : List Nat) : subnode a (i :: path) = subnode b (i :: path) := by
  simp only [subnode, h]

theorem subnode_cons_of_get? {n c : Node} {i : Nat} (h : n.Children.get? i = some c)
    (path : List Nat) : subnode n (i :: path) = subnode c path := by
  show (match n.Children.get? i with
    | none => none
    | some c => subnode c path) = subnode c path
  rw [h]

theorem subnode_cons_none {n : Node} {i : Nat} (h : n.Children.get? i = none)
    (path : List Nat) : subnode n (i :: path) = none := by
  show (match n.Children.get? i with
    | none => none
    | some c => subnode c path) = none
  rw [h]

theorem subnode_layout {σ : Type} (G : Generator σ) (path : List Nat) :
    ∀ n m', subnode (GenerateChildrenPosition G n) path = some m' →
      ∃ m, subnode n path = some m ∧ m'.Children = (GenerateChildrenPosition G m).Children := by
  induction path with
  | nil =>
    intro n m' h
    simp only [subnode, Option.some.injEq] at h
    exact ⟨n, rfl, by rw [h]⟩
  | cons i path ih =>
    intro n m' h
    by_cases hc : n.Children = []
    · rw [GenerateChildrenPosition_leaf G n hc, subnode_cons_none (by simp [hc])] at h
      cases h
    · cases hg : (GenerateChildrenPosition G n).Children.get? i with
      | none => rw [subnode_cons_none hg] at h; cases h
      | some c' =>
        rw [subnode_cons_of_get? hg] at h
        rw [(layout_children G n hc).2.2] at hg
        obtain ⟨c, hci, hcc⟩ := get?_placed G _ _ _ _ _ _ hg
        rw [subnode_cons_of_get? hci]
        cases path with
        | nil =>
          simp only [subnode, Option.some.injEq] at h
          exact ⟨c, rfl, by rw [← h, hcc]⟩
        | cons j rest =>
          rw [subnode_of_children_eq hcc] at h
          exact ih c m' h

end CodeAnalyzer

namespace CodeAnalyzer

/-! ## The statistics do not see the layout -/

theorem placeAll_length {σ : Type} (G : Generator σ) (sizes : List (ℚ × ℚ)) (g : σ) :
    (placeAll G sizes g).1.length = sizes.length := by
  induction sizes generalizing g with
  | nil => rfl
  | cons wd sizes ih => simp only [placeAll, List.length_cons, ih]

theorem generateStateByComponents_eq (r cur : Str) (n : Node)
    (st : Int × List (Str × Component)) :
    generateStateByComponents r cur n st =
      generateStateOfChildren r (packageNameAt cur n) n.Children (visitNode r cur n st) := by
  cases n
  rw [generateStateByComponents]

theorem generateStateByComponents_congr (r cur : Str) {a b : Node}
    (st : Int × List (Str × Component)) (hT : a.Type_ = b.Type_) (hN : a.Name = b.Name)
    (hM : a.NumberOfMethods = b.NumberOfMethods) (hS : a.NumberOfStmts = b.NumberOfStmts)
    (hC : a.Children = b.Children) :
    generateStateByComponents r cur a st = generateStateByComponents r cur b st := by
  rw [generateStateByComponents_eq, generateStateByComponents_eq, hC]
  have h1 : packageNameAt cur a = packageNameAt cur b := by
    simp only [packageNameAt, hT, hN]
  have h2 : visitNode r cur a st = visitNode r cur b st := by
    simp only [visitNode, h1, hT, hM, hS]
  rw [h1, h2]

theorem layout_fields {σ : Type} (G : Generator σ) (n : Node) :
    (GenerateChildrenPosition G n).Type_ = n.Type_ ∧
      (GenerateChildrenPosition G n).Name = n.Name ∧
      (GenerateChildrenPosition G n).NumberOfMethods = n.NumberOfMethods ∧
      (GenerateChildrenPosition G n).NumberOfStmts = n.NumberOfStmts ∧
      (GenerateChildrenPosition G n).NumberOfAttributes = n.NumberOfAttributes ∧
      (GenerateChildrenPosition G n).URL = n.URL ∧
      (GenerateChildrenPosition G n).Line = n.Line := by
  by_cases hc : n.Children = []
  · rw [GenerateChildrenPosition_leaf G n hc]
    exact ⟨rfl, rfl, rfl, rfl, rfl, rfl, rfl⟩
  · rw [GenerateChildrenPosition_internal G n hc]
    exact ⟨rfl, rfl, rfl, rfl, rfl, rfl, rfl⟩

theorem generateStateOfChildren_placed {σ : Type} (G : Generator σ) (r cur : Str) (dx dy : ℚ)
    (cs : List Node)
    (ih : ∀ c ∈ cs, ∀ cur st,
      generateStateByComponents r cur (GenerateChildrenPosition G c) st =
        generateStateByComponents r cur c st)
    (positions : List Position) (hl : positions.length = cs.length)
    (st : Int × List (Str × Component)) :
    generateStateOfChildren r cur
        (List.zipWith (fun c p => ({ c with Position := ⟨p.X - dx, p.Y - dy⟩ } : Node))
          (cs.map (GenerateChildrenPosition G)) positions) st =
      generateStateOfChildren r cur cs st := by
  induction cs generalizing positions st with
  | nil => simp [generateStateOfChildren]
  | cons c cs ihl =>
    cases positions with
    | nil => simp at hl
    | cons p positions =>
      simp only [List.map_cons, List.zipWith_cons_cons, generateStateOfChildren]
      have e := generateStateByComponents_congr r cur st
        (a := { GenerateChildrenPosition G c with Position := ⟨p.X - dx, p.Y - dy⟩ })
        (b := GenerateChildrenPosition G c) rfl rfl rfl rfl rfl
      rw [e, ih c (List.mem_cons_self _ _)]
      exact ihl (fun c' hc' => ih c' (List.mem_cons_of_mem _ hc')) positions
        (by simpa using hl) _

theorem generateStateByComponents_layout_aux {σ : Type} (G : Generator σ) (r : Str) :
    ∀ k n, sizeOf n = k → ∀ cur st,
      generateStateByComponents r cur (GenerateChildrenPosition G n) st =
        generateStateByComponents r cur n st := by
  intro k
  induction k using Nat.strong_induction_on with
  | _ k ih =>
    intro n hk cur st
    by_cases hc : n.Children = []
    · exact generateStateByComponents_congr r cur st (layout_fields G n).1 (layout_fields G n).2.1
        (layout_fields G n).2.2.1 (layout_fields G n).2.2.2.1
        (by rw [GenerateChildrenPosition_leaf G n hc])
    · obtain ⟨hT, hN, hM, hS, -⟩ := layout_fields G n
      rw [generateStateByComponents_eq, generateStateByComponents_eq]
      have h1 : packageNameAt cur (GenerateChildrenPosition G n) = packageNameAt cur n := by
        simp only [packageNameAt, hT, hN]
      have h2 : visitNode r cur (GenerateChildrenPosition G n) st = visitNode r cur n st := by
        simp only [visitNode, h1, hT, hM, hS]
      rw [h1, h2, (layout_children G n hc).2.2]
      apply generateStateOfChildren_placed
      · intro c hcm cur' st'
        have hlt : sizeOf c < sizeOf n := by
          have h1 := List.sizeOf_lt_of_mem hcm
          obtain ⟨name, url, ty, w, d, pos, nl, nm, na, ns, children, line, cm⟩ := n
          simp only [Node.mk.sizeOf_spec]
          simp only at h1
          omega
        exact ih (sizeOf c) (by omega) c rfl cur' st'
      · rw [placeAll_length]
        simp

theorem generateStateByComponents_layout {σ : Type} (G : Generator σ) (r : Str) (n : Node)
    (cur : Str) (st : Int × List (Str × Component)) :
    generateStateByComponents r cur (GenerateChildrenPosition G n) st =
      generateStateByComponents r cur n st :=
  generateStateByComponents_layout_aux G r (sizeOf n) n rfl cur st

/-- The outcome of `New`: the layout plays no part in whether it returns. -/
theorem New_eq {σ : Type} (G : Generator σ) (ord : RangeOrder) (items : List (Str × NodeInfo))
    (repositoryName : Str) :
    New G ord items repositoryName =
      match buildTree items repositoryName with
      | .error e => .error e
      | .ok tree =>
        match summarise (generateStateByComponents repositoryName repositoryName
            (GenerateChildList ord tree (rootPath repositoryName)) (0, [])) with
        | .error e => .error e
        | .ok _ => .ok (finishTree G ord tree repositoryName) := by
  unfold New
  cases buildTree items repositoryName with
  | error e => rfl
  | ok tree =>
    exact congrArg
      (fun st =>
        (match summarise st with
          | .error e => (.error e : Except Fault Node)
          | .ok _ => .ok (finishTree G ord tree repositoryName)))
      (generateStateByComponents_layout G repositoryName _ repositoryName (0, []))

end CodeAnalyzer

namespace CodeAnalyzer

theorem get?_placed_of_get? {σ : Type} (G : Generator σ) (dx dy : ℚ) (cs : List Node)
    (positions : List Position) (hl : positions.length = cs.length) (i : Nat) (c : Node)
    (h : cs.get? i = some c) :
    ∃ q, (List.zipWith (fun c p => ({ c with Position := ⟨p.X - dx, p.Y - dy⟩ } : Node))
      (cs.map (GenerateChildrenPosition G)) positions).get? i =
        some { GenerateChildrenPosition G c with Position := q } := by
  induction cs generalizing positions i with
  | nil => simp at h
  | cons a cs ih =>
    cases positions with
    | nil => simp at hl
    | cons p positions =>
      cases i with
      | zero =>
        simp only [List.get?_cons_zero, Option.some.injEq] at h
        subst h
        exact ⟨_, rfl⟩
      | succ i =>
        simp only [List.get?_cons_succ] at h
        obtain ⟨q, hq⟩ := ih positions (by simpa using hl) i h
        exact ⟨q, by simpa only [List.map_cons, List.zipWith_cons_cons, List.get?_cons_succ] using hq⟩

/-- A node of a tree is found at the same place after the layout, with the
children that its own layout gives it. -/
theorem subnode_layout_of_subnode {σ : Type} (G : Generator σ) (path : List Nat) :
    ∀ n m, subnode n path = some m →
      ∃ m', subnode (GenerateChildrenPosition G n) path = some m' ∧
        m'.Name = m.Name ∧ m'.Children = (GenerateChildrenPosition G m).Children := by
  induction path with
  | nil =>
    intro n m h
    simp only [subnode, Option.some.injEq] at h
    subst h
    exact ⟨_, rfl, (layout_fields G n).2.1, rfl⟩
  | cons i path ih =>
    intro n m h
    cases hg : n.Children.get? i with
    | none => rw [subnode_cons_none hg] at h; cases h
    | some c =>
      rw [subnode_cons_of_get? hg] at h
      have hc : n.Children ≠ [] := by
        intro e; rw [e] at hg; simp at hg
      obtain ⟨q, hq⟩ := get?_placed_of_get? G ((packedBounds G n).X / 2)
        ((packedBounds G n).Y / 2) n.Children
        (placeAll G
          ((n.Children.map (GenerateChildrenPosition G)).map (fun c => (c.Width, c.Depth)))
          (G.NewGenerator n.Children.length)).1
        (by rw [placeAll_length, List.length_map, List.length_map]) i c hg
      rw [← (layout_children G n hc).2.2] at hq
      rw [subnode_cons_of_get? hq]
      cases path with
      | nil =>
        simp only [subnode, Option.some.injEq] at h
        subst h
        exact ⟨_, rfl, (layout_fields G c).2.1, rfl⟩
      | cons j rest =>
        rw [subnode_of_children_eq
          (rfl : ({ GenerateChildrenPosition G c with Position := q } : Node).Children =
            (GenerateChildrenPosition G c).Children)]
        exact ih c m h

end CodeAnalyzer

namespace CodeAnalyzer

theorem internal_width_depth_witness :
    sampleFile.Children ≠ [] ∧
      (let laid := sampleFile.Children.map (GenerateChildrenPosition shelfGenerator)
       let packed := placeAll shelfGenerator (laid.map (fun c => (c.Width, c.Depth)))
         (shelfGenerator.NewGenerator sampleFile.Children.length)
       let bounds := shelfGenerator.GetBounds packed.2
       (GenerateChildrenPosition shelfGenerator sampleFile).Width =
           bounds.X + (if sampleFile.Type_ = NodeType.FileType then
             (sampleFile.NumberOfAttributes : ℚ) else 0) ∧
         (GenerateChildrenPosition shelfGenerator sampleFile).Depth =
           bounds.Y + (if sampleFile.Type_ = NodeType.FileType then
             (sampleFile.NumberOfAttributes : ℚ) else 0) ∧
         (GenerateChildrenPosition shelfGenerator sampleFile).Children =
           List.zipWith
             (fun c p => { c with Position := ⟨p.X - bounds.X / 2, p.Y - bounds.Y / 2⟩ })
             laid packed.1) :=
  ⟨List.cons_ne_nil _ _, internal_width_depth shelfGenerator sampleFile (List.cons_ne_nil _ _)⟩

/-- C2 (counterexample). The entries `a.go` and `a.go/b.go`: visited in this
order the node `a.go` below the root is a FILE, visited in the other order it
is a PACKAGE. -/
theorem mergeLoop_order_changes_type :
    typeIn (buildTree sampleClash "r".toList) ["a.go".toList] = some NodeType.FileType ∧
      typeIn (buildTree sampleClash.reverse "r".toList) ["a.go".toList] =
        some NodeType.PackageType ∧
      (sampleClash.map Prod.fst).Nodup := by
  decide

theorem mergeLoop_order_independent_witness :
    sampleStructs.Perm sampleStructs.reverse ∧
      (sampleStructs.map Prod.fst).Nodup ∧
      (∀ x ∈ sampleStructs, ∀ y ∈ sampleStructs, NoClash x.1 y.1) ∧
      ∃ t₁ t₂, buildTree sampleStructs "r".toList = .ok t₁ ∧
        buildTree sampleStructs.reverse "r".toList = .ok t₂ ∧
        ∀ path, infoAt t₁ path = infoAt t₂ path :=
  ⟨by decide, by decide, by decide,
    mergeLoop_order_independent sampleStructs sampleStructs.reverse "r".toList (by decide)
      (by decide) (by decide)⟩

/-- C3 at the entries `x/notes` and `x/other`, which resolve to the same node:
its counters (3, 2, 1, 4) and (30, 20, 10, 40) in the two trees add up to
(33, 22, 11, 44) in the tree of both. -/
theorem counters_of_split_witness :
    sampleNotes.Perm (sampleNotes.take 1 ++ sampleNotes.drop 1) ∧
      buildTree sampleNotes "r".toList = .ok (treeOr (buildTree sampleNotes "r".toList)) ∧
      buildTree (sampleNotes.take 1) "r".toList =
        .ok (treeOr (buildTree (sampleNotes.take 1) "r".toList)) ∧
      buildTree (sampleNotes.drop 1) "r".toList =
        .ok (treeOr (buildTree (sampleNotes.drop 1) "r".toList)) ∧
      countersAt (treeOr (buildTree (sampleNotes.take 1) "r".toList)) ["x".toList, []] =
        (3, 2, 1, 4) ∧
      countersAt (treeOr (buildTree (sampleNotes.drop 1) "r".toList)) ["x".toList, []] =
        (30, 20, 10, 40) ∧
      countersAt (treeOr (buildTree sampleNotes "r".toList)) ["x".toList, []] =
        (33, 22, 11, 44) ∧
      (countersAt (treeOr (buildTree sampleNotes "r".toList)) ["x".toList, []] =
          countersAt (treeOr (buildTree (sampleNotes.take 1) "r".toList)) ["x".toList, []] +
            countersAt (treeOr (buildTree (sampleNotes.drop 1) "r".toList))
              ["x".toList, []] ∧
        ((nodeAt (treeOr (buildTree sampleNotes "r".toList)) ["x".toList, []]).isSome = true ↔
          ((nodeAt (treeOr (buildTree (sampleNotes.take 1) "r".toList))
              ["x".toList, []]).isSome = true ∨
            (nodeAt (treeOr (buildTree (sampleNotes.drop 1) "r".toList))
              ["x".toList, []]).isSome = true))) :=
  ⟨by decide, rfl, rfl, rfl, by decide, by decide, by decide,
    counters_of_split sampleNotes (sampleNotes.take 1) (sampleNotes.drop 1) "r".toList
      (by decide) _ _ _ rfl rfl rfl ["x".toList, []]⟩

/-- C5 (counterexample). The identifier `x/notes` has no parseable file name,
yet the tree built from this one entry has a FILE node with the empty name
below the package `x`, holding the entry's four counters; the tree built from
no entry has no node there. -/
theorem unparseable_entry_not_dropped :
    (getPathAndFile sampleUnparseable.1).2.1 = [] ∧
      typeIn (buildTree [sampleUnparseable] "r".toList) ["x".toList, []] =
        some NodeType.FileType ∧
      countersAt (treeOr (buildTree [sampleUnparseable] "r".toList)) ["x".toList, []] =
        (3, 2, 1, 4) ∧
      typeIn (buildTree [] "r".toList) ["x".toList, []] = none := by
  decide

theorem unparseable_entry_merged_witness :
    (getPathAndFile sampleUnparseable.1).2.1 = [] ∧
      mergeEntry (newRoot "r".toList) sampleUnparseable.1 sampleUnparseable.2 =
        .ok (treeOr (mergeEntry (newRoot "r".toList) sampleUnparseable.1 sampleUnparseable.2)) ∧
      countersAt (treeOr (mergeEntry (newRoot "r".toList) sampleUnparseable.1
          sampleUnparseable.2)) (targetPath sampleUnparseable.1) =
        countersAt (newRoot "r".toList) (targetPath sampleUnparseable.1) +
          sampleUnparseable.2.counters :=
  ⟨by decide, rfl,
    (unparseable_entry_merged (newRoot "r".toList) _ sampleUnparseable.1 sampleUnparseable.2
      (by decide) rfl).2.2.1⟩

end CodeAnalyzer

namespace CodeAnalyzer

/-- C9. In a tree laid out with the shelf packing, whose nodes have no
negative number of attributes, the bounding rectangles of every two distinct
children of every node do not overlap; a child's rectangle is centred at its
position and has size width × depth. -/
theorem siblings_disjoint (n : Node) (hn : attrsNonneg n = true) (path : List Nat) (m : Node)
    (hm : subnode (GenerateChildrenPosition shelfGenerator n) path = some m) :
    m.Children.Pairwise (fun a b => a.rect.Disjoint b.rect) := by
  obtain ⟨m₀, hm₀, hc⟩ := subnode_layout shelfGenerator path n m hm
  rw [hc]
  exact children_disjoint m₀ (fun c hcm =>
    (attrsNonneg_children ((attrsNonneg_children (attrsNonneg_subnode path n m₀ hn hm₀)).2 c hcm)).1)

theorem siblings_disjoint_witness :
    attrsNonneg sampleFile = true ∧
      subnode (GenerateChildrenPosition shelfGenerator sampleFile) [] =
        some (GenerateChildrenPosition shelfGenerator sampleFile) ∧
      (GenerateChildrenPosition shelfGenerator sampleFile).Children.Pairwise
        (fun a b => a.rect.Disjoint b.rect) :=
  ⟨rfl, rfl, siblings_disjoint sampleFile rfl [] _ rfl⟩

/-- C10. For a node with at least one child, none of them with a negative
number of attributes, laid out with the shelf packing: the rectangles of the
children lie within `[-W/2, W/2]` by `[-D/2, D/2]` and reach each of its four
sides, where `W` and `D` are the packed bounds before any FILE padding. -/
theorem children_box_centred (n : Node) (hc : n.Children ≠ [])
    (hn : ∀ c ∈ n.Children, 0 ≤ c.NumberOfAttributes) :
    let W := (packedBounds shelfGenerator n).X
    let D := (packedBounds shelfGenerator n).Y
    let kids := (GenerateChildrenPosition shelfGenerator n).Children
    (∀ c ∈ kids, -W / 2 ≤ c.rect.x0 ∧ c.rect.x1 ≤ W / 2 ∧ -D / 2 ≤ c.rect.y0 ∧
        c.rect.y1 ≤ D / 2) ∧
      (∃ c ∈ kids, c.rect.x0 = -W / 2) ∧ (∃ c ∈ kids, c.rect.x1 = W / 2) ∧
      (∃ c ∈ kids, c.rect.y0 = -D / 2) ∧ (∃ c ∈ kids, c.rect.y1 = D / 2) := by
  intro W D kids
  have inv := shelfInv_children n hn
  have hr := children_rects n hc
  generalize hR : packedRects
    (placeAll shelfGenerator
      ((n.Children.map (GenerateChildrenPosition shelfGenerator)).map
        (fun c => (c.Width, c.Depth)))
      (shelfGenerator.NewGenerator n.Children.length)).1
    ((n.Children.map (GenerateChildrenPosition shelfGenerator)).map
      (fun c => (c.Width, c.Depth))) = R at inv hr
  have hW : (placeAll shelfGenerator
      ((n.Children.map (GenerateChildrenPosition shelfGenerator)).map
        (fun c => (c.Width, c.Depth)))
      (shelfGenerator.NewGenerator n.Children.length)).2.maxX = W := rfl
  have hD : (placeAll shelfGenerator
      ((n.Children.map (GenerateChildrenPosition shelfGenerator)).map
        (fun c => (c.Width, c.Depth)))
      (shelfGenerator.NewGenerator n.Children.length)).2.y +
      (placeAll shelfGenerator
      ((n.Children.map (GenerateChildrenPosition shelfGenerator)).map
        (fun c => (c.Width, c.Depth)))
      (shelfGenerator.NewGenerator n.Children.length)).2.shelfHeight = D := rfl
  have hne : R ≠ [] := by
    intro hnil
    rw [hnil] at hr
    simp only [List.map_nil, List.map_eq_nil_iff] at hr
    rw [(layout_children shelfGenerator n hc).2.2] at hr
    cases hch : n.Children with
    | nil => exact hc hch
    | cons a l =>
      rw [hch] at hr
      simp [placeAll] at hr
  -- from a child to its packed rectangle, and back
  have toR : ∀ c ∈ kids, ∃ r ∈ R, c.rect = r.shift (W / 2) (D / 2) := by
    intro c hck
    have : c.rect ∈ kids.map Node.rect := List.mem_map_of_mem _ hck
    rw [hr, List.mem_map] at this
    obtain ⟨r, hrR, e⟩ := this
    exact ⟨r, hrR, e.symm⟩
  have ofR : ∀ r ∈ R, ∃ c ∈ kids, c.rect = r.shift (W / 2) (D / 2) := by
    intro r hrR
    have : r.shift (W / 2) (D / 2) ∈ kids.map Node.rect := by
      rw [hr]; exact List.mem_map_of_mem _ hrR
    rw [List.mem_map] at this
    obtain ⟨c, hck, e⟩ := this
    exact ⟨c, hck, e⟩
  refine ⟨?_, ?_, ?_, ?_, ?_⟩
  · intro c hck
    obtain ⟨r, hrR, e⟩ := toR c hck
    obtain ⟨a, b, c', d⟩ := inv.inside r hrR
    rw [hW] at b
    rw [hD] at d
    rw [e]
    simp only [Rect.shift]
    refine ⟨by linarith, by linarith, by linarith, by linarith⟩
  · obtain ⟨r, hrR, e⟩ := inv.left hne
    obtain ⟨c, hck, ec⟩ := ofR r hrR
    exact ⟨c, hck, by rw [ec]; simp only [Rect.shift]; rw [e]; ring⟩
  · obtain ⟨r, hrR, e⟩ := inv.right hne
    obtain ⟨c, hck, ec⟩ := ofR r hrR
    rw [hW] at e
    exact ⟨c, hck, by rw [ec]; simp only [Rect.shift]; rw [e]; ring⟩
  · obtain ⟨r, hrR, e⟩ := inv.bottom hne
    obtain ⟨c, hck, ec⟩ := ofR r hrR
    exact ⟨c, hck, by rw [ec]; simp only [Rect.shift]; rw [e]; ring⟩
  · obtain ⟨r, hrR, e⟩ := inv.top hne
    obtain ⟨c, hck, ec⟩ := ofR r hrR
    rw [hD] at e
    exact ⟨c, hck, by rw [ec]; simp only [Rect.shift]; rw [e]; ring⟩

theorem children_box_centred_witness :
    sampleFile.Children ≠ [] ∧ (∀ c ∈ sampleFile.Children, 0 ≤ c.NumberOfAttributes) ∧
      (let W := (packedBounds shelfGenerator sampleFile).X
       let D := (packedBounds shelfGenerator sampleFile).Y
       let kids := (GenerateChildrenPosition shelfGenerator sampleFile).Children
       (∀ c ∈ kids, -W / 2 ≤ c.rect.x0 ∧ c.rect.x1 ≤ W / 2 ∧ -D / 2 ≤ c.rect.y0 ∧
           c.rect.y1 ≤ D / 2) ∧
         (∃ c ∈ kids, c.rect.x0 = -W / 2) ∧ (∃ c ∈ kids, c.rect.x1 = W / 2) ∧
         (∃ c ∈ kids, c.rect.y0 = -D / 2) ∧ (∃ c ∈ kids, c.rect.y1 = D / 2)) :=
  ⟨List.cons_ne_nil _ _, by decide,
    children_box_centred sampleFile (List.cons_ne_nil _ _) (by decide)⟩

end CodeAnalyzer

namespace CodeAnalyzer

/-- C4 (the code at the failing input). For two structs of one file, `A`
without attributes and `B` with five, and for every position generator,
`model.New` returns a tree in which the children of the file are in the order
in which the `range` of line 64 met them: `A` of width 1 before `B` of width 6
for one order, the reverse for the other. The sort of line 74 runs before the
layout, when every width is 0. -/
theorem New_children_not_sorted {σ : Type} (G : Generator σ) :
    (∃ t m, New G RangeOrder.same sampleStructs "r".toList = .ok t ∧
        subnode t [0, 0] = some m ∧ m.Name = "f.go".toList ∧
        m.Children.map (fun c => (c.Name, c.Width)) = [("A".toList, 1), ("B".toList, 6)]) ∧
      (∃ t m, New G RangeOrder.reversed sampleStructs "r".toList = .ok t ∧
        subnode t [0, 0] = some m ∧ m.Name = "f.go".toList ∧
        m.Children.map (fun c => (c.Name, c.Width)) = [("B".toList, 6), ("A".toList, 1)]) := by
  constructor
  · have hN : New G RangeOrder.same sampleStructs "r".toList =
        .ok (finishTree G RangeOrder.same (treeOr (buildTree sampleStructs "r".toList))
          "r".toList) := by
      rw [New_eq]; rfl
    obtain ⟨m, hm, hname, hch⟩ := subnode_layout_of_subnode G [0, 0]
      (GenerateChildList RangeOrder.same (treeOr (buildTree sampleStructs "r".toList))
        (rootPath "r".toList))
      ((subnode (GenerateChildList RangeOrder.same
        (treeOr (buildTree sampleStructs "r".toList)) (rootPath "r".toList)) [0, 0]).getD
          Node.zero) rfl
    refine ⟨_, m, hN, hm, by rw [hname]; rfl, ?_⟩
    rw [hch]
    have : (GenerateChildrenPosition G
        ((subnode (GenerateChildList RangeOrder.same
          (treeOr (buildTree sampleStructs "r".toList)) (rootPath "r".toList)) [0, 0]).getD
            Node.zero)).Children.map (fun c => (c.Name, c.Width)) =
        [("A".toList, ((0 : Int) : ℚ) + 1), ("B".toList, ((5 : Int) : ℚ) + 1)] := rfl
    rw [this]
    norm_num
  · have hN : New G RangeOrder.reversed sampleStructs "r".toList =
        .ok (finishTree G RangeOrder.reversed (treeOr (buildTree sampleStructs "r".toList))
          "r".toList) := by
      rw [New_eq]; rfl
    obtain ⟨m, hm, hname, hch⟩ := subnode_layout_of_subnode G [0, 0]
      (GenerateChildList RangeOrder.reversed (treeOr (buildTree sampleStructs "r".toList))
        (rootPath "r".toList))
      ((subnode (GenerateChildList RangeOrder.reversed
        (treeOr (buildTree sampleStructs "r".toList)) (rootPath "r".toList)) [0, 0]).getD
          Node.zero) rfl
    refine ⟨_, m, hN, hm, by rw [hname]; rfl, ?_⟩
    rw [hch]
    have : (GenerateChildrenPosition G
        ((subnode (GenerateChildList RangeOrder.reversed
          (treeOr (buildTree sampleStructs "r".toList)) (rootPath "r".toList)) [0, 0]).getD
            Node.zero)).Children.map (fun c => (c.Name, c.Width)) =
        [("B".toList, ((5 : Int) : ℚ) + 1), ("A".toList, ((0 : Int) : ℚ) + 1)] := rfl
    rw [this]
    norm_num

end CodeAnalyzer

namespace CodeAnalyzer

/-! ## Identifiers of the expected form -/

theorem Split_of_not_mem (sep : Char) (s : Str) (h : sep ∉ s) : Split sep s = [s] := by
  induction s with
  | nil => rfl
  | cons c cs ih =>
    have hc : c ≠ sep := fun e => h (by rw [e]; exact List.mem_cons_self _ _)
    have hcs : sep ∉ cs := fun e => h (List.mem_cons_of_mem _ e)
    rw [Split, if_neg hc, ih hcs]

theorem Split_append_sep (sep : Char) (s rest : Str) (h : sep ∉ s) :
    Split sep (s ++ sep :: rest) = s :: Split sep rest := by
  induction s with
  | nil => simp [Split]
  | cons c cs ih =>
    have hc : c ≠ sep := fun e => h (by rw [e]; exact List.mem_cons_self _ _)
    have hcs : sep ∉ cs := fun e => h (List.mem_cons_of_mem _ e)
    rw [List.cons_append, Split, if_neg hc, ih hcs]

theorem Split_unsplit (sep : Char) (l : List Str) (hl : l ≠ []) (h : ∀ s ∈ l, sep ∉ s) :
    Split sep (unsplit sep l) = l := by
  induction l with
  | nil => exact absurd rfl hl
  | cons s l ih =>
    cases l with
    | nil => exact Split_of_not_mem sep s (h s (List.mem_cons_self _ _))
    | cons t ss =>
      rw [unsplit, Split_append_sep sep s _ (h s (List.mem_cons_self _ _)),
        ih (by simp) (fun x hx => h x (List.mem_cons_of_mem _ hx))]

theorem matchHead_of_tail {s name tail : Str} {w : Str} (hs : s = name ++ tail)
    (hne : name ≠ []) (hsl : ∀ c ∈ name, c ≠ '/') (ht : matchTail tail = some w)
    (hlater : ∀ i, 0 < i → matchTail (tail.drop i) = none) (k : Nat) (hk : name.length ≤ k) :
    matchHead s k = some (name ++ ['.', 'g', 'o'], w) := by
  induction k with
  | zero =>
    exfalso
    have : name.length = 0 := by omega
    exact hne (List.length_eq_zero.1 this)
  | succ k ih =>
    have htake : ∀ j, name.length ≤ j → s.drop j = tail.drop (j - name.length) := by
      intro j hj
      rw [hs, List.drop_append_eq_append_drop, List.drop_of_length_le hj, List.nil_append]
    unfold matchHead
    by_cases hk' : name.length = k + 1
    · have h1 : s.take (k + 1) = name := by
        rw [hs, ← hk', List.take_left]
      have h2 : s.drop (k + 1) = tail := by
        rw [hs, ← hk', List.drop_left]
      have hc : ((s.take (k + 1)).all (fun c => decide (c ≠ '/')) = true) ∧
          (s.take (k + 1)).length = k + 1 := by
        rw [h1]
        refine ⟨?_, hk'⟩
        rw [List.all_eq_true]
        intro c hc
        simpa using hsl c hc
      rw [if_pos hc, h2, ht, h1]
    · have hlt : name.length ≤ k := by omega
      have hnone : matchTail (s.drop (k + 1)) = none := by
        rw [htake (k + 1) (by omega)]
        exact hlater _ (by omega)
      rw [hnone]
      split
      · exact ih hlt
      · exact ih hlt

theorem regexpFileFind_of_tail {name tail : Str} {w : Str}
    (hne : name ≠ []) (hsl : ∀ c ∈ name, c ≠ '/') (ht : matchTail tail = some w)
    (hlater : ∀ i, 0 < i → matchTail (tail.drop i) = none) :
    regexpFileFind (name ++ tail) = some (name ++ ['.', 'g', 'o'], w) := by
  cases hn : name with
  | nil => exact absurd hn hne
  | cons c cs =>
    rw [List.cons_append, regexpFileFind]
    have := matchHead_of_tail (s := c :: (cs ++ tail)) (by rw [← List.cons_append, ← hn]) hne hsl
      ht hlater (c :: (cs ++ tail)).length (by
        rw [← List.cons_append, ← hn, List.length_append]; omega)
    rw [this, hn]

theorem matchTail_go : matchTail ['.', 'g', 'o'] = some [] := by decide

theorem matchTail_go_later (i : Nat) (hi : 0 < i) :
    matchTail (List.drop i ['.', 'g', 'o']) = none := by
  match i, hi with
  | 1, _ => decide
  | 2, _ => decide
  | n + 3, _ => simp [matchTail]

theorem isWordChar_dot : isWordChar '.' = false := by decide

theorem isWordChar_paren : isWordChar ')' = false := by decide

theorem takeWhile_append_of_all {p : Char → Bool} (S : Str) (c : Char) (hS : ∀ x ∈ S, p x = true)
    (hc : p c = false) :
    (S ++ [c]).takeWhile p = S ∧ (S ++ [c]).dropWhile p = [c] := by
  induction S with
  | nil => simp [List.takeWhile, List.dropWhile, hc]
  | cons a S ih =>
    have ha := hS a (List.mem_cons_self _ _)
    obtain ⟨h1, h2⟩ := ih (fun x hx => hS x (List.mem_cons_of_mem _ hx))
    simp [List.takeWhile, List.dropWhile, ha, h1, h2]

theorem matchTail_struct (S : Str) (hne : S ≠ []) (hS : ∀ c ∈ S, isWordChar c = true) :
    matchTail (['.', 'g', 'o', '.', '('] ++ S ++ [')']) = some S := by
  obtain ⟨h1, h2⟩ := takeWhile_append_of_all S ')' hS isWordChar_paren
  unfold matchTail
  simp only [List.cons_append, List.nil_append, List.take_succ_cons, List.take_zero,
    List.drop_succ_cons, List.drop_zero, if_true]
  rw [h1, h2]
  simp [hne]

theorem matchTail_of_not_dot (t : Str) (h : ∀ c, t.head? = some c → c ≠ '.') :
    matchTail t = none := by
  unfold matchTail
  cases t with
  | nil => simp
  | cons a t =>
    have ha : a ≠ '.' := h a rfl
    cases t with
    | nil => simp
    | cons b t =>
      cases t with
      | nil => simp
      | cons c t => simp [ha]

theorem matchTail_struct_later (S : Str) (hS : ∀ c ∈ S, isWordChar c = true) (i : Nat)
    (hi : 0 < i) :
    matchTail (List.drop i (['.', 'g', 'o', '.', '('] ++ S ++ [')'])) = none := by
  match i, hi with
  | 1, _ => simp [matchTail]
  | 2, _ => simp [matchTail]
  | 3, _ =>
    simp only [List.cons_append, List.nil_append, List.drop_succ_cons, List.drop_zero]
    unfold matchTail
    cases S with
    | nil => simp
    | cons a S => simp
  | 4, _ => simp [matchTail]
  | n + 5, _ =>
    apply matchTail_of_not_dot
    intro c hc
    have hmem : c ∈ S ++ [')'] := by
      have : List.drop (n + 5) (['.', 'g', 'o', '.', '('] ++ S ++ [')']) =
          List.drop n (S ++ [')']) := by
        simp [List.drop_succ_cons]
      rw [this] at hc
      exact List.mem_of_mem_drop (List.mem_of_mem_head? hc)
    intro e
    subst e
    rcases List.mem_append.1 hmem with h | h
    · have := hS _ h
      rw [isWordChar_dot] at this
      cases this
    · simp at h

theorem GetFileAndStruct_file (name : Str) (hne : name ≠ []) (hsl : ∀ c ∈ name, c ≠ '/') :
    GetFileAndStruct (name ++ ['.', 'g', 'o']) = (name ++ ['.', 'g', 'o'], []) := by
  rw [GetFileAndStruct_eq, regexpFileFind_of_tail hne hsl matchTail_go matchTail_go_later]

theorem GetFileAndStruct_struct (name S : Str) (hne : name ≠ []) (hsl : ∀ c ∈ name, c ≠ '/')
    (hS : S ≠ []) (hw : ∀ c ∈ S, isWordChar c = true) :
    GetFileAndStruct (name ++ (['.', 'g', 'o', '.', '('] ++ S ++ [')'])) =
      (name ++ ['.', 'g', 'o'], S) := by
  rw [GetFileAndStruct_eq, regexpFileFind_of_tail hne hsl (matchTail_struct S hS hw)
    (matchTail_struct_later S hw)]

theorem getPathAndFile_unsplit (dirs : List Str) (seg : Str) (hd : ∀ d ∈ dirs, '/' ∉ d)
    (hseg : '/' ∉ seg) :
    getPathAndFile (unsplit '/' (dirs ++ [seg])) =
      (dirs, (GetFileAndStruct seg).1, (GetFileAndStruct seg).2) := by
  unfold getPathAndFile
  have hS : Split '/' (unsplit '/' (dirs ++ [seg])) = dirs ++ [seg] := by
    apply Split_unsplit
    · simp
    · intro s hs
      rcases List.mem_append.1 hs with h | h
      · exact hd s h
      · rw [List.mem_singleton] at h; rw [h]; exact hseg
  simp only [hS, List.length_append, List.length_singleton, Nat.add_sub_cancel,
    List.take_left]
  rw [List.getD_eq_getElem?_getD, List.getElem?_append_right (le_refl _)]
  simp

end CodeAnalyzer

namespace CodeAnalyzer

/-- C13. For every identifier `d1/.../dk/<name>.go` (the segments `d1`, ...,
`dk` and the non-empty `<name>` without a slash), `getPathAndFile` returns the
paths `[d1, ..., dk]`, the file name `<name>.go` and the empty struct name; for
`d1/.../dk/<name>.go.(<S>)` with `S` a non-empty word it returns the same paths
and file name, and the struct name `S`. -/
theorem getPathAndFile_expected_form (dirs : List Str) (name S : Str)
    (hd : ∀ d ∈ dirs, '/' ∉ d) (hne : name ≠ []) (hn : '/' ∉ name)
    (hS : S ≠ []) (hw : ∀ c ∈ S, isWordChar c = true) :
    getPathAndFile (unsplit '/' (dirs ++ [name ++ ".go".toList])) =
        (dirs, name ++ ".go".toList, []) ∧
      getPathAndFile (unsplit '/' (dirs ++ [name ++ (".go.(".toList ++ S ++ ")".toList)])) =
        (dirs, name ++ ".go".toList, S) := by
  have hsl : ∀ c ∈ name, c ≠ '/' := fun c hc e => hn (e ▸ hc)
  have hSs : '/' ∉ S := fun h => by
    have := hw _ h
    revert this
    decide
  constructor
  · rw [getPathAndFile_unsplit dirs _ hd (by
      intro h
      rcases List.mem_append.1 h with h | h
      · exact hn h
      · revert h; decide)]
    show (dirs, (GetFileAndStruct (name ++ ['.', 'g', 'o'])).1,
      (GetFileAndStruct (name ++ ['.', 'g', 'o'])).2) = _
    rw [GetFileAndStruct_file name hne hsl]
    rfl
  · rw [getPathAndFile_unsplit dirs _ hd (by
      intro h
      rcases List.mem_append.1 h with h | h
      · exact hn h
      · rcases List.mem_append.1 h with h | h
        · rcases List.mem_append.1 h with h | h
          · revert h; decide
          · exact hSs h
        · revert h; decide)]
    show (dirs, (GetFileAndStruct (name ++ (['.', 'g', 'o', '.', '('] ++ S ++ [')']))).1,
      (GetFileAndStruct (name ++ (['.', 'g', 'o', '.', '('] ++ S ++ [')']))).2) = _
    rw [GetFileAndStruct_struct name S hne hsl hS hw]
    rfl

/-- C13 at `pkg/sub/file.go` and `pkg/sub/file.go.(Widget)`. -/
theorem getPathAndFile_expected_form_witness :
    getPathAndFile "pkg/sub/file.go".toList =
        (["pkg".toList, "sub".toList], "file.go".toList, []) ∧
      getPathAndFile "pkg/sub/file.go.(Widget)".toList =
        (["pkg".toList, "sub".toList], "file.go".toList, "Widget".toList) :=
  getPathAndFile_expected_form ["pkg".toList, "sub".toList] "file".toList "Widget".toList
    (by decide) (by decide) (by decide) (by decide) (by decide)

/-- C20 (the code at the failing input). With the ignore list `/vendor/`,
`/testdata/`, the method `IsInvalidPath` answers false on the path
`/x/testdata/a.go`, which contains the second entry of the list; and for every
ignore list and every path its answer is that of the first entry alone. -/
theorem IsInvalidPath_first_entry_only :
    (NewAnalyzer "r".toList
        [WithIgnoreList ["/vendor/".toList, "/testdata/".toList]]).IsInvalidPath
          "/x/testdata/a.go".toList = false ∧
      Contains "/x/testdata/a.go".toList "/testdata/".toList = true ∧
      ∀ (pkg : Str) (files : List Str) (path : Str),
        (NewAnalyzer pkg [WithIgnoreList files]).IsInvalidPath path =
          match files.head? with
          | some value => Contains path value
          | none => false := by
  refine ⟨by decide, by decide, ?_⟩
  intro pkg files path
  cases files with
  | nil => rfl
  | cons v vs => rfl

/-- C14 (the code at the failing input). For the two files `a/x.go` with 10
statements and `b/y.go` with 21, and for every position generator, the mean
that `New` computes is 15, the integer quotient of 31 by 2, and not the exact
quotient 31/2; the sum of squared deviations, 61, is taken about 15. -/
theorem New_mean_truncated {σ : Type} (G : Generator σ) :
    summaryOf G RangeOrder.same
        [("a/x.go".toList, ⟨0, 0, 0, 0, 10⟩), ("b/y.go".toList, ⟨0, 0, 0, 0, 21⟩)] "r".toList =
      .ok { nbTotalStmts := 31, nbTotalComponents := 2, mean := 15, squareDiffSum := 61 } ∧
    (15 : ℚ) ≠ 31 / 2 := by
  constructor
  · unfold summaryOf
    have hb : buildTree
        [("a/x.go".toList, ⟨0, 0, 0, 0, 10⟩), ("b/y.go".toList, ⟨0, 0, 0, 0, 21⟩)] "r".toList =
        .ok (treeOr (buildTree
          [("a/x.go".toList, (⟨0, 0, 0, 0, 10⟩ : NodeInfo)), ("b/y.go".toList, ⟨0, 0, 0, 0, 21⟩)]
          "r".toList)) := rfl
    rw [hb]
    show summarise (generateStateByComponents _ _ (finishTree G _ _ _) _) = _
    unfold finishTree
    rw [generateStateByComponents_layout]
    have hw : generateStateByComponents "r".toList "r".toList
        (GenerateChildList RangeOrder.same
          (treeOr (buildTree
            [("a/x.go".toList, (⟨0, 0, 0, 0, 10⟩ : NodeInfo)),
              ("b/y.go".toList, ⟨0, 0, 0, 0, 21⟩)] "r".toList))
          (rootPath "r".toList)) (0, []) =
        (31, [("r.a".toList, ⟨"r.a".toList, false, 0, 1, 10⟩),
          ("r.b".toList, ⟨"r.b".toList, false, 0, 1, 21⟩)]) := by
      decide!
    rw [hw]
    simp only [summarise, List.length_cons, List.length_nil, List.map_cons, List.map_nil,
      List.sum_cons, List.sum_nil]
    have ht : Int.tdiv 31 2 = 15 := by decide
    norm_num [ht]
  · norm_num

end CodeAnalyzer

namespace CodeAnalyzer

/-! ## The aggregation walk as a fold over its visits -/

theorem lookupComponent_storeComponent_same (k : Str) (v : Component)
    (m : List (Str × Component)) : lookupComponent k (storeComponent k v m) = some v := by
  induction m with
  | nil => simp [storeComponent, lookupComponent]
  | cons a m ih =>
    obtain ⟨k', v'⟩ := a
    by_cases h : k' = k
    · simp [storeComponent, lookupComponent, h]
    · simp [storeComponent, lookupComponent, h, ih]

theorem lookupComponent_storeComponent_ne {k k' : Str} (h : k' ≠ k) (v : Component)
    (m : List (Str × Component)) :
    lookupComponent k (storeComponent k' v m) = lookupComponent k m := by
  induction m with
  | nil => simp [storeComponent, lookupComponent, h]
  | cons a m ih =>
    obtain ⟨k'', v''⟩ := a
    by_cases h1 : k'' = k'
    · have h2 : k'' ≠ k := by rw [h1]; exact h
      simp [storeComponent, lookupComponent, h1, h, h2]
    · by_cases h2 : k'' = k
      · subst h2
        simp [storeComponent, lookupComponent, h1]
      · simp [storeComponent, lookupComponent, h1, h2, ih]

theorem visitNode_eq (r cur : Str) (n : Node) (st : Int × List (Str × Component)) :
    visitNode r cur n st = visitAt r (packageNameAt cur n) n st := rfl

theorem visitsOf_eq (cur : Str) (n : Node) :
    visitsOf cur n =
      (packageNameAt cur n, n) :: visitsOfChildren (packageNameAt cur n) n.Children := by
  cases n
  rw [visitsOf]

theorem generateStateOfChildren_foldl (r cur : Str) (cs : List Node)
    (ih : ∀ c ∈ cs, ∀ cur st, generateStateByComponents r cur c st =
      (visitsOf cur c).foldl (fun st v => visitAt r v.1 v.2 st) st)
    (st : Int × List (Str × Component)) :
    generateStateOfChildren r cur cs st =
      (visitsOfChildren cur cs).foldl (fun st v => visitAt r v.1 v.2 st) st := by
  induction cs generalizing st with
  | nil => simp [generateStateOfChildren, visitsOfChildren]
  | cons c cs ihl =>
    rw [generateStateOfChildren, visitsOfChildren, List.foldl_append,
      ih c (List.mem_cons_self _ _)]
    exact ihl (fun c' hc' => ih c' (List.mem_cons_of_mem _ hc')) _

theorem sizeOf_child_lt {n c : Node} (h : c ∈ n.Children) : sizeOf c < sizeOf n := by
  have h1 := List.sizeOf_lt_of_mem h
  obtain ⟨name, url, ty, w, d, pos, nl, nm, na, ns, children, line, cm⟩ := n
  simp only [Node.mk.sizeOf_spec]
  simp only at h1
  omega

theorem generateStateByComponents_foldl_aux (r : Str) :
    ∀ k n, sizeOf n = k → ∀ cur st, generateStateByComponents r cur n st =
      (visitsOf cur n).foldl (fun st v => visitAt r v.1 v.2 st) st := by
  intro k
  induction k using Nat.strong_induction_on with
  | _ k ih =>
    intro n hk cur st
    rw [generateStateByComponents_eq, visitsOf_eq, List.foldl_cons, visitNode_eq]
    apply generateStateOfChildren_foldl
    intro c hc cur' st'
    exact ih (sizeOf c) (by rw [← hk]; exact sizeOf_child_lt hc) c rfl cur' st'

/-- The walk is the fold of the visit of one node over the list of visits. -/
theorem generateStateByComponents_foldl (r cur : Str) (n : Node)
    (st : Int × List (Str × Component)) :
    generateStateByComponents r cur n st =
      (visitsOf cur n).foldl (fun st v => visitAt r v.1 v.2 st) st :=
  generateStateByComponents_foldl_aux r (sizeOf n) n rfl cur st

theorem visitAt_other {r p k : Str} (h : p ≠ k) (n : Node)
    (st : Int × List (Str × Component)) :
    lookupComponent k (visitAt r p n st).2 = lookupComponent k st.2 := by
  unfold visitAt
  by_cases hT : n.Type_ = NodeType.PackageType
  · cases hl : lookupComponent p st.2 with
    | some c =>
      simp only [hT, if_true, hl]
      exact lookupComponent_storeComponent_ne h _ _
    | none =>
      simp only [hT, if_true, hl, lookupComponent_storeComponent_same]
      rw [lookupComponent_storeComponent_ne h, lookupComponent_storeComponent_ne h]
  · cases hl : lookupComponent p st.2 with
    | some c =>
      simp only [hT, if_false, hl]
      exact lookupComponent_storeComponent_ne h _ _
    | none =>
      simp only [hT, if_false, hl]

theorem visitAt_present {r k : Str} (n : Node) (st : Int × List (Str × Component))
    (c : Component) (h : lookupComponent k st.2 = some c) :
    lookupComponent k (visitAt r k n st).2 =
      some { c with
        nbFiles := if n.Type_ = NodeType.FileType then c.nbFiles + 1 else c.nbFiles,
        nbMethods := c.nbMethods + n.NumberOfMethods,
        nbStmts := c.nbStmts + n.NumberOfStmts } := by
  unfold visitAt
  by_cases hT : n.Type_ = NodeType.PackageType
  · simp only [hT, if_true, h, lookupComponent_storeComponent_same]
  · simp only [hT, if_false, h, lookupComponent_storeComponent_same]

theorem visitAt_absent_package {r k : Str} (n : Node) (st : Int × List (Str × Component))
    (h : lookupComponent k st.2 = none) (hT : n.Type_ = NodeType.PackageType) :
    lookupComponent k (visitAt r k n st).2 =
      some { name := k, isRoot := k = r, nbMethods := n.NumberOfMethods + n.NumberOfMethods,
             nbFiles := 0, nbStmts := 0 + n.NumberOfStmts } := by
  unfold visitAt
  simp only [hT, if_true, h, lookupComponent_storeComponent_same]
  simp

theorem visitAt_absent_other {r k : Str} (n : Node) (st : Int × List (Str × Component))
    (h : lookupComponent k st.2 = none) (hT : n.Type_ ≠ NodeType.PackageType) :
    lookupComponent k (visitAt r k n st).2 = none := by
  unfold visitAt
  simp only [hT, if_false, h]

theorem fileCount_cons (v : Str × Node) (vs : List (Str × Node)) :
    fileCount (v :: vs) =
      (if v.2.Type_ = NodeType.FileType then 1 else 0) + fileCount vs := by
  unfold fileCount
  by_cases h : v.2.Type_ = NodeType.FileType
  · simp [h]; ring
  · simp [h]

theorem stmtsOf_cons (v : Str × Node) (vs : List (Str × Node)) :
    stmtsOf (v :: vs) = v.2.NumberOfStmts + stmtsOf vs := by
  simp [stmtsOf]

/-- A component that exists receives the files and the statements of every
later visit under its path. -/
theorem foldl_visitAt_present (r k : Str) (vs : List (Str × Node)) :
    ∀ (st : Int × List (Str × Component)) (c : Component), lookupComponent k st.2 = some c →
      ∃ c', lookupComponent k (vs.foldl (fun st v => visitAt r v.1 v.2 st) st).2 = some c' ∧
        c'.nbFiles = c.nbFiles + fileCount (vs.filter (fun v => decide (v.1 = k))) ∧
        c'.nbStmts = c.nbStmts + stmtsOf (vs.filter (fun v => decide (v.1 = k))) := by
  induction vs with
  | nil =>
    intro st c h
    exact ⟨c, h, by simp [fileCount], by simp [stmtsOf]⟩
  | cons v vs ih =>
    intro st c h
    rw [List.foldl_cons]
    obtain ⟨p, n⟩ := v
    by_cases hv : p = k
    · subst hv
      have h1 := visitAt_present (r := r) n st c h
      obtain ⟨c', hc', hf, hs⟩ := ih _ _ h1
      refine ⟨c', hc', ?_, ?_⟩
      · rw [hf, List.filter_cons_of_pos (by simp), fileCount_cons]
        by_cases hT : n.Type_ = NodeType.FileType
        · simp only [hT, if_true]; ring
        · simp only [hT, if_false]; ring
      · rw [hs, List.filter_cons_of_pos (by simp), stmtsOf_cons]
        ring
    · have h1 : lookupComponent k (visitAt r p n st).2 = some c := by
        rw [visitAt_other hv]; exact h
      obtain ⟨c', hc', hf, hs⟩ := ih _ _ h1
      refine ⟨c', hc', ?_, ?_⟩
      · rw [hf, List.filter_cons_of_neg (by simpa using hv)]
      · rw [hs, List.filter_cons_of_neg (by simpa using hv)]

/-- A component that does not exist yet is created by the first visit of a
PACKAGE node under its path, and counts from that visit on. -/
theorem foldl_visitAt_absent (r k : Str) (vs : List (Str × Node)) :
    ∀ (st : Int × List (Str × Component)), lookupComponent k st.2 = none →
      ((lookupComponent k (vs.foldl (fun st v => visitAt r v.1 v.2 st) st).2).isSome ↔
          countedVisits k vs ≠ []) ∧
        ∀ c, lookupComponent k (vs.foldl (fun st v => visitAt r v.1 v.2 st) st).2 = some c →
          c.nbFiles = fileCount (countedVisits k vs) ∧ c.nbStmts = stmtsOf (countedVisits k vs) := by
  induction vs with
  | nil =>
    intro st h
    simp [h, countedVisits]
  | cons v vs ih =>
    intro st h
    rw [List.foldl_cons]
    obtain ⟨p, n⟩ := v
    by_cases hv : p = k
    · subst hv
      by_cases hT : n.Type_ = NodeType.PackageType
      · have h1 := visitAt_absent_package (r := r) n st h hT
        have hcv : countedVisits p ((p, n) :: vs) =
            (p, n) :: vs.filter (fun v => decide (v.1 = p)) := by
          unfold countedVisits
          rw [List.dropWhile_cons_of_neg (by simp [hT]),
            List.filter_cons_of_pos (by simp)]
        obtain ⟨c', hc', hf, hs⟩ := foldl_visitAt_present r p vs _ _ h1
        rw [hcv, hc']
        refine ⟨by simp, ?_⟩
        intro c hc
        simp only [Option.some.injEq] at hc
        subst hc
        rw [hf, hs, fileCount_cons, stmtsOf_cons]
        have hnf : n.Type_ ≠ NodeType.FileType := by rw [hT]; decide
        simp [hnf]
      · have h1 := visitAt_absent_other (r := r) n st h hT
        have hcv : countedVisits p ((p, n) :: vs) = countedVisits p vs := by
          unfold countedVisits
          rw [List.dropWhile_cons_of_pos (by simp [hT])]
        rw [hcv]
        exact ih _ h1
    · have h1 : lookupComponent k (visitAt r p n st).2 = none := by
        rw [visitAt_other hv]; exact h
      have hcv : countedVisits k ((p, n) :: vs) = countedVisits k vs := by
        unfold countedVisits
        rw [List.dropWhile_cons_of_pos (by simp [hv])]
      rw [hcv]
      exact ih _ h1

end CodeAnalyzer

namespace CodeAnalyzer

/-- C15 (amended). For every node tree, after the walk of
`generateStateByComponents` from an empty component map, a component exists
only if a PACKAGE node was visited under its package path; its `nbFiles` is
the number of FILE nodes, and its `nbStmts` the sum of `NumberOfStmts` of the
nodes, visited under that path from the first such PACKAGE node on. -/
theorem component_counts_from_creation (r cur : Str) (n : Node) (k : Str) (c : Component)
    (h : lookupComponent k (generateStateByComponents r cur n (0, [])).2 = some c) :
    countedVisits k (visitsOf cur n) ≠ [] ∧
      c.nbFiles = fileCount (countedVisits k (visitsOf cur n)) ∧
      c.nbStmts = stmtsOf (countedVisits k (visitsOf cur n)) := by
  rw [generateStateByComponents_foldl] at h
  obtain ⟨h1, h2⟩ := foldl_visitAt_absent r k (visitsOf cur n) (0, []) rfl
  refine ⟨h1.1 (by rw [h]; rfl), h2 c h⟩

/-- C15 at the tree of `a.go` and `/b.go`: the component `r` counts one file
and four statements. -/
theorem component_counts_from_creation_witness :
    countedVisits "r".toList (visitsOf "r".toList sampleLateTree) ≠ [] ∧
      (1 : Int) = fileCount (countedVisits "r".toList (visitsOf "r".toList sampleLateTree)) ∧
      (4 : Int) = stmtsOf (countedVisits "r".toList (visitsOf "r".toList sampleLateTree)) :=
  component_counts_from_creation "r".toList "r".toList sampleLateTree "r".toList
    ⟨"r".toList, true, 1, 1, 4⟩ (by decide!)

/-- C15 (counterexample to the claim as stated). In the tree of `a.go` and
`/b.go` for the repository `r`, two FILE nodes with seven statements in all
are visited under the package path `r`, and the component `r` ends with one
file and four statements: `a.go` is visited before the component exists. -/
theorem late_component_misses_file :
    lookupComponent "r".toList
        (generateStateByComponents "r".toList "r".toList sampleLateTree (0, [])).2 =
      some ⟨"r".toList, true, 1, 1, 4⟩ ∧
    fileCount ((visitsOf "r".toList sampleLateTree).filter
      (fun v => decide (v.1 = "r".toList))) = 2 ∧
    stmtsOf ((visitsOf "r".toList sampleLateTree).filter
      (fun v => decide (v.1 = "r".toList))) = 7 := by
  decide!

end CodeAnalyzer

namespace CodeAnalyzer

/-! ## The child lists of the finished tree -/

theorem visitChildren_eq (ord : RangeOrder) (m : List (Str × Node)) (pp : Str) :
    visitChildren ord m pp = m.map (fun kc => finNode ord kc.2 pp) := by
  induction m with
  | nil => rw [visitChildren]; rfl
  | cons a m ih =>
    obtain ⟨k, c⟩ := a
    rw [visitChildren, ih]
    rfl

theorem RangeOrder.apply_nil (ord : RangeOrder) : ord.apply [] = [] :=
  List.perm_nil.1 (ord.perm [])

theorem GenerateChildList_eq (ord : RangeOrder) (n : Node) (pp : Str) :
    GenerateChildList ord n pp =
      { n with
        Children :=
          sortByWidth (n.Children ++ ord.apply ((kidsOf n).map (fun kc => finNode ord kc.2 pp))) } := by
  obtain ⟨name, url, ty, w, d, pos, nl, nm, na, ns, children, line, cm⟩ := n
  cases cm with
  | none =>
    rw [GenerateChildList]
    simp only [kidsOf, List.map_nil, RangeOrder.apply_nil, List.append_nil]
  | some m =>
    rw [GenerateChildList, visitChildren_eq]
    rfl

theorem sortByWidth_perm (l : List Node) : (sortByWidth l).Perm l :=
  List.perm_insertionSort _ l

theorem kidsOf_of_mapLen {c : Node} (h : ¬ mapLen c.childrenMap > 0) : kidsOf c = [] := by
  unfold kidsOf
  unfold mapLen at h
  cases hm : c.childrenMap with
  | none => rfl
  | some m =>
    rw [hm] at h
    simp only
    exact List.length_eq_zero.1 (by simpa using h)

theorem img_GenerateChildList (ord : RangeOrder) (n : Node) (pp : Str) (h : n.Children = []) :
    Img ord n pp (GenerateChildList ord n pp) := by
  rw [GenerateChildList_eq]
  refine ⟨⟨rfl, rfl, rfl, rfl, rfl, rfl, rfl⟩, ?_⟩
  simp only [h, List.nil_append]
  exact (sortByWidth_perm _).trans (ord.perm _)

theorem finNode_URL (ord : RangeOrder) (c : Node) (pp : Str) :
    (finNode ord c pp).URL = (getNodeURL c pp).2 := rfl

theorem img_finNode (ord : RangeOrder) (c : Node) (pp : Str) (h : c.Children = []) :
    Img ord c (getNodeURL c pp).1 (finNode ord c pp) := by
  unfold finNode
  by_cases hm : mapLen c.childrenMap > 0
  · rw [if_pos hm]
    have := img_GenerateChildList ord c (getNodeURL c pp).1 h
    exact ⟨⟨this.same.name, this.same.type, this.same.line, this.same.lines, this.same.methods,
      this.same.attributes, this.same.stmts⟩, this.children⟩
  · rw [if_neg hm]
    refine ⟨⟨rfl, rfl, rfl, rfl, rfl, rfl, rfl⟩, ?_⟩
    rw [kidsOf_of_mapLen hm]
    show c.Children.Perm []
    rw [h]

theorem lookupChild_of_mem {m : List (Str × Node)} (hnd : (m.map Prod.fst).Nodup) {k : Str}
    {c : Node} (h : (k, c) ∈ m) : lookupChild k m = some c := by
  induction m with
  | nil => cases h
  | cons a m ih =>
    obtain ⟨k', c'⟩ := a
    rw [List.map_cons, List.nodup_cons] at hnd
    rcases List.mem_cons.1 h with h | h
    · injection h with h1 h2
      subst h1; subst h2
      simp [lookupChild]
    · have hne : k' ≠ k := by
        intro e
        apply hnd.1
        rw [e]
        exact List.mem_map.2 ⟨(k, c), h, rfl⟩
      simp only [lookupChild, hne, if_false]
      exact ih hnd.2 h

theorem mem_of_lookupChild {m : List (Str × Node)} {k : Str} {c : Node}
    (h : lookupChild k m = some c) : (k, c) ∈ m := by
  induction m with
  | nil => cases h
  | cons a m ih =>
    obtain ⟨k', c'⟩ := a
    by_cases hk : k' = k
    · simp only [lookupChild, hk, if_true, Option.some.injEq] at h
      rw [hk, h]
      exact List.mem_cons_self _ _
    · simp only [lookupChild, hk, if_false] at h
      exact List.mem_cons_of_mem _ (ih h)

theorem getChild_eq (n : Node) (k : Str) : n.getChild k = lookupChild k (kidsOf n) := by
  unfold Node.getChild kidsOf
  cases n.childrenMap <;> rfl

theorem nodeAt_cons (n : Node) (k : Str) (keys : List Str) :
    nodeAt n (k :: keys) =
      match lookupChild k (kidsOf n) with
      | none => none
      | some c => nodeAt c keys := by
  rw [← getChild_eq]
  rfl

theorem nodeAt_cons_of_lookup {n c : Node} {k : Str} (h : lookupChild k (kidsOf n) = some c)
    (keys : List Str) : nodeAt n (k :: keys) = nodeAt c keys := by
  rw [nodeAt_cons, h]

theorem nodeAt_append {n c : Node} {keys : List Str} (h : nodeAt n keys = some c)
    (rest : List Str) : nodeAt n (keys ++ rest) = nodeAt c rest := by
  induction keys generalizing n with
  | nil =>
    simp only [nodeAt, Option.some.injEq] at h
    subst h
    rfl
  | cons k keys ih =>
    rw [nodeAt_cons] at h
    rw [List.cons_append, nodeAt_cons]
    cases hl : lookupChild k (kidsOf n) with
    | none => rw [hl] at h; cases h
    | some c1 =>
      rw [hl] at h
      exact ih h

theorem WfTree.root {n : Node} (h : WfTree n) : NodeOk n := h [] n rfl

theorem WfTree.child {n c : Node} {k : Str} (h : WfTree n)
    (hl : lookupChild k (kidsOf n) = some c) : WfTree c := by
  intro keys c' hc'
  exact h (k :: keys) c' (by rw [nodeAt_cons_of_lookup hl]; exact hc')

theorem WfTree.of_mem {n : Node} (h : WfTree n) {kc : Str × Node} (hm : kc ∈ kidsOf n) :
    lookupChild kc.1 (kidsOf n) = some kc.2 ∧ WfTree kc.2 ∧ kc.2.Name = kc.1 := by
  have hl := lookupChild_of_mem h.root.keys (k := kc.1) (c := kc.2) hm
  exact ⟨hl, h.child hl, h.root.names kc hm⟩

theorem namesOn_cons_of_get? {n c : Node} {i : Nat} (h : n.Children.get? i = some c)
    (path : List Nat) : namesOn n (i :: path) = c.Name :: namesOn c path := by
  show (match n.Children.get? i with
    | none => []
    | some c => c.Name :: namesOn c path) = c.Name :: namesOn c path
  rw [h]

theorem namesOn_of_children_eq {a b : Node} (h : a.Children = b.Children) (path : List Nat) :
    namesOn a path = namesOn b path := by
  cases path with
  | nil => rfl
  | cons i path =>
    show (match a.Children.get? i with
      | none => []
      | some c => c.Name :: namesOn c path) =
      (match b.Children.get? i with
      | none => []
      | some c => c.Name :: namesOn c path)
    rw [h]

/-- Every node of the finished tree comes from a node of the merged tree, at
the same depth. -/
theorem subnode_img (ord : RangeOrder) (path : List Nat) :
    ∀ (n : Node) (raw : Str) (X m : Node), WfTree n → Img ord n raw X →
      subnode X path = some m →
      ∃ keys c raw', keys.length = path.length ∧ nodeAt n keys = some c ∧ WfTree c ∧
        Img ord c raw' m ∧
        ((path = [] ∧ raw' = raw) ∨
          ∃ pp, raw' = (getNodeURL c pp).1 ∧ m.URL = (getNodeURL c pp).2) ∧
        namesOn X path = keys := by
  induction path with
  | nil =>
    intro n raw X m hw hi hm
    simp only [subnode, Option.some.injEq] at hm
    subst hm
    exact ⟨[], n, raw, rfl, rfl, hw, hi, Or.inl ⟨rfl, rfl⟩, rfl⟩
  | cons i path ih =>
    intro n raw X m hw hi hm
    cases hg : X.Children.get? i with
    | none => rw [subnode_cons_none hg] at hm; cases hm
    | some ch =>
      rw [subnode_cons_of_get? hg] at hm
      have hmem : ch ∈ (kidsOf n).map (fun kc => finNode ord kc.2 raw) :=
        hi.children.subset (List.get?_mem hg)
      obtain ⟨kc, hkc, hch⟩ := List.mem_map.1 hmem
      obtain ⟨hl, hwc, hname⟩ := hw.of_mem hkc
      have hic : Img ord kc.2 (getNodeURL kc.2 raw).1 ch := by
        rw [← hch]; exact img_finNode ord kc.2 raw hwc.root.children
      obtain ⟨keys, c, raw', hlen, hna, hwc', hi', hor, hnames⟩ := ih kc.2 _ ch m hwc hic hm
      refine ⟨kc.1 :: keys, c, raw', by simp [hlen], ?_, hwc', hi', ?_, ?_⟩
      · rw [nodeAt_cons_of_lookup hl]; exact hna
      rotate_left
      · rw [namesOn_cons_of_get? hg, hnames, hic.same.name, hname]
      · right
        rcases hor with ⟨hp, hr⟩ | hpp
        · subst hp
          simp only [subnode, Option.some.injEq] at hm
          subst hm
          simp only [List.length_nil, List.length_eq_zero] at hlen
          subst hlen
          simp only [nodeAt, Option.some.injEq] at hna
          subst hna
          exact ⟨raw, hr, by rw [← hch]; rfl⟩
        · exact hpp

end CodeAnalyzer

namespace CodeAnalyzer

/-! ## The merged tree is well formed -/

theorem mem_storeChild {k : Str} {c : Node} {m : List (Str × Node)} {x : Str × Node}
    (h : x ∈ storeChild k c m) : x = (k, c) ∨ x ∈ m := by
  induction m with
  | nil =>
    simp only [storeChild, List.mem_singleton] at h
    exact Or.inl h
  | cons a m ih =>
    obtain ⟨k', c'⟩ := a
    by_cases hk : k' = k
    · simp only [storeChild, hk, if_true, List.mem_cons] at h
      rcases h with h | h
      · exact Or.inl h
      · exact Or.inr (List.mem_cons_of_mem _ h)
    · simp only [storeChild, hk, if_false, List.mem_cons] at h
      rcases h with h | h
      · exact Or.inr (by rw [h]; exact List.mem_cons_self _ _)
      · rcases ih h with h | h
        · exact Or.inl h
        · exact Or.inr (List.mem_cons_of_mem _ h)

theorem keys_storeChild (k : Str) (c : Node) (m : List (Str × Node)) :
    ∀ x, x ∈ (storeChild k c m).map Prod.fst ↔ (x = k ∨ x ∈ m.map Prod.fst) := by
  induction m with
  | nil => intro x; simp [storeChild]
  | cons a m ih =>
    obtain ⟨k', c'⟩ := a
    intro x
    by_cases hk : k' = k
    · simp only [storeChild, hk, if_true, List.map_cons, List.mem_cons]
      tauto
    · simp only [storeChild, hk, if_false, List.map_cons, List.mem_cons, ih x]
      tauto

theorem nodup_storeChild (k : Str) (c : Node) (m : List (Str × Node))
    (h : (m.map Prod.fst).Nodup) : ((storeChild k c m).map Prod.fst).Nodup := by
  induction m with
  | nil => simp [storeChild]
  | cons a m ih =>
    obtain ⟨k', c'⟩ := a
    rw [List.map_cons, List.nodup_cons] at h
    by_cases hk : k' = k
    · simp only [storeChild, hk, if_true, List.map_cons, List.nodup_cons]
      rw [← hk]
      exact h
    · simp only [storeChild, hk, if_false, List.map_cons, List.nodup_cons]
      refine ⟨?_, ih h.2⟩
      rw [keys_storeChild]
      rintro (e | e)
      · exact hk e
      · exact h.1 e

theorem kidsOf_of_map {n : Node} {m : List (Str × Node)} (h : n.childrenMap = some m) :
    kidsOf n = m := by
  unfold kidsOf
  rw [h]

theorem wfTree_of_nil {n : Node} (hc : n.Children = []) (hk : kidsOf n = []) : WfTree n := by
  intro keys c h
  cases keys with
  | nil =>
    simp only [nodeAt, Option.some.injEq] at h
    subst h
    exact ⟨hc, by rw [hk]; exact List.nodup_nil, by rw [hk]; intro kc hkc; cases hkc⟩
  | cons k keys =>
    rw [nodeAt_cons, hk] at h
    cases h

theorem wfTree_newStruct (s : Str) (v : NodeInfo) : WfTree (newStruct s v) :=
  wfTree_of_nil rfl rfl

theorem wfTree_newFile (f : Str) : WfTree (newFile f) := wfTree_of_nil rfl rfl

theorem wfTree_newPackage (p : Str) : WfTree (newPackage p) := wfTree_of_nil rfl rfl

theorem wfTree_newRoot (r : Str) : WfTree (newRoot r) := wfTree_of_nil rfl rfl

theorem wfTree_addCounters {n : Node} (h : WfTree n) (v : NodeInfo) :
    WfTree (n.addCounters v) := by
  intro keys c hc
  cases keys with
  | nil =>
    simp only [nodeAt, Option.some.injEq] at hc
    subst hc
    exact ⟨h.root.children, h.root.keys, h.root.names⟩
  | cons k keys => exact h (k :: keys) c hc

theorem wfTree_store {n : Node} {m : List (Str × Node)} (h : WfTree n)
    (hm : n.childrenMap = some m) {k : Str} {c : Node} (hc : WfTree c) (hn : c.Name = k) :
    WfTree { n with childrenMap := some (storeChild k c m) } := by
  have hk : kidsOf n = m := kidsOf_of_map hm
  have hk' : kidsOf ({ n with childrenMap := some (storeChild k c m) } : Node) =
      storeChild k c m := rfl
  intro keys d hd
  cases keys with
  | nil =>
    simp only [nodeAt, Option.some.injEq] at hd
    subst hd
    refine ⟨h.root.children, ?_, ?_⟩
    · rw [hk']
      apply nodup_storeChild
      rw [← hk]
      exact h.root.keys
    · rw [hk']
      intro kc hkc
      rcases mem_storeChild hkc with e | e
      · rw [e]; exact hn
      · exact h.root.names kc (by rw [hk]; exact e)
  | cons k1 keys =>
    rw [nodeAt_cons, hk'] at hd
    by_cases e : k1 = k
    · subst e
      rw [lookupChild_storeChild_same] at hd
      exact hc keys d hd
    · rw [lookupChild_storeChild_ne e] at hd
      apply h (k1 :: keys) d
      rw [nodeAt_cons, hk]
      exact hd

theorem withChild_keeps {g : Node → Except Fault Node} (hg : Keeps g) (k : Str) (fresh : Node)
    (hf : WfTree fresh) (hfn : fresh.Name = k) :
    Keeps (fun n => n.withChild k fresh g) := by
  intro n n' hw h
  simp only [Node.withChild] at h
  cases hm : n.childrenMap with
  | none => rw [hm] at h; cases h
  | some m =>
    rw [hm] at h
    simp only at h
    cases hgc : g ((lookupChild k m).getD fresh) with
    | error e => rw [hgc] at h; cases h
    | ok c' =>
      rw [hgc] at h
      simp only [Except.ok.injEq] at h
      subst h
      have hc0 : WfTree ((lookupChild k m).getD fresh) ∧
          ((lookupChild k m).getD fresh).Name = k := by
        cases hl : lookupChild k m with
        | none => exact ⟨hf, hfn⟩
        | some c0 =>
          have hmem : (k, c0) ∈ kidsOf n := by
            rw [kidsOf_of_map hm]; exact mem_of_lookupChild hl
          exact ⟨(hw.of_mem hmem).2.1, (hw.of_mem hmem).2.2⟩
      obtain ⟨h1, h2⟩ := hg _ _ hc0.1 hgc
      exact ⟨wfTree_store hw hm h1 (by rw [h2]; exact hc0.2), rfl⟩

theorem mergeValue_keeps (s : Str) (v : NodeInfo) :
    Keeps (fun fileNode => mergeValue fileNode s v) := by
  intro n n' hw h
  simp only [mergeValue] at h
  by_cases hs : s.length > 0
  · simp only [hs, if_true] at h
    cases hm : n.childrenMap with
    | none =>
      simp only [Node.getChild, hm, Node.setChild] at h
      cases h
    | some m =>
      simp only [Node.getChild, hm] at h
      cases hl : lookupChild s m with
      | none =>
        simp only [hl, Node.setChild, hm, Except.ok.injEq] at h
        subst h
        exact ⟨wfTree_store hw hm (wfTree_newStruct s v) rfl, rfl⟩
      | some sn =>
        simp only [hl, Node.setChild, hm, Except.ok.injEq] at h
        subst h
        have hmem : (s, sn) ∈ kidsOf n := by
          rw [kidsOf_of_map hm]; exact mem_of_lookupChild hl
        exact ⟨wfTree_store hw hm (wfTree_addCounters (hw.of_mem hmem).2.1 v)
          (hw.of_mem hmem).2.2, rfl⟩
  · simp only [hs, if_false, Except.ok.injEq] at h
    subst h
    exact ⟨wfTree_addCounters hw v, rfl⟩

theorem mergeAt_keeps (f s : Str) (v : NodeInfo) (paths : List Str) :
    Keeps (mergeAt f s v paths) := by
  induction paths with
  | nil => exact withChild_keeps (mergeValue_keeps s v) f (newFile f) (wfTree_newFile f) rfl
  | cons path rest ih =>
    exact withChild_keeps ih path (newPackage path) (wfTree_newPackage path) rfl

theorem mergeLoop_keeps (items : List (Str × NodeInfo)) :
    ∀ t t', WfTree t → mergeLoop items t = .ok t' → WfTree t' ∧ t'.Name = t.Name := by
  induction items with
  | nil =>
    intro t t' hw h
    simp only [mergeLoop, Except.ok.injEq] at h
    subst h
    exact ⟨hw, rfl⟩
  | cons kv items ih =>
    obtain ⟨key, value⟩ := kv
    intro t t' hw h
    simp only [mergeLoop] at h
    cases hm : mergeEntry t key value with
    | error e => rw [hm] at h; cases h
    | ok t1 =>
      rw [hm] at h
      obtain ⟨h1, h2⟩ := mergeAt_keeps _ _ value _ t t1 hw hm
      obtain ⟨h3, h4⟩ := ih t1 t' h1 h
      exact ⟨h3, by rw [h4, h2]⟩

theorem buildTree_wf {items : List (Str × NodeInfo)} {r : Str} {t : Node}
    (h : buildTree items r = .ok t) : WfTree t :=
  (mergeLoop_keeps items _ t (wfTree_newRoot r) h).1

end CodeAnalyzer

namespace CodeAnalyzer

/-! ## The layout keeps the nodes and their fields -/

theorem layout_same {σ : Type} (G : Generator σ) (n : Node) :
    SameFields (GenerateChildrenPosition G n) n ∧ (GenerateChildrenPosition G n).URL = n.URL := by
  by_cases hc : n.Children = []
  · rw [GenerateChildrenPosition_leaf G n hc]
    exact ⟨⟨rfl, rfl, rfl, rfl, rfl, rfl, rfl⟩, rfl⟩
  · rw [GenerateChildrenPosition_internal G n hc]
    exact ⟨⟨rfl, rfl, rfl, rfl, rfl, rfl, rfl⟩, rfl⟩

theorem get?_placed_eq {σ : Type} (G : Generator σ) (dx dy : ℚ) (cs : List Node)
    (positions : List Position) (i : Nat) (c' : Node)
    (h : (List.zipWith (fun c p => ({ c with Position := ⟨p.X - dx, p.Y - dy⟩ } : Node))
      (cs.map (GenerateChildrenPosition G)) positions).get? i = some c') :
    ∃ c q, cs.get? i = some c ∧ c' = { GenerateChildrenPosition G c with Position := q } := by
  induction cs generalizing positions i with
  | nil => simp at h
  | cons a cs ih =>
    cases positions with
    | nil => simp at h
    | cons p positions =>
      cases i with
      | zero =>
        simp only [List.map_cons, List.zipWith_cons_cons, List.get?_cons_zero,
          Option.some.injEq] at h
        exact ⟨a, _, rfl, h.symm⟩
      | succ i =>
        simp only [List.map_cons, List.zipWith_cons_cons, List.get?_cons_succ] at h
        exact ih positions i h

theorem layout_children_nil {σ : Type} (G : Generator σ) (n : Node) :
    (GenerateChildrenPosition G n).Children = [] ↔ n.Children = [] := by
  constructor
  · intro h
    by_contra hc
    have hl := congrArg List.length h
    rw [(layout_children G n hc).2.2, List.length_zipWith, placeAll_length] at hl
    simp only [List.length_map, min_self, List.length_nil, List.length_eq_zero] at hl
    exact hc hl
  · intro h
    rw [GenerateChildrenPosition_leaf G n h]
    exact h

theorem get?_layout_children {σ : Type} (G : Generator σ) (n : Node) (i : Nat) (s' : Node)
    (h : (GenerateChildrenPosition G n).Children.get? i = some s') :
    ∃ s q, n.Children.get? i = some s ∧
      s' = { GenerateChildrenPosition G s with Position := q } := by
  by_cases hc : n.Children = []
  · rw [GenerateChildrenPosition_leaf G n hc] at h
    simp only [hc, List.get?_nil] at h
    cases h
  · rw [(layout_children G n hc).2.2] at h
    exact get?_placed_eq G _ _ _ _ _ _ h

theorem same_of_placed {σ : Type} (G : Generator σ) (s : Node) (q : Position) :
    SameFields ({ GenerateChildrenPosition G s with Position := q } : Node) s ∧
      ({ GenerateChildrenPosition G s with Position := q } : Node).URL = s.URL ∧
      ({ GenerateChildrenPosition G s with Position := q } : Node).Children =
        (GenerateChildrenPosition G s).Children := by
  obtain ⟨h1, h2⟩ := layout_same G s
  exact ⟨⟨h1.name, h1.type, h1.line, h1.lines, h1.methods, h1.attributes, h1.stmts⟩, h2, rfl⟩

theorem mem_layout_children {σ : Type} (G : Generator σ) (n : Node) (s' : Node)
    (h : s' ∈ (GenerateChildrenPosition G n).Children) :
    ∃ s ∈ n.Children, SameFields s' s ∧ s'.URL = s.URL ∧
      s'.Children = (GenerateChildrenPosition G s).Children := by
  obtain ⟨i, hi⟩ := List.get?_of_mem h
  obtain ⟨s, q, hs, e⟩ := get?_layout_children G n i s' hi
  subst e
  exact ⟨s, List.get?_mem hs, same_of_placed G s q⟩

/-- A node of the laid-out tree is a node of the tree before the layout, at
the same place, with the same fields. -/
theorem subnode_layout_same {σ : Type} (G : Generator σ) (path : List Nat) :
    ∀ n m', subnode (GenerateChildrenPosition G n) path = some m' →
      ∃ m, subnode n path = some m ∧ SameFields m' m ∧ m'.URL = m.URL ∧
        m'.Children = (GenerateChildrenPosition G m).Children ∧
        namesOn (GenerateChildrenPosition G n) path = namesOn n path := by
  induction path with
  | nil =>
    intro n m' h
    simp only [subnode, Option.some.injEq] at h
    subst h
    exact ⟨n, rfl, (layout_same G n).1, (layout_same G n).2, rfl, rfl⟩
  | cons i path ih =>
    intro n m' h
    cases hg : (GenerateChildrenPosition G n).Children.get? i with
    | none => rw [subnode_cons_none hg] at h; cases h
    | some c' =>
      rw [subnode_cons_of_get? hg] at h
      obtain ⟨c, q, hc, e⟩ := get?_layout_children G n i c' hg
      subst e
      rw [subnode_cons_of_get? hc, namesOn_cons_of_get? hg, namesOn_cons_of_get? hc,
        namesOn_of_children_eq (same_of_placed G c q).2.2, (same_of_placed G c q).1.name]
      cases path with
      | nil =>
        simp only [subnode, Option.some.injEq] at h
        subst h
        obtain ⟨h1, h2, h3⟩ := same_of_placed G c q
        exact ⟨c, rfl, h1, h2, h3, rfl⟩
      | cons j rest =>
        rw [subnode_of_children_eq (same_of_placed G c q).2.2] at h
        obtain ⟨m, h1, h2, h3, h4, h5⟩ := ih c m' h
        exact ⟨m, h1, h2, h3, h4, by rw [h5]⟩

end CodeAnalyzer

namespace CodeAnalyzer

/-! ## Where the nodes of the merged tree come from -/

theorem createdInfo_type (d : Nat) (s : Str) (v : NodeInfo) (n : Nat) :
    (createdInfo d s v n).type = roleOf d n := by
  by_cases h1 : n ≤ d
  · rw [createdInfo_pkg s v h1]
    simp only [roleOf, h1, if_true]
    rfl
  · by_cases h2 : n = d + 1
    · subst h2
      rw [createdInfo_file]
      simp only [roleOf, h1, if_true, if_false]
      by_cases hs : s.length > 0
      · simp only [hs, if_true]; rfl
      · simp only [hs, if_false]; rfl
    · rw [createdInfo_struct s v (by omega)]
      simp only [roleOf, h1, h2, if_false]
      rfl

theorem origin_step {L : List (Str × NodeInfo)} {z : Flat} (hz : Origin L z)
    (e : Str × NodeInfo) (he : e ∈ L) :
    Origin L (flatValAt (targetPath e.1)
      (createdInfo (getPathAndFile e.1).1.length (getPathAndFile e.1).2.2 e.2) e.2 z) := by
  intro p i hp hne
  simp only [flatValAt, List.mem_inits] at hp
  by_cases h1 : p <+: targetPath e.1
  · simp only [h1, if_true] at hp
    cases hzp : z p with
    | some i₀ =>
      simp only [hzp] at hp
      injection hp with hp
      subst hp
      obtain ⟨e₀, he₀, hpre, ht, hm, hl⟩ := hz p i₀ hzp hne
      refine ⟨e₀, he₀, hpre, ?_, ?_, ?_⟩
      · split
        · exact ht
        · exact ht
      · split
        · exact hm
        · exact hm
      · intro a b
        split
        · exact hl a b
        · exact hl a b
    | none =>
      simp only [hzp] at hp
      injection hp with hp
      subst hp
      refine ⟨e, he, h1, createdInfo_type _ _ _ _, createdInfo_hasMap _ _ _ _, ?_⟩
      intro hT hs
      have hlen : p.length = (getPathAndFile e.1).1.length + 2 := by
        rw [hT, length_targetPath]
        simp only [gt_iff_lt, hs, if_true]
      rw [createdInfo_struct _ _ (by omega)]
      rfl
  · simp only [h1, if_false] at hp
    exact hz p i hp hne

theorem origin_foldl (L items : List (Str × NodeInfo)) (hsub : ∀ e ∈ items, e ∈ L) :
    ∀ z z', Origin L z → items.foldl flatStep (some z) = some z' → Origin L z' := by
  induction items with
  | nil =>
    intro z z' hz h
    simp only [List.foldl, Option.some.injEq] at h
    subst h
    exact hz
  | cons e items ih =>
    intro z z' hz h
    simp only [List.foldl] at h
    rw [flatStep_some] at h
    by_cases hb : flatBlocked (targetPath e.1) z = true
    · simp only [hb, if_true] at h
      rw [foldl_flatStep_none] at h
      cases h
    · simp only [hb, if_false] at h
      exact ih (fun x hx => hsub x (List.mem_cons_of_mem _ hx)) _ _
        (origin_step hz e (hsub e (List.mem_cons_self _ _))) h

theorem origin_root (L : List (Str × NodeInfo)) (r : Str) : Origin L (infoAt (newRoot r)) := by
  intro p i hp hne
  cases p with
  | nil => exact absurd rfl hne
  | cons k q =>
    rw [infoAt_empty_map (by rfl)] at hp
    cases hp

theorem rootType_foldl (items : List (Str × NodeInfo)) :
    ∀ z z', (∃ i, z [] = some i ∧ i.type = NodeType.Unset ∧ i.stmts = 0 ∧ i.hasMap = true) →
      (∀ e ∈ items, targetPath e.1 ≠ []) →
      items.foldl flatStep (some z) = some z' →
      ∃ i, z' [] = some i ∧ i.type = NodeType.Unset ∧ i.stmts = 0 ∧ i.hasMap = true := by
  induction items with
  | nil =>
    intro z z' hz _ h
    simp only [List.foldl, Option.some.injEq] at h
    subst h
    exact hz
  | cons e items ih =>
    intro z z' hz hT h
    simp only [List.foldl] at h
    rw [flatStep_some] at h
    by_cases hb : flatBlocked (targetPath e.1) z = true
    · simp only [hb, if_true] at h
      rw [foldl_flatStep_none] at h
      cases h
    · simp only [hb, if_false] at h
      apply ih _ _ _ (fun x hx => hT x (List.mem_cons_of_mem _ hx)) h
      obtain ⟨i, hi, ht, hs, hm⟩ := hz
      refine ⟨i, ?_, ht, hs, hm⟩
      simp only [flatValAt, List.mem_inits, List.nil_prefix, if_true, hi]
      rw [if_neg (Ne.symm (hT e (List.mem_cons_self _ _)))]

theorem targetPath_ne_nil (key : Str) : targetPath key ≠ [] := targetOf_ne_nil _ _ _

/-- The flat view of the tree that the merge loop builds. -/
theorem buildTree_flat {items : List (Str × NodeInfo)} {r : Str} {tree : Node}
    (h : buildTree items r = .ok tree) :
    items.foldl flatStep (some (infoAt (newRoot r))) = some (infoAt tree) :=
  (mergeLoop_flat items (newRoot r)).2 tree h

theorem buildTree_origin {items : List (Str × NodeInfo)} {r : Str} {tree : Node}
    (h : buildTree items r = .ok tree) :
    Origin items (infoAt tree) ∧ tree.Type_ = NodeType.Unset ∧ tree.NumberOfStmts = 0 ∧
      tree.childrenMap.isSome = true := by
  have hf := buildTree_flat h
  refine ⟨origin_foldl items items (fun e he => he) _ _ (origin_root items r) hf, ?_⟩
  obtain ⟨i, hi, ht, hs, hm⟩ := rootType_foldl items _ _ ⟨(newRoot r).info, rfl, rfl, rfl, rfl⟩
    (fun e _ => targetPath_ne_nil e.1) hf
  rw [infoAt_nil] at hi
  injection hi with hi
  subst hi
  exact ⟨ht, hs, hm⟩

theorem infoAt_of_nodeAt {t c : Node} {keys : List Str} (h : nodeAt t keys = some c) :
    infoAt t keys = some c.info := by
  unfold infoAt
  rw [h]
  rfl

/-- A node of the merged tree that is a STRUCT has no child index, and a node
that has no child index is a STRUCT. -/
theorem struct_iff_nil_map {items : List (Str × NodeInfo)} {r : Str} {tree : Node}
    (h : buildTree items r = .ok tree) {keys : List Str} {c : Node}
    (hc : nodeAt tree keys = some c) :
    c.Type_ = NodeType.StructType ↔ c.childrenMap = none := by
  obtain ⟨ho, ht, -, hm⟩ := buildTree_origin h
  cases keys with
  | nil =>
    simp only [nodeAt, Option.some.injEq] at hc
    subst hc
    constructor
    · intro e; rw [ht] at e; cases e
    · intro e; rw [e] at hm; cases hm
  | cons k q =>
    obtain ⟨e, -, hpre, hty, hmap, -⟩ := ho (k :: q) c.info (infoAt_of_nodeAt hc) (by simp)
    have hty' : c.Type_ = roleOf (getPathAndFile e.1).1.length (k :: q).length := hty
    have hmap' : c.childrenMap.isSome =
        decide ((k :: q).length ≤ (getPathAndFile e.1).1.length + 1) := hmap
    rw [hty']
    unfold roleOf
    constructor
    · intro hs
      have : ¬ (k :: q).length ≤ (getPathAndFile e.1).1.length + 1 := by
        intro hle
        split_ifs at hs
        omega
      rw [decide_eq_false this] at hmap'
      cases hcm : c.childrenMap with
      | none => rfl
      | some m => rw [hcm] at hmap'; cases hmap'
    · intro hn
      rw [hn] at hmap'
      have : ¬ (k :: q).length ≤ (getPathAndFile e.1).1.length + 1 := by
        intro hle
        rw [decide_eq_true hle] at hmap'
        cases hmap'
      split_ifs <;> first | rfl | omega

end CodeAnalyzer

namespace CodeAnalyzer

/-! ## Every node of the tree that `New` returns -/

theorem New_ok {σ : Type} {G : Generator σ} {ord : RangeOrder} {items : List (Str × NodeInfo)}
    {r : Str} {t : Node} (h : New G ord items r = .ok t) :
    ∃ tree, buildTree items r = .ok tree ∧ t = finishTree G ord tree r := by
  unfold New at h
  cases hb : buildTree items r with
  | error e => rw [hb] at h; cases h
  | ok tree =>
    rw [hb] at h
    simp only at h
    cases hs : summarise (generateStateByComponents r r (finishTree G ord tree r) (0, [])) with
    | error e => rw [hs] at h; cases h
    | ok s =>
      rw [hs] at h
      simp only [Except.ok.injEq] at h
      exact ⟨tree, rfl, h.symm⟩

/-- A node of the tree that `New` returns comes from a node `c` of the merged
tree, at the same depth: through the finished node `m` before the layout. -/
theorem node_of_New {σ : Type} {G : Generator σ} {ord : RangeOrder}
    {items : List (Str × NodeInfo)} {r : Str} {t : Node} (h : New G ord items r = .ok t)
    {path : List Nat} {m' : Node} (hm : subnode t path = some m') :
    ∃ tree keys c raw m, buildTree items r = .ok tree ∧ keys.length = path.length ∧
      nodeAt tree keys = some c ∧ WfTree c ∧ Img ord c raw m ∧ SameFields m' m ∧
      m'.URL = m.URL ∧ m'.Children = (GenerateChildrenPosition G m).Children ∧
      ((path = [] ∧ raw = rootPath r) ∨
        ∃ pp, raw = (getNodeURL c pp).1 ∧ m.URL = (getNodeURL c pp).2) ∧
      namesOn t path = keys := by
  obtain ⟨tree, hb, ht⟩ := New_ok h
  subst ht
  unfold finishTree at hm ⊢
  obtain ⟨m, hm1, hsame, hurl, hch, hn1⟩ := subnode_layout_same G path _ _ hm
  have hw := buildTree_wf hb
  obtain ⟨keys, c, raw, hlen, hna, hwc, hi, hor, hn2⟩ :=
    subnode_img ord path tree (rootPath r) _ m hw
      (img_GenerateChildList ord tree (rootPath r) hw.root.children) hm1
  exact ⟨tree, keys, c, raw, m, hb, hlen, hna, hwc, hi, hsame, hurl, hch, hor, by rw [hn1, hn2]⟩

/-- A child of a node of the returned tree comes from an entry of the child
index of the node of the merged tree. -/
theorem child_of_New {σ : Type} (G : Generator σ) {ord : RangeOrder} {c : Node} {raw : Str}
    {m f s : Node} (hwc : WfTree c) (hi : Img ord c raw m)
    (hch : f.Children = (GenerateChildrenPosition G m).Children) (hs : s ∈ f.Children) :
    ∃ kc ∈ kidsOf c, lookupChild kc.1 (kidsOf c) = some kc.2 ∧ WfTree kc.2 ∧
      SameFields s kc.2 ∧ s.URL = (getNodeURL kc.2 raw).2 ∧
      (kidsOf kc.2 = [] → s.Children = []) := by
  rw [hch] at hs
  obtain ⟨s0, hs0, hsame, hurl, hkids⟩ := mem_layout_children G m s hs
  obtain ⟨kc, hkc, e⟩ := List.mem_map.1 (hi.children.subset hs0)
  obtain ⟨hl, hw2, -⟩ := hwc.of_mem hkc
  have hi2 := img_finNode ord kc.2 raw hw2.root.children
  rw [e] at hi2
  refine ⟨kc, hkc, hl, hw2, ?_, ?_, ?_⟩
  · exact ⟨hsame.name.trans hi2.same.name, hsame.type.trans hi2.same.type,
      hsame.line.trans hi2.same.line, hsame.lines.trans hi2.same.lines,
      hsame.methods.trans hi2.same.methods, hsame.attributes.trans hi2.same.attributes,
      hsame.stmts.trans hi2.same.stmts⟩
  · rw [hurl, ← e]; rfl
  · intro hk
    rw [hkids, layout_children_nil]
    have := hi2.children
    rw [hk] at this
    exact List.perm_nil.1 this

theorem children_nil_of_img {σ : Type} (G : Generator σ) {ord : RangeOrder} {c : Node}
    {raw : Str} {m f : Node} (hi : Img ord c raw m)
    (hch : f.Children = (GenerateChildrenPosition G m).Children) (hk : kidsOf c = []) :
    f.Children = [] := by
  rw [hch, layout_children_nil]
  have := hi.children
  rw [hk] at this
  exact List.perm_nil.1 this

/-- The verb `%d` writes an `int` as the decimal rendering of the library. -/
theorem formatInt_eq_toString (n : Int) : formatInt n = (toString n).toList := by
  cases n with
  | ofNat m => rfl
  | negSucc m => rfl

theorem getNodeURL_struct {c : Node} (h : c.Type_ = NodeType.StructType) (pp : Str) :
    (getNodeURL c pp).2 =
      Replace pp BaseTypeFlag FileBaseTypeURL ++ ['#', 'L'] ++ formatInt c.Line := by
  simp only [getNodeURL, h, if_true]

theorem getNodeURL_file {c : Node} (h : c.Type_ = NodeType.FileType) (pp : Str) :
    (getNodeURL c pp).2 = Replace (getNodeURL c pp).1 BaseTypeFlag FileBaseTypeURL := by
  have h1 : c.Type_ ≠ NodeType.StructType := by rw [h]; decide
  have h2 : c.Type_ ≠ NodeType.PackageType := by rw [h]; decide
  simp only [getNodeURL, h1, h2, if_false]

theorem getNodeURL_package {c : Node} (h : c.Type_ = NodeType.PackageType) (pp : Str) :
    (getNodeURL c pp).2 = Replace (getNodeURL c pp).1 BaseTypeFlag PackageBaseTypeURL := by
  have h1 : ¬ NodeType.PackageType = NodeType.StructType := by decide
  simp only [getNodeURL, h, h1, if_true, if_false]

theorem getNodeURL_raw {c : Node} (h : c.Type_ ≠ NodeType.StructType) (hn : c.Name ≠ [])
    (pp : Str) : (getNodeURL c pp).1 = pp ++ ['/'] ++ c.Name := by
  have hl : c.Name.length > 0 := List.length_pos.2 hn
  simp only [getNodeURL, h, if_false, hl, if_true]
  split <;> rfl

end CodeAnalyzer

namespace CodeAnalyzer

/-! ## The sample trees -/

theorem some_getD_of_isSome {α : Type} (o : Option α) (d : α) (h : o.isSome = true) :
    o = some (o.getD d) := by
  cases o with
  | none => cases h
  | some a => rfl

theorem sampleWidget_New :
    New shelfGenerator RangeOrder.same sampleWidget sampleRepository = .ok sampleWidgetTree := by
  rw [New_eq]; rfl

theorem sampleWidget_file : subnode sampleWidgetTree [0, 0, 0] = some sampleWidgetFile :=
  some_getD_of_isSome _ _ (by decide!)

theorem sampleWidget_struct :
    subnode sampleWidgetTree [0, 0, 0, 0] = some sampleWidgetStruct :=
  some_getD_of_isSome _ _ (by decide!)

theorem get?_of_subnode_append {n f s : Node} {path : List Nat} {i : Nat}
    (hf : subnode n path = some f) (hs : subnode n (path ++ [i]) = some s) :
    f.Children.get? i = some s := by
  induction path generalizing n with
  | nil =>
    simp only [subnode, Option.some.injEq] at hf
    subst hf
    rw [List.nil_append] at hs
    cases hg : n.Children.get? i with
    | none => rw [subnode_cons_none hg] at hs; cases hs
    | some c =>
      rw [subnode_cons_of_get? hg] at hs
      simp only [subnode, Option.some.injEq] at hs
      rw [hs]
  | cons j path ih =>
    cases hg : n.Children.get? j with
    | none => rw [subnode_cons_none hg] at hf; cases hf
    | some c =>
      rw [subnode_cons_of_get? hg] at hf
      rw [List.cons_append, subnode_cons_of_get? hg] at hs
      exact ih hf hs

theorem sampleWidget_child : sampleWidgetStruct ∈ sampleWidgetFile.Children :=
  List.get?_mem (get?_of_subnode_append (i := 0) sampleWidget_file sampleWidget_struct)

end CodeAnalyzer

namespace CodeAnalyzer

/-- C17. For every input on which `model.New` returns, whatever the position
generator and the iteration orders, every STRUCT node of the returned tree has
an empty `Children` sequence. -/
theorem struct_has_no_children {σ : Type} (G : Generator σ) (ord : RangeOrder)
    (items : List (Str × NodeInfo)) (r : Str) (t : Node) (h : New G ord items r = .ok t)
    (path : List Nat) (m : Node) (hm : subnode t path = some m)
    (hs : m.Type_ = NodeType.StructType) : m.Children = [] := by
  obtain ⟨tree, keys, c, raw, m0, hb, -, hna, -, hi, hsame, -, hch, -⟩ := node_of_New h hm
  have hc : c.Type_ = NodeType.StructType := by
    rw [← hi.same.type, ← hsame.type]; exact hs
  have hk : kidsOf c = [] := by
    unfold kidsOf
    rw [(struct_iff_nil_map hb hna).1 hc]
  exact children_nil_of_img G hi hch hk

/-- C17 at the struct `Widget` of `pkg/sub/file.go`. -/
theorem struct_has_no_children_witness :
    New shelfGenerator RangeOrder.same sampleWidget sampleRepository = .ok sampleWidgetTree ∧
      subnode sampleWidgetTree [0, 0, 0, 0] = some sampleWidgetStruct ∧
      sampleWidgetStruct.Type_ = NodeType.StructType ∧ sampleWidgetStruct.Children = [] :=
  ⟨sampleWidget_New, sampleWidget_struct, by decide!,
    struct_has_no_children shelfGenerator RangeOrder.same sampleWidget sampleRepository
      sampleWidgetTree sampleWidget_New [0, 0, 0, 0] sampleWidgetStruct sampleWidget_struct
      (by decide!)⟩

/-- C12. In the tree that `model.New` returns, the URL of a STRUCT node that
is a child of a FILE node is the URL of that FILE node followed by `#L` and
the decimal rendering of the line of the STRUCT (the digits of the line in
base ten, after a minus sign when it is negative). -/
theorem struct_url_anchor {σ : Type} (G : Generator σ) (ord : RangeOrder)
    (items : List (Str × NodeInfo)) (r : Str) (t : Node) (h : New G ord items r = .ok t)
    (path : List Nat) (f : Node) (hf : subnode t path = some f)
    (hft : f.Type_ = NodeType.FileType) (s : Node) (hs : s ∈ f.Children)
    (hst : s.Type_ = NodeType.StructType) :
    s.URL = f.URL ++ "#L".toList ++ (toString s.Line).toList := by
  obtain ⟨tree, keys, c, raw, m, hb, hlen, hna, hwc, hi, hsame, hurl, hch, hor, -⟩ :=
    node_of_New h hf
  have hc : c.Type_ = NodeType.FileType := by
    rw [← hi.same.type, ← hsame.type]; exact hft
  obtain ⟨kc, -, -, -, hs2, hsurl, -⟩ := child_of_New G hwc hi hch hs
  have hkt : kc.2.Type_ = NodeType.StructType := by rw [← hs2.type]; exact hst
  rcases hor with ⟨hp, -⟩ | ⟨pp, hraw, hmurl⟩
  · subst hp
    simp only [List.length_nil, List.length_eq_zero] at hlen
    subst hlen
    simp only [nodeAt, Option.some.injEq] at hna
    subst hna
    rw [(buildTree_origin hb).2.1] at hc
    cases hc
  · rw [hsurl, getNodeURL_struct hkt, hurl, hmurl, getNodeURL_file hc, ← hraw, hs2.line,
      formatInt_eq_toString]
    rfl

/-- C12 at the struct `Widget`, declared at line 42 of `pkg/sub/file.go`: its
URL is that of the file followed by `#L42`. -/
theorem struct_url_anchor_witness :
    New shelfGenerator RangeOrder.same sampleWidget sampleRepository = .ok sampleWidgetTree ∧
      subnode sampleWidgetTree [0, 0, 0] = some sampleWidgetFile ∧
      sampleWidgetFile.Type_ = NodeType.FileType ∧
      sampleWidgetStruct ∈ sampleWidgetFile.Children ∧
      sampleWidgetStruct.Type_ = NodeType.StructType ∧
      sampleWidgetStruct.Line = 42 ∧
      sampleWidgetFile.URL =
        "https://github.com/acme/svc/blob/master/pkg/sub/file.go".toList ∧
      sampleWidgetStruct.URL =
        "https://github.com/acme/svc/blob/master/pkg/sub/file.go#L42".toList ∧
      sampleWidgetStruct.URL =
        sampleWidgetFile.URL ++ "#L".toList ++ (toString sampleWidgetStruct.Line).toList :=
  ⟨sampleWidget_New, sampleWidget_file, by decide!, sampleWidget_child, by decide!, by decide!,
    by decide!, by decide!,
    struct_url_anchor shelfGenerator RangeOrder.same sampleWidget sampleRepository
      sampleWidgetTree sampleWidget_New [0, 0, 0] sampleWidgetFile sampleWidget_file
      (by decide!) sampleWidgetStruct sampleWidget_child (by decide!)⟩

/-- C16 (amended). For every input in which no path is a directory for one
entry and a file or a struct for another, and on which `model.New` returns:
every child of a PACKAGE node of the returned tree is a PACKAGE or a FILE
node, and every child of a FILE node is a STRUCT node. -/
theorem children_types {σ : Type} (G : Generator σ) (ord : RangeOrder)
    (items : List (Str × NodeInfo)) (r : Str) (t : Node) (h : New G ord items r = .ok t)
    (hnc : ∀ x ∈ items, ∀ y ∈ items, NoClash x.1 y.1)
    (path : List Nat) (f : Node) (hf : subnode t path = some f) (s : Node)
    (hs : s ∈ f.Children) :
    (f.Type_ = NodeType.PackageType →
        s.Type_ = NodeType.PackageType ∨ s.Type_ = NodeType.FileType) ∧
      (f.Type_ = NodeType.FileType → s.Type_ = NodeType.StructType) := by
  obtain ⟨tree, keys, c, raw, m, hb, hlen, hna, hwc, hi, hsame, hurl, hch, hor, -⟩ :=
    node_of_New h hf
  have hfc : f.Type_ = c.Type_ := hsame.type.trans hi.same.type
  obtain ⟨kc, -, hl, -, hs2, -, -⟩ := child_of_New G hwc hi hch hs
  obtain ⟨ho, hroot, -, -⟩ := buildTree_origin hb
  cases keys with
  | nil =>
    simp only [nodeAt, Option.some.injEq] at hna
    subst hna
    rw [hfc, hroot]
    exact ⟨fun e => (nomatch e), fun e => (nomatch e)⟩
  | cons k q =>
    have hna2 : nodeAt tree ((k :: q) ++ [kc.1]) = some kc.2 := by
      rw [nodeAt_append hna, nodeAt_cons_of_lookup hl]
      rfl
    obtain ⟨e1, he1, hp1, ht1, -⟩ := ho (k :: q) c.info (infoAt_of_nodeAt hna) (by simp)
    obtain ⟨e2, he2, hp2, ht2, -⟩ := ho ((k :: q) ++ [kc.1]) kc.2.info (infoAt_of_nodeAt hna2)
      (by simp)
    have hp2' : (k :: q) <+: targetPath e2.1 := (List.prefix_append _ _).trans hp2
    have hrole := (NoClash_iff _ _).1 (hnc e1 he1 e2 he2) (k :: q) hp1 hp2'
    have ht1' : c.Type_ = roleOf (getPathAndFile e1.1).1.length (k :: q).length := ht1
    have ht2' : kc.2.Type_ =
        roleOf (getPathAndFile e2.1).1.length ((k :: q) ++ [kc.1]).length := ht2
    rw [hfc, hs2.type, ht1', hrole, ht2']
    simp only [roleOf, List.length_append, List.length_singleton]
    constructor
    · intro hP
      split_ifs at hP
      split_ifs <;> first | exact Or.inl rfl | exact Or.inr rfl | omega
    · intro hF
      split_ifs at hF
      split_ifs <;> first | rfl | omega

/-- C16 at the struct `Widget` and the file `pkg/sub/file.go`: the child of
the FILE node is a STRUCT node. -/
theorem children_types_witness :
    New shelfGenerator RangeOrder.same sampleWidget sampleRepository = .ok sampleWidgetTree ∧
      (∀ x ∈ sampleWidget, ∀ y ∈ sampleWidget, NoClash x.1 y.1) ∧
      subnode sampleWidgetTree [0, 0, 0] = some sampleWidgetFile ∧
      sampleWidgetStruct ∈ sampleWidgetFile.Children ∧
      ((sampleWidgetFile.Type_ = NodeType.PackageType →
          sampleWidgetStruct.Type_ = NodeType.PackageType ∨
            sampleWidgetStruct.Type_ = NodeType.FileType) ∧
        (sampleWidgetFile.Type_ = NodeType.FileType →
          sampleWidgetStruct.Type_ = NodeType.StructType)) :=
  ⟨sampleWidget_New, by decide!, sampleWidget_file, sampleWidget_child,
    children_types shelfGenerator RangeOrder.same sampleWidget sampleRepository
      sampleWidgetTree sampleWidget_New (by decide!) [0, 0, 0] sampleWidgetFile
      sampleWidget_file sampleWidgetStruct sampleWidget_child⟩

/-- C16 (counterexample to the claim as stated). For the entries `a.go`,
`a.go/b.go` and `p/c.go`, taken in that order, `model.New` returns a tree in
which the FILE node `a.go` has the FILE node `b.go` as a child. -/
theorem file_child_of_file :
    New shelfGenerator RangeOrder.same sampleNested "r".toList = .ok sampleNestedTree ∧
      (subnode sampleNestedTree [0]).map (fun f => (f.Name, f.Type_)) =
        some ("a.go".toList, NodeType.FileType) ∧
      (subnode sampleNestedTree [0]).map
          (fun f => f.Children.map (fun s => (s.Name, s.Type_))) =
        some [("b.go".toList, NodeType.FileType)] :=
  ⟨by rw [New_eq]; rfl, by decide!, by decide!⟩

end CodeAnalyzer

namespace CodeAnalyzer

/-! ## Identifiers and the nodes they resolve to -/

theorem lastSegment_no_slash (k : Str) :
    ∀ c ∈ (Split '/' k).getD ((Split '/' k).length - 1) [], c ≠ '/' := by
  intro c hc hc'
  subst hc'
  refine not_mem_of_mem_Split '/' k _ ?_ hc
  rw [List.getD_eq_getElem _ _ (by
    have := List.length_pos.2 (Split_ne_nil '/' k); omega)]
  exact List.getElem_mem _

theorem segment_of_parseable {s : Str} (hs : ∀ c ∈ s, c ≠ '/')
    (h : (GetFileAndStruct s).1 ≠ []) :
    s = (GetFileAndStruct s).1 ++ groupSuffix (GetFileAndStruct s).2 := by
  rw [GetFileAndStruct_eq] at h ⊢
  cases hr : regexpFileFind s with
  | none => rw [hr] at h; exact absurd rfl h
  | some r =>
    obtain ⟨g1, g2⟩ := r
    exact regexpFileFind_eq_append hs hr

/-- An identifier with a parseable file name is its directory segments, then
the file name and the struct group, joined by slashes. -/
theorem key_of_parseable (k : Str) (h : (getPathAndFile k).2.1 ≠ []) :
    k = unsplit '/' ((getPathAndFile k).1 ++
      [(getPathAndFile k).2.1 ++ groupSuffix (getPathAndFile k).2.2]) := by
  have e := segment_of_parseable (lastSegment_no_slash k) h
  have e' : (Split '/' k).getD ((Split '/' k).length - 1) [] =
      (getPathAndFile k).2.1 ++ groupSuffix (getPathAndFile k).2.2 := e
  rw [← e', ← Split_eq_of_getPathAndFile, unsplit_Split]

/-- The mapping from an identifier with a parseable file name to its
directory segments, file name and struct name is injective. -/
theorem key_eq_of_parseable {k1 k2 : Str} (h : getPathAndFile k1 = getPathAndFile k2)
    (hf : (getPathAndFile k1).2.1 ≠ []) : k1 = k2 := by
  rw [key_of_parseable k1 hf, key_of_parseable k2 (by rw [← h]; exact hf), h]

theorem matchTail_word {r w : Str} (h : matchTail r = some w) :
    ∀ c ∈ w, isWordChar c = true := by
  unfold matchTail at h
  by_cases h3 : r.take 3 = ['.', 'g', 'o']
  · simp only [h3, if_true] at h
    by_cases hg : (r.drop 3).take 2 = ['.', '('] ∧
        ((r.drop 3).drop 2).takeWhile isWordChar ≠ [] ∧
        ((r.drop 3).drop 2).dropWhile isWordChar = [')']
    · rw [if_pos hg] at h
      injection h with h
      subst h
      intro c hc
      exact List.mem_takeWhile_imp hc
    · rw [if_neg hg] at h
      by_cases he : r.drop 3 = []
      · rw [if_pos he] at h
        injection h with h
        subst h
        intro c hc
        cases hc
      · rw [if_neg he] at h
        cases h
  · simp only [h3, if_false] at h
    cases h

theorem GetFileAndStruct_word (s : Str) :
    ∀ c ∈ (GetFileAndStruct s).2, isWordChar c = true := by
  rw [GetFileAndStruct_eq]
  cases hr : regexpFileFind s with
  | none => intro c hc; cases hc
  | some r =>
    obtain ⟨g1, g2⟩ := r
    obtain ⟨pre, s', -, hs'⟩ := regexpFileFind_some hr
    obtain ⟨j, -, -, ht⟩ := matchHead_some hs'
    exact matchTail_word ht

theorem GetFileAndStruct_dot (s : Str) (h : (GetFileAndStruct s).1 ≠ []) :
    '.' ∈ (GetFileAndStruct s).1 := by
  rw [GetFileAndStruct_eq] at h ⊢
  cases hr : regexpFileFind s with
  | none => rw [hr] at h; exact absurd rfl h
  | some r =>
    obtain ⟨g1, g2⟩ := r
    obtain ⟨pre, s', -, hs'⟩ := regexpFileFind_some hr
    obtain ⟨j, -, hg, -⟩ := matchHead_some hs'
    simp only
    rw [hg]
    simp

theorem targetPath_struct (k : Str) (h : 0 < (getPathAndFile k).2.2.length) :
    targetPath k = (getPathAndFile k).1 ++ [(getPathAndFile k).2.1, (getPathAndFile k).2.2] := by
  unfold targetPath targetOf
  rw [if_pos h]

theorem targetPath_file (k : Str) (h : ¬ 0 < (getPathAndFile k).2.2.length) :
    targetPath k = (getPathAndFile k).1 ++ [(getPathAndFile k).2.1] := by
  unfold targetPath targetOf
  rw [if_neg h]

/-- Two identifiers that resolve to the same node, one of them with a struct
name, are the same identifier. -/
theorem key_eq_of_targetPath_eq {k k' : Str} (h : targetPath k' = targetPath k)
    (hs : 0 < (getPathAndFile k).2.2.length) : k' = k := by
  rw [targetPath_struct k hs] at h
  by_cases hs' : 0 < (getPathAndFile k').2.2.length
  · rw [targetPath_struct k' hs'] at h
    obtain ⟨h1, h2⟩ := List.append_inj' h rfl
    simp only [List.cons.injEq, and_true] at h2
    symm
    apply key_eq_of_getPathAndFile_eq _ hs
    apply Prod.ext h1.symm
    apply Prod.ext h2.1.symm h2.2.symm
  · rw [targetPath_file k' hs'] at h
    have h' : (getPathAndFile k').1 ++ [(getPathAndFile k').2.1] =
        ((getPathAndFile k).1 ++ [(getPathAndFile k).2.1]) ++ [(getPathAndFile k).2.2] := by
      rw [h]; simp
    obtain ⟨-, h2⟩ := List.append_inj' h' rfl
    simp only [List.cons.injEq, and_true] at h2
    have hne : (getPathAndFile k').2.1 ≠ [] := by
      rw [h2]
      exact List.length_pos.1 hs
    have hdot : '.' ∈ (getPathAndFile k').2.1 := GetFileAndStruct_dot _ hne
    rw [h2] at hdot
    have := GetFileAndStruct_word _ _ hdot
    rw [isWordChar_dot] at this
    cases this

theorem broughtTo_zero (p : List Str) (items : List (Str × NodeInfo))
    (h : ∀ e ∈ items, p ≠ targetPath e.1) : broughtTo p items = 0 := by
  induction items with
  | nil => rfl
  | cons e items ih =>
    rw [broughtTo_cons, if_neg (h e (List.mem_cons_self _ _)),
      ih (fun x hx => h x (List.mem_cons_of_mem _ hx)), add_zero]

theorem eq_of_fst_eq {items : List (Str × NodeInfo)} (hnd : (items.map Prod.fst).Nodup)
    {a b : Str × NodeInfo} (ha : a ∈ items) (hb : b ∈ items) (h : a.1 = b.1) : a = b := by
  induction items with
  | nil => cases ha
  | cons x items ih =>
    rw [List.map_cons, List.nodup_cons] at hnd
    rcases List.mem_cons.1 ha with ha | ha <;> rcases List.mem_cons.1 hb with hb | hb
    · rw [ha, hb]
    · exfalso
      apply hnd.1
      rw [← ha, h]
      exact List.mem_map.2 ⟨b, hb, rfl⟩
    · exfalso
      apply hnd.1
      rw [← hb, ← h]
      exact List.mem_map.2 ⟨a, ha, rfl⟩
    · exact ih hnd.2 ha hb

/-- The counters brought to a node to which one entry only resolves. -/
theorem broughtTo_unique (p : List Str) (items : List (Str × NodeInfo))
    (hnd : (items.map Prod.fst).Nodup) (e : Str × NodeInfo) (he : e ∈ items)
    (hp : p = targetPath e.1) (hu : ∀ e' ∈ items, p = targetPath e'.1 → e' = e) :
    broughtTo p items = e.2.counters := by
  induction items with
  | nil => cases he
  | cons x items ih =>
    rw [broughtTo_cons]
    have hnd' := hnd
    rw [List.map_cons, List.nodup_cons] at hnd'
    by_cases hx : x = e
    · subst hx
      rw [if_pos hp, broughtTo_zero, add_zero]
      intro e' he' hpe
      have := hu e' (List.mem_cons_of_mem _ he') hpe
      apply hnd'.1
      rw [← this]
      exact List.mem_map.2 ⟨e', he', rfl⟩
    · have hxp : p ≠ targetPath x.1 := fun hpe => hx (hu x (List.mem_cons_self _ _) hpe)
      rw [if_neg hxp, zero_add]
      rcases List.mem_cons.1 he with he | he
      · exact absurd he.symm hx
      · exact ih hnd'.2 he (fun e' he' => hu e' (List.mem_cons_of_mem _ he'))

theorem flatCounters_root (r : Str) (p : List Str) (hp : p ≠ []) :
    flatCounters (infoAt (newRoot r)) p = 0 := by
  cases p with
  | nil => exact absurd rfl hp
  | cons k q =>
    unfold flatCounters
    rw [infoAt_empty_map (by rfl)]

/-- The counters of a node of the merged tree are those that the entries
bring to it. -/
theorem buildTree_counters {items : List (Str × NodeInfo)} {r : Str} {tree : Node}
    (h : buildTree items r = .ok tree) {keys : List Str} {c : Node}
    (hc : nodeAt tree keys = some c) (hk : keys ≠ []) :
    (c.NumberOfLines, c.NumberOfMethods, c.NumberOfAttributes, c.NumberOfStmts) =
      broughtTo keys items := by
  have h1 := (foldl_flatStep_counters items _ _ (buildTree_flat h) keys).1
  rw [flatCounters_root r keys hk, zero_add] at h1
  rw [← h1]
  unfold flatCounters
  rw [infoAt_of_nodeAt hc]
  rfl

/-- A STRUCT node of the merged tree is the target of an entry with a struct
name, and has the line of that entry. -/
theorem struct_node_origin {items : List (Str × NodeInfo)} {r : Str} {tree : Node}
    (h : buildTree items r = .ok tree) {keys : List Str} {c : Node}
    (hc : nodeAt tree keys = some c) (hs : c.Type_ = NodeType.StructType) :
    ∃ e ∈ items, keys = targetPath e.1 ∧ 0 < (getPathAndFile e.1).2.2.length ∧
      c.Line = e.2.Line := by
  obtain ⟨ho, hroot, -, -⟩ := buildTree_origin h
  cases keys with
  | nil =>
    simp only [nodeAt, Option.some.injEq] at hc
    subst hc
    rw [hroot] at hs
    cases hs
  | cons k q =>
    obtain ⟨e, he, hpre, hty, -, hline⟩ := ho (k :: q) c.info (infoAt_of_nodeAt hc) (by simp)
    have hty' : c.Type_ = roleOf (getPathAndFile e.1).1.length (k :: q).length := hty
    rw [hs] at hty'
    have hlen : (getPathAndFile e.1).1.length + 2 ≤ (k :: q).length := by
      unfold roleOf at hty'
      split_ifs at hty'
      omega
    have hle := hpre.length_le
    rw [length_targetPath] at hle
    have hsn : 0 < (getPathAndFile e.1).2.2.length := by
      by_contra hn
      simp only [gt_iff_lt, hn, if_false] at hle
      omega
    have heq : k :: q = targetPath e.1 := by
      apply hpre.eq_of_length
      rw [length_targetPath]
      simp only [gt_iff_lt, hsn, if_true] at hle ⊢
      omega
    exact ⟨e, he, heq, hsn, hline heq hsn⟩

theorem namesOn_last {n m : Node} {path : List Nat} (h : subnode n path = some m)
    (hp : path ≠ []) : ∃ init, namesOn n path = init ++ [m.Name] := by
  induction path generalizing n with
  | nil => exact absurd rfl hp
  | cons i path ih =>
    cases hg : n.Children.get? i with
    | none => rw [subnode_cons_none hg] at h; cases h
    | some c =>
      rw [subnode_cons_of_get? hg] at h
      rw [namesOn_cons_of_get? hg]
      cases path with
      | nil =>
        simp only [subnode, Option.some.injEq] at h
        subst h
        exact ⟨[], rfl⟩
      | cons j rest =>
        obtain ⟨init, hi⟩ := ih h (by simp)
        exact ⟨c.Name :: init, by rw [hi]; rfl⟩

end CodeAnalyzer

namespace CodeAnalyzer

/-- C19. For every input with pairwise distinct identifiers on which
`model.New` returns, a STRUCT node of the returned tree is the node of exactly
one entry: the entry whose identifier is the directory path of the node, its
file name and the suffix `.(<name>)`. No other entry resolves to that node, and
the line and the four counters of the node are those of that entry. The
mapping from an identifier with a parseable file name to its paths, file name
and struct name is injective. -/
theorem struct_node_single_entry {σ : Type} (G : Generator σ) (ord : RangeOrder)
    (items : List (Str × NodeInfo)) (r : Str) (t : Node) (h : New G ord items r = .ok t)
    (hnd : (items.map Prod.fst).Nodup) (path : List Nat) (m : Node)
    (hm : subnode t path = some m) (hs : m.Type_ = NodeType.StructType) :
    (∃ e ∈ items, ∃ dirs file,
      namesOn t path = dirs ++ [file, m.Name] ∧
      e.1 = unsplit '/' (dirs ++ [file ++ ".(".toList ++ m.Name ++ ")".toList]) ∧
      (∀ e' ∈ items, targetPath e'.1 = namesOn t path → e' = e) ∧
      m.Line = e.2.Line ∧ m.NumberOfAttributes = e.2.NumberAttributes ∧
      m.NumberOfMethods = e.2.NumberMethods ∧ m.NumberOfLines = e.2.NumberLines ∧
      m.NumberOfStmts = e.2.NumberStmts) ∧
    ∀ k1 k2, (getPathAndFile k1).2.1 ≠ [] → getPathAndFile k1 = getPathAndFile k2 →
      k1 = k2 := by
  refine ⟨?_, fun k1 k2 hf he => key_eq_of_parseable he hf⟩
  obtain ⟨tree, keys, c, raw, m0, hb, hlen, hna, -, hi, hsame, -, -, -, hnames⟩ :=
    node_of_New h hm
  have hsf : SameFields m c :=
    ⟨hsame.name.trans hi.same.name, hsame.type.trans hi.same.type,
      hsame.line.trans hi.same.line, hsame.lines.trans hi.same.lines,
      hsame.methods.trans hi.same.methods, hsame.attributes.trans hi.same.attributes,
      hsame.stmts.trans hi.same.stmts⟩
  have hc : c.Type_ = NodeType.StructType := by rw [← hsf.type]; exact hs
  obtain ⟨e, he, hkeys, hsn, hline⟩ := struct_node_origin hb hna hc
  have hk : keys ≠ [] := by rw [hkeys]; exact targetPath_ne_nil _
  have hpath : path ≠ [] := by
    intro hp
    rw [hp] at hlen
    exact hk (List.length_eq_zero.1 hlen)
  obtain ⟨init, hinit⟩ := namesOn_last hm hpath
  have hT := targetPath_struct e.1 hsn
  have hsplit : init ++ [m.Name] =
      ((getPathAndFile e.1).1 ++ [(getPathAndFile e.1).2.1]) ++ [(getPathAndFile e.1).2.2] := by
    rw [← hinit, hnames, hkeys, hT]
    simp
  obtain ⟨h1, h2⟩ := List.append_inj' hsplit rfl
  simp only [List.cons.injEq, and_true] at h2
  have hu : ∀ e' ∈ items, keys = targetPath e'.1 → e' = e := by
    intro e' he' hT'
    apply eq_of_fst_eq hnd he' he
    apply key_eq_of_targetPath_eq _ hsn
    rw [← hT', hkeys]
  have hcnt := buildTree_counters hb hna hk
  rw [broughtTo_unique keys items hnd e he hkeys hu] at hcnt
  simp only [NodeInfo.counters, Prod.mk.injEq] at hcnt
  have hfn : (getPathAndFile e.1).2.1 ≠ [] := by
    intro h0
    have := structName_nil_of_fileName_nil _ h0
    have h3 : (getPathAndFile e.1).2.2 = [] := this
    rw [h3] at hsn
    simp at hsn
  refine ⟨e, he, (getPathAndFile e.1).1, (getPathAndFile e.1).2.1, ?_, ?_, ?_, ?_, ?_, ?_, ?_, ?_⟩
  · rw [hnames, hkeys, hT, h2]
  · have := key_of_parseable e.1 hfn
    rw [groupSuffix, if_neg (List.length_pos.1 hsn)] at this
    rw [h2]
    conv_lhs => rw [this]
    simp
  · intro e' he' hT'
    exact hu e' he' (by rw [hT', hnames])
  · rw [hsf.line, hline]
  · rw [hsf.attributes]; exact hcnt.2.2.1
  · rw [hsf.methods]; exact hcnt.2.1
  · rw [hsf.lines]; exact hcnt.1
  · rw [hsf.stmts]; exact hcnt.2.2.2

/-- C19 at the struct `Widget` of `pkg/sub/file.go`. -/
theorem struct_node_single_entry_witness :
    New shelfGenerator RangeOrder.same sampleWidget sampleRepository = .ok sampleWidgetTree ∧
      (sampleWidget.map Prod.fst).Nodup ∧
      subnode sampleWidgetTree [0, 0, 0, 0] = some sampleWidgetStruct ∧
      sampleWidgetStruct.Type_ = NodeType.StructType ∧
      ((∃ e ∈ sampleWidget, ∃ dirs file,
        namesOn sampleWidgetTree [0, 0, 0, 0] = dirs ++ [file, sampleWidgetStruct.Name] ∧
        e.1 = unsplit '/'
          (dirs ++ [file ++ ".(".toList ++ sampleWidgetStruct.Name ++ ")".toList]) ∧
        (∀ e' ∈ sampleWidget, targetPath e'.1 = namesOn sampleWidgetTree [0, 0, 0, 0] →
          e' = e) ∧
        sampleWidgetStruct.Line = e.2.Line ∧
        sampleWidgetStruct.NumberOfAttributes = e.2.NumberAttributes ∧
        sampleWidgetStruct.NumberOfMethods = e.2.NumberMethods ∧
        sampleWidgetStruct.NumberOfLines = e.2.NumberLines ∧
        sampleWidgetStruct.NumberOfStmts = e.2.NumberStmts) ∧
      ∀ k1 k2, (getPathAndFile k1).2.1 ≠ [] → getPathAndFile k1 = getPathAndFile k2 →
        k1 = k2) :=
  ⟨sampleWidget_New, by decide!, sampleWidget_struct, by decide!,
    struct_node_single_entry shelfGenerator RangeOrder.same sampleWidget sampleRepository
      sampleWidgetTree sampleWidget_New (by decide!) [0, 0, 0, 0] sampleWidgetStruct
      sampleWidget_struct (by decide!)⟩

end CodeAnalyzer

namespace CodeAnalyzer

/-! ## Replacing the flag of the URL template -/

theorem replaceFrom_skip (old new : Str) (a rest : Str) :
    replaceFrom old new a.length (a ++ rest) = replaceFrom old new 0 rest := by
  induction a with
  | nil => rfl
  | cons c a ih =>
    rw [List.length_cons, List.cons_append, replaceFrom]
    exact ih

theorem replaceFrom_prefix (old new rest : Str) (h : old ≠ []) :
    replaceFrom old new 0 (old ++ rest) = new ++ replaceFrom old new 0 rest := by
  cases old with
  | nil => exact absurd rfl h
  | cons c o =>
    rw [List.cons_append, replaceFrom]
    have hp : (c :: o).isPrefixOf (c :: (o ++ rest)) = true := by
      rw [← List.cons_append, List.isPrefixOf_iff_prefix]
      exact List.prefix_append _ _
    rw [if_pos hp]
    have : (c :: o).length - 1 = o.length := by simp
    rw [this, replaceFrom_skip]

theorem replaceFrom_cons (old new : Str) (c : Char) (cs : Str)
    (h : old.isPrefixOf (c :: cs) = false) :
    replaceFrom old new 0 (c :: cs) = c :: replaceFrom old new 0 cs := by
  rw [replaceFrom, if_neg (by rw [h]; decide)]

theorem Contains_cons {c : Char} {cs old : Str} (h : Contains (c :: cs) old = false) :
    old.isPrefixOf (c :: cs) = false ∧ Contains cs old = false := by
  rw [Contains, Bool.or_eq_false_iff] at h
  exact h

theorem prefix_of_prefix_append_sep {old a rest : Str} {sep : Char}
    (h : old <+: a ++ sep :: rest) (hs : sep ∉ old) : old <+: a := by
  by_cases hl : old.length ≤ a.length
  · exact List.prefix_of_prefix_length_le h (List.prefix_append _ _) hl
  · exfalso
    have h2 : a ++ [sep] <+: a ++ sep :: rest := by
      have : a ++ sep :: rest = (a ++ [sep]) ++ rest := by simp
      rw [this]
      exact List.prefix_append _ _
    have h3 : a ++ [sep] <+: old :=
      List.prefix_of_prefix_length_le h2 h (by simp; omega)
    exact hs (h3.subset (by simp))

theorem isPrefixOf_append_sep {old a rest : Str} {sep : Char} (hs : sep ∉ old)
    (ha : old.isPrefixOf a = false) : old.isPrefixOf (a ++ sep :: rest) = false := by
  by_contra h
  have h1 : old.isPrefixOf (a ++ sep :: rest) = true := by simpa using h
  rw [ List.isPrefixOf_iff_prefix] at h1
  have := prefix_of_prefix_append_sep h1 hs
  rw [← List.isPrefixOf_iff_prefix, ha] at this
  cases this

theorem Contains_nil {old : Str} (h : old ≠ []) : Contains [] old = false := by
  cases old with
  | nil => exact absurd rfl h
  | cons c o => rfl

theorem isPrefixOf_of_Contains {a old : Str} (h : Contains a old = false) :
    old.isPrefixOf a = false := by
  cases a with
  | nil => exact h
  | cons c cs => exact (Contains_cons h).1

theorem replaceFrom_append_sep (old new : Str) (sep : Char) (hs : sep ∉ old) (a rest : Str)
    (ha : Contains a old = false) :
    replaceFrom old new 0 (a ++ sep :: rest) = a ++ sep :: replaceFrom old new 0 rest := by
  induction a with
  | nil =>
    rw [List.nil_append, List.nil_append]
    apply replaceFrom_cons
    exact @isPrefixOf_append_sep old [] rest sep hs (isPrefixOf_of_Contains ha)
  | cons c a ih =>
    obtain ⟨h1, h2⟩ := Contains_cons ha
    rw [List.cons_append, replaceFrom_cons, ih h2]
    · rfl
    · exact isPrefixOf_append_sep (a := c :: a) hs h1

theorem replaceFrom_none (old new : Str) (a : Str) (ha : Contains a old = false) :
    replaceFrom old new 0 a = a := by
  induction a with
  | nil => rfl
  | cons c a ih =>
    obtain ⟨h1, h2⟩ := Contains_cons ha
    rw [replaceFrom_cons _ _ _ _ h1, ih h2]

theorem replaceFrom_slashed (old new : Str) (hs : '/' ∉ old) (ho : old ≠ [])
    (segs : List Str) (h : ∀ s ∈ segs, Contains s old = false) :
    replaceFrom old new 0 (slashed segs) = slashed segs := by
  induction segs with
  | nil => rfl
  | cons s segs ih =>
    have ih' := ih (fun x hx => h x (List.mem_cons_of_mem _ hx))
    have hs1 := h s (List.mem_cons_self _ _)
    rw [slashed]
    have e0 := replaceFrom_append_sep old new '/' hs [] (s ++ slashed segs) (Contains_nil ho)
    rw [List.nil_append, List.nil_append] at e0
    rw [e0]
    congr 1
    cases segs with
    | nil =>
      rw [slashed, List.append_nil]
      exact replaceFrom_none old new s hs1
    | cons s2 segs =>
      rw [slashed] at ih' ⊢
      rw [replaceFrom_append_sep old new '/' hs s _ hs1]
      have e1 := replaceFrom_append_sep old new '/' hs [] (s2 ++ slashed segs) (Contains_nil ho)
      rw [List.nil_append, List.nil_append] at e1
      rw [e1] at ih'
      rw [(List.cons.inj ih').2]

theorem slashed_append (a b : List Str) : slashed (a ++ b) = slashed a ++ slashed b := by
  induction a with
  | nil => rfl
  | cons s a ih => simp [slashed, ih]

/-- The URL of a node from the root path of the repository: the flag is
resolved, and nothing else is, when neither the repository name nor a segment
contains the flag. -/
theorem Replace_rootPath (r new : Str) (names : List Str)
    (hr : Contains r BaseTypeFlag = false)
    (hn : ∀ s ∈ names, Contains s BaseTypeFlag = false) :
    Replace (rootPath r ++ slashed names) BaseTypeFlag new =
      "https://".toList ++ r ++ ['/'] ++ new ++ "/master".toList ++ slashed names := by
  have hsl : '/' ∉ BaseTypeFlag := by decide
  have hne : BaseTypeFlag ≠ [] := by decide
  have e1 : rootPath r ++ slashed names =
      "https:".toList ++ '/' :: ([] ++ '/' :: (r ++ '/' ::
        (BaseTypeFlag ++ slashed ("master".toList :: names)))) := by
    simp [rootPath, slashed]
  unfold Replace
  rw [e1, replaceFrom_append_sep _ _ _ hsl _ _ (by decide),
    replaceFrom_append_sep _ _ _ hsl _ _ (Contains_nil hne),
    replaceFrom_append_sep _ _ _ hsl _ _ hr, replaceFrom_prefix _ _ _ hne,
    replaceFrom_slashed _ _ hsl hne]
  · simp [slashed]
  · intro s hs
    rcases List.mem_cons.1 hs with h | h
    · rw [h]; decide
    · exact hn s h

end CodeAnalyzer

namespace CodeAnalyzer

/-! ## The nodes of the finished tree, by their names -/

theorem childNamed_of_mem {l : List Node} (hnd : (l.map (fun c => c.Name)).Nodup) {x : Node}
    (hx : x ∈ l) : childNamed x.Name l = some x := by
  induction l with
  | nil => cases hx
  | cons a l ih =>
    rw [List.map_cons, List.nodup_cons] at hnd
    rcases List.mem_cons.1 hx with h | h
    · subst h
      simp [childNamed]
    · have hne : a.Name ≠ x.Name := by
        intro e
        apply hnd.1
        rw [e]
        exact List.mem_map.2 ⟨x, h, rfl⟩
      simp only [childNamed, hne, if_false]
      exact ih hnd.2 h

theorem descendant_cons_of_childNamed {n c : Node} {k : Str}
    (h : childNamed k n.Children = some c) (rest : List Str) :
    descendant n (k :: rest) = descendant c rest := by
  show (match childNamed k n.Children with
    | none => none
    | some c => descendant c rest) = descendant c rest
  rw [h]

theorem descendant_of_children_eq {a b : Node} (h : a.Children = b.Children) (k : Str)
    (rest : List Str) : descendant a (k :: rest) = descendant b (k :: rest) := by
  show (match childNamed k a.Children with
    | none => none
    | some c => descendant c rest) =
    (match childNamed k b.Children with
    | none => none
    | some c => descendant c rest)
  rw [h]

theorem img_names_nodup {ord : RangeOrder} {n : Node} {raw : Str} {X : Node} (hw : WfTree n)
    (hi : Img ord n raw X) : (X.Children.map (fun c => c.Name)).Nodup := by
  have hp := hi.children.map (fun c => c.Name)
  rw [hp.nodup_iff, List.map_map]
  have : (kidsOf n).map ((fun c => c.Name) ∘ fun kc => finNode ord kc.2 raw) =
      (kidsOf n).map Prod.fst := by
    apply List.map_congr_left
    intro kc hkc
    obtain ⟨-, hwc, hname⟩ := hw.of_mem hkc
    show (finNode ord kc.2 raw).Name = kc.1
    rw [(img_finNode ord kc.2 raw hwc.root.children).same.name, hname]
  rw [this]
  exact hw.root.keys

theorem childNamed_img {ord : RangeOrder} {n : Node} {raw : Str} {X : Node} (hw : WfTree n)
    (hi : Img ord n raw X) {k : Str} {c : Node} (hl : lookupChild k (kidsOf n) = some c) :
    childNamed k X.Children = some (finNode ord c raw) := by
  have hmem : (k, c) ∈ kidsOf n := mem_of_lookupChild hl
  obtain ⟨-, hwc, hname⟩ := hw.of_mem hmem
  have hx : finNode ord c raw ∈ X.Children :=
    hi.children.symm.subset (List.mem_map.2 ⟨(k, c), hmem, rfl⟩)
  have hn : (finNode ord c raw).Name = k := by
    rw [(img_finNode ord c raw hwc.root.children).same.name]
    exact hname
  have := childNamed_of_mem (img_names_nodup hw hi) hx
  rw [hn] at this
  exact this

/-- The node of the finished tree at a path of names is what the loop of
lines 64-71 makes of the node of the merged tree at that path, and its raw
path is the raw path of the root followed by the names. -/
theorem descendant_img (ord : RangeOrder) (keys : List Str) :
    ∀ (n : Node) (raw : Str) (X c : Node), WfTree n →
      (∀ q d, nodeAt n q = some d → d.Type_ = NodeType.StructType → kidsOf d = []) →
      Img ord n raw X → nodeAt n keys = some c → keys ≠ [] → (∀ k ∈ keys, k ≠ []) →
      ∃ m, descendant X keys = some m ∧ SameFields m c ∧
        m.URL = (getNodeURL c (raw ++ slashed keys.dropLast)).2 ∧
        (c.Type_ ≠ NodeType.StructType →
          (getNodeURL c (raw ++ slashed keys.dropLast)).1 = raw ++ slashed keys) := by
  induction keys with
  | nil => intro n raw X c _ _ _ _ hk; exact absurd rfl hk
  | cons k rest ih =>
    intro n raw X c hw hS hi hna _ hne
    rw [nodeAt_cons] at hna
    cases hl : lookupChild k (kidsOf n) with
    | none => rw [hl] at hna; cases hna
    | some c1 =>
      rw [hl] at hna
      simp only at hna
      have hmem : (k, c1) ∈ kidsOf n := mem_of_lookupChild hl
      obtain ⟨-, hwc, hname⟩ := hw.of_mem hmem
      have hname' : c1.Name = k := hname
      have hcn := childNamed_img hw hi hl
      have hi1 := img_finNode ord c1 raw hwc.root.children
      rw [descendant_cons_of_childNamed hcn]
      cases rest with
      | nil =>
        simp only [nodeAt, Option.some.injEq] at hna
        subst hna
        refine ⟨finNode ord c1 raw, rfl, hi1.same, ?_, ?_⟩
        · simp only [List.dropLast_single, slashed, List.append_nil]
          rfl
        · intro hns
          simp only [List.dropLast_single, slashed, List.append_nil]
          rw [getNodeURL_raw hns (by rw [hname']; exact hne k (List.mem_cons_self _ _)), hname']
          simp
      | cons k2 rest' =>
        have hns : c1.Type_ ≠ NodeType.StructType := by
          intro hs
          have hk0 := hS [k] c1 (by rw [nodeAt_cons, hl]; rfl) hs
          rw [nodeAt_cons, hk0] at hna
          cases hna
        have hraw : (getNodeURL c1 raw).1 = raw ++ ['/'] ++ k := by
          rw [getNodeURL_raw hns (by rw [hname']; exact hne k (List.mem_cons_self _ _)), hname']
        rw [hraw] at hi1
        obtain ⟨m, hd, hsame, hurl, hraw2⟩ := ih c1 _ _ c hwc
          (fun q d hq => hS (k :: q) d (by rw [nodeAt_cons, hl]; exact hq)) hi1 hna (by simp)
          (fun x hx => hne x (List.mem_cons_of_mem _ hx))
        have hpp : raw ++ ['/'] ++ k ++ slashed (k2 :: rest').dropLast =
            raw ++ slashed (k :: k2 :: rest').dropLast := by
          simp [slashed]
        have hfull : raw ++ ['/'] ++ k ++ slashed (k2 :: rest') =
            raw ++ slashed (k :: k2 :: rest') := by
          simp [slashed]
        rw [hpp] at hurl hraw2
        rw [hfull] at hraw2
        exact ⟨m, hd, hsame, hurl, hraw2⟩

theorem childNamed_placed {σ : Type} (G : Generator σ) (dx dy : ℚ) (k : Str) (cs : List Node)
    (positions : List Position) (hl : positions.length = cs.length) (c : Node)
    (h : childNamed k cs = some c) :
    ∃ q, childNamed k
        (List.zipWith (fun c p => ({ c with Position := ⟨p.X - dx, p.Y - dy⟩ } : Node))
          (cs.map (GenerateChildrenPosition G)) positions) =
        some { GenerateChildrenPosition G c with Position := q } := by
  induction cs generalizing positions with
  | nil => cases h
  | cons a cs ih =>
    cases positions with
    | nil => simp at hl
    | cons p positions =>
      have hn : (GenerateChildrenPosition G a).Name = a.Name := (layout_same G a).1.name
      rw [List.map_cons, List.zipWith_cons_cons]
      by_cases ha : a.Name = k
      · simp only [childNamed, ha, if_true, Option.some.injEq] at h
        subst h
        rw [childNamed, if_pos (by
          show (GenerateChildrenPosition G a).Name = k
          rw [hn]; exact ha)]
        exact ⟨_, rfl⟩
      · simp only [childNamed, ha, if_false] at h
        rw [childNamed, if_neg (by
          show ¬ (GenerateChildrenPosition G a).Name = k
          rw [hn]; exact ha)]
        exact ih positions (by simpa using hl) h

theorem childNamed_layout {σ : Type} (G : Generator σ) (n : Node) (k : Str) (c : Node)
    (h : childNamed k n.Children = some c) :
    ∃ q, childNamed k (GenerateChildrenPosition G n).Children =
      some { GenerateChildrenPosition G c with Position := q } := by
  have hc : n.Children ≠ [] := by
    intro e; rw [e] at h; cases h
  rw [(layout_children G n hc).2.2]
  apply childNamed_placed G _ _ k n.Children _ _ c h
  rw [placeAll_length, List.length_map, List.length_map]

/-- A node is found under the same names after the layout, with the same
fields. -/
theorem descendant_layout {σ : Type} (G : Generator σ) (keys : List Str) :
    ∀ n m, descendant n keys = some m →
      ∃ m', descendant (GenerateChildrenPosition G n) keys = some m' ∧ SameFields m' m ∧
        m'.URL = m.URL := by
  induction keys with
  | nil =>
    intro n m h
    simp only [descendant, Option.some.injEq] at h
    subst h
    exact ⟨_, rfl, (layout_same G n).1, (layout_same G n).2⟩
  | cons k rest ih =>
    intro n m h
    cases hc : childNamed k n.Children with
    | none =>
      have : descendant n (k :: rest) = none := by
        show (match childNamed k n.Children with
          | none => none
          | some c => descendant c rest) = none
        rw [hc]
      rw [this] at h
      cases h
    | some c =>
      rw [descendant_cons_of_childNamed hc] at h
      obtain ⟨q, hq⟩ := childNamed_layout G n k c hc
      rw [descendant_cons_of_childNamed hq]
      cases rest with
      | nil =>
        simp only [descendant, Option.some.injEq] at h
        subst h
        obtain ⟨h1, h2, -⟩ := same_of_placed G c q
        exact ⟨_, rfl, h1, h2⟩
      | cons k2 rest' =>
        rw [descendant_of_children_eq (same_of_placed G c q).2.2]
        exact ih c m h

theorem nodeAt_isSome_of_prefix {items : List (Str × NodeInfo)} {r : Str} {tree : Node}
    (h : buildTree items r = .ok tree) {e : Str × NodeInfo} (he : e ∈ items) {p : List Str}
    (hp : p <+: targetPath e.1) : ∃ c, nodeAt tree p = some c := by
  have h1 := (foldl_flatStep_counters items _ _ (buildTree_flat h) p).2
  have h2 : (infoAt tree p).isSome = true := h1.2 (Or.inr ⟨e, he, hp⟩)
  unfold infoAt at h2
  cases hn : nodeAt tree p with
  | none => rw [hn] at h2; cases h2
  | some c => exact ⟨c, rfl⟩

theorem names_prefix_targetPath (k : Str) :
    (getPathAndFile k).1 ++ [(getPathAndFile k).2.1] <+: targetPath k := by
  by_cases hs : 0 < (getPathAndFile k).2.2.length
  · rw [targetPath_struct k hs]
    have : (getPathAndFile k).1 ++ [(getPathAndFile k).2.1, (getPathAndFile k).2.2] =
        ((getPathAndFile k).1 ++ [(getPathAndFile k).2.1]) ++ [(getPathAndFile k).2.2] := by
      simp
    rw [this]
    exact List.prefix_append _ _
  · rw [targetPath_file k hs]

end CodeAnalyzer

namespace CodeAnalyzer

/-- C11 (amended). For every repository name `r` and every entry whose
identifier has the directory segments `d1`, ..., `dk` and the Go file name
`f`, all of them non-empty, where neither `r` nor a segment contains the flag
of the URL template: in the tree that `model.New` returns there is a node
under the names `d1`, ..., `di` for each `i`, and under `d1`, ..., `dk`, `f`.
When it is a PACKAGE its URL is `https://r/tree/master/d1/.../di`, when it is
a FILE its URL is `https://r/blob/master/d1/.../dk/f`; and it is a PACKAGE for
the directories and a FILE for `f` when no other entry uses one of these paths
with another role. -/
theorem node_urls {σ : Type} (G : Generator σ) (ord : RangeOrder)
    (items : List (Str × NodeInfo)) (r : Str) (t : Node) (h : New G ord items r = .ok t)
    (e : Str × NodeInfo) (he : e ∈ items) (hr : Contains r BaseTypeFlag = false)
    (hseg : ∀ s ∈ (getPathAndFile e.1).1 ++ [(getPathAndFile e.1).2.1],
      s ≠ [] ∧ Contains s BaseTypeFlag = false)
    (j : Nat) (hj : 0 < j) (hjn : j ≤ (getPathAndFile e.1).1.length + 1) :
    ∃ m, descendant t (((getPathAndFile e.1).1 ++ [(getPathAndFile e.1).2.1]).take j) = some m ∧
      (m.Type_ = NodeType.PackageType →
        m.URL = "https://".toList ++ r ++ "/tree/master".toList ++
          slashed (((getPathAndFile e.1).1 ++ [(getPathAndFile e.1).2.1]).take j)) ∧
      (m.Type_ = NodeType.FileType →
        m.URL = "https://".toList ++ r ++ "/blob/master".toList ++
          slashed (((getPathAndFile e.1).1 ++ [(getPathAndFile e.1).2.1]).take j)) ∧
      ((∀ x ∈ items, NoClash x.1 e.1) →
        m.Type_ = roleOf (getPathAndFile e.1).1.length j) := by
  obtain ⟨tree, hb, ht⟩ := New_ok h
  subst ht
  generalize hnames : (getPathAndFile e.1).1 ++ [(getPathAndFile e.1).2.1] = names at hseg ⊢
  have hnl : names.length = (getPathAndFile e.1).1.length + 1 := by
    rw [← hnames]; simp
  have hkl : (names.take j).length = j := by
    rw [List.length_take]; omega
  have hk : names.take j ≠ [] := by
    intro e0
    rw [e0] at hkl
    simp at hkl
    omega
  have hpre : names.take j <+: targetPath e.1 :=
    ( List.take_prefix _ _).trans (by rw [← hnames]; exact names_prefix_targetPath e.1)
  obtain ⟨c, hc⟩ := nodeAt_isSome_of_prefix hb he hpre
  have hw := buildTree_wf hb
  have hS : ∀ q d, nodeAt tree q = some d → d.Type_ = NodeType.StructType → kidsOf d = [] := by
    intro q d hq hd
    unfold kidsOf
    rw [(struct_iff_nil_map hb hq).1 hd]
  have hmem : ∀ k ∈ names.take j, k ≠ [] ∧ Contains k BaseTypeFlag = false :=
    fun k hk' => hseg k (List.mem_of_mem_take hk')
  obtain ⟨m0, hd0, hs0, hu0, hraw⟩ := descendant_img ord (names.take j) tree (rootPath r) _ c hw hS
    (img_GenerateChildList ord tree (rootPath r) hw.root.children) hc hk
    (fun k hk' => (hmem k hk').1)
  obtain ⟨m, hd, hs, hu⟩ := descendant_layout G (names.take j) _ m0 hd0
  unfold finishTree
  refine ⟨m, hd, ?_, ?_, ?_⟩
  · intro hP
    have hcP : c.Type_ = NodeType.PackageType := by rw [← hs0.type, ← hs.type]; exact hP
    rw [hu, hu0, getNodeURL_package hcP, hraw (by rw [hcP]; decide),
      Replace_rootPath r _ _ hr (fun k hk' => (hmem k hk').2)]
    simp [PackageBaseTypeURL]
  · intro hF
    have hcF : c.Type_ = NodeType.FileType := by rw [← hs0.type, ← hs.type]; exact hF
    rw [hu, hu0, getNodeURL_file hcF, hraw (by rw [hcF]; decide),
      Replace_rootPath r _ _ hr (fun k hk' => (hmem k hk').2)]
    simp [FileBaseTypeURL]
  · intro hnc
    obtain ⟨ho, -, -, -⟩ := buildTree_origin hb
    obtain ⟨e1, he1, hp1, ht1, -⟩ := ho (names.take j) c.info (infoAt_of_nodeAt hc) hk
    have hrole := (NoClash_iff _ _).1 (hnc e1 he1) (names.take j) hp1 hpre
    have ht1' : c.Type_ = roleOf (getPathAndFile e1.1).1.length (names.take j).length := ht1
    rw [hs.type, hs0.type, ht1', hrole, hkl]

/-- C11 at the repository `github.com/acme/svc` and the file
`pkg/sub/file.go`: the node under `pkg`, `sub`, `file.go`. -/
theorem node_urls_witness :
    New shelfGenerator RangeOrder.same sampleWidget sampleRepository = .ok sampleWidgetTree ∧
      Contains sampleRepository BaseTypeFlag = false ∧
      (∃ m, descendant sampleWidgetTree
          ((["pkg".toList, "sub".toList] ++ ["file.go".toList]).take 3) = some m ∧
        (m.Type_ = NodeType.PackageType →
          m.URL = "https://".toList ++ sampleRepository ++ "/tree/master".toList ++
            slashed ((["pkg".toList, "sub".toList] ++ ["file.go".toList]).take 3)) ∧
        (m.Type_ = NodeType.FileType →
          m.URL = "https://".toList ++ sampleRepository ++ "/blob/master".toList ++
            slashed ((["pkg".toList, "sub".toList] ++ ["file.go".toList]).take 3)) ∧
        ((∀ x ∈ sampleWidget, NoClash x.1 "pkg/sub/file.go".toList) →
          m.Type_ = roleOf 2 3)) :=
  ⟨sampleWidget_New, by decide,
    node_urls shelfGenerator RangeOrder.same sampleWidget sampleRepository sampleWidgetTree
      sampleWidget_New ("pkg/sub/file.go".toList, ⟨0, 0, 1, 6, 3⟩) (by decide!) (by decide)
      (by decide!) 3 (by decide) (by decide!)⟩

/-- C11 (counterexample to the claim as stated). For the repository
`github.com/acme/svc` and the file `gen.go` in a directory whose name is the
flag of the URL template, the URL of the FILE node has `blob` in the place of
the directory, and the URL of the PACKAGE node has `tree`. -/
theorem flag_in_segment_replaced :
    New shelfGenerator RangeOrder.same sampleFlag sampleRepository = .ok sampleFlagTree ∧
      (descendant sampleFlagTree [BaseTypeFlag, "gen.go".toList]).map
          (fun m => (m.Type_, m.URL)) =
        some (NodeType.FileType,
          "https://github.com/acme/svc/blob/master/blob/gen.go".toList) ∧
      (descendant sampleFlagTree [BaseTypeFlag]).map (fun m => (m.Type_, m.URL)) =
        some (NodeType.PackageType, "https://github.com/acme/svc/tree/master/tree".toList) ∧
      "https://github.com/acme/svc/blob/master/blob/gen.go".toList ≠
        "https://".toList ++ sampleRepository ++ "/blob/master".toList ++
          slashed [BaseTypeFlag, "gen.go".toList] :=
  ⟨by rw [New_eq]; rfl, by decide!, by decide!, by decide!⟩

end CodeAnalyzer

namespace CodeAnalyzer

/-! ## The statements of the merged tree -/

theorem mapStmts_eq (n : Node) : mapStmts n = n.NumberOfStmts + mapStmtsAll (kidsOf n) := by
  obtain ⟨name, url, ty, w, d, pos, nl, nm, na, ns, children, line, cm⟩ := n
  cases cm with
  | none => rw [mapStmts]; simp [kidsOf, mapStmtsAll]
  | some m => rw [mapStmts]; rfl

theorem mapStmtsAll_cons (k : Str) (c : Node) (m : List (Str × Node)) :
    mapStmtsAll ((k, c) :: m) = mapStmts c + mapStmtsAll m := by
  rw [mapStmtsAll]

theorem mapStmtsAll_eq_sum (m : List (Str × Node)) :
    mapStmtsAll m = (m.map (fun kc => mapStmts kc.2)).sum := by
  induction m with
  | nil => rw [mapStmtsAll]; rfl
  | cons a m ih =>
    obtain ⟨k, c⟩ := a
    rw [mapStmtsAll_cons, ih]
    simp

theorem mapStmtsAll_storeChild (k : Str) (c : Node) (m : List (Str × Node)) :
    mapStmtsAll (storeChild k c m) =
      mapStmtsAll m + mapStmts c -
        (match lookupChild k m with
         | some c0 => mapStmts c0
         | none => 0) := by
  induction m with
  | nil =>
    simp only [storeChild, lookupChild, mapStmtsAll_cons]
    rw [mapStmtsAll]
    ring
  | cons a m ih =>
    obtain ⟨k', c'⟩ := a
    by_cases hk : k' = k
    · simp only [storeChild, lookupChild, hk, if_true, mapStmtsAll_cons]
      ring
    · simp only [storeChild, lookupChild, hk, if_false, mapStmtsAll_cons, ih]
      ring

theorem mapStmts_store {n : Node} {m : List (Str × Node)} (hm : n.childrenMap = some m)
    (k : Str) (c : Node) :
    mapStmts { n with childrenMap := some (storeChild k c m) } =
      mapStmts n + mapStmts c -
        (match lookupChild k m with
         | some c0 => mapStmts c0
         | none => 0) := by
  rw [mapStmts_eq, mapStmts_eq n, kidsOf_of_map hm]
  have : kidsOf ({ n with childrenMap := some (storeChild k c m) } : Node) =
      storeChild k c m := rfl
  rw [this, mapStmtsAll_storeChild]
  simp only
  ring

theorem mapStmts_addCounters (n : Node) (v : NodeInfo) :
    mapStmts (n.addCounters v) = mapStmts n + v.NumberStmts := by
  rw [mapStmts_eq, mapStmts_eq n]
  have h1 : kidsOf (n.addCounters v) = kidsOf n := rfl
  have h2 : (n.addCounters v).NumberOfStmts = n.NumberOfStmts + v.NumberStmts := rfl
  rw [h1, h2]
  ring

theorem withChild_adds {g : Node → Except Fault Node} {v : NodeInfo} (hg : Adds g v)
    (k : Str) (fresh : Node) (hf : mapStmts fresh = 0) :
    Adds (fun n => n.withChild k fresh g) v := by
  intro n n' h
  simp only [Node.withChild] at h
  cases hm : n.childrenMap with
  | none => rw [hm] at h; cases h
  | some m =>
    rw [hm] at h
    simp only at h
    cases hgc : g ((lookupChild k m).getD fresh) with
    | error e => rw [hgc] at h; cases h
    | ok c' =>
      rw [hgc] at h
      simp only [Except.ok.injEq] at h
      subst h
      rw [mapStmts_store hm, hg _ _ hgc]
      cases hl : lookupChild k m with
      | none => simp only [Option.getD_none, hf]; ring
      | some c0 => simp only [Option.getD_some]; ring

theorem mergeValue_adds (s : Str) (v : NodeInfo) :
    Adds (fun fileNode => mergeValue fileNode s v) v := by
  intro n n' h
  simp only [mergeValue] at h
  by_cases hs : s.length > 0
  · simp only [hs, if_true] at h
    cases hm : n.childrenMap with
    | none =>
      simp only [Node.getChild, hm, Node.setChild] at h
      cases h
    | some m =>
      simp only [Node.getChild, hm] at h
      cases hl : lookupChild s m with
      | none =>
        simp only [hl, Node.setChild, hm, Except.ok.injEq] at h
        subst h
        rw [mapStmts_store hm, hl]
        have : mapStmts (newStruct s v) = v.NumberStmts := by
          rw [mapStmts_eq]
          simp [newStruct, kidsOf, Node.zero, mapStmtsAll]
        rw [this]
        ring
      | some sn =>
        simp only [hl, Node.setChild, hm, Except.ok.injEq] at h
        subst h
        rw [mapStmts_store hm, hl, mapStmts_addCounters]
        ring
  · simp only [hs, if_false, Except.ok.injEq] at h
    subst h
    exact mapStmts_addCounters n v

theorem mapStmts_newFile (f : Str) : mapStmts (newFile f) = 0 := by
  rw [mapStmts_eq]
  simp [newFile, kidsOf, Node.zero, mapStmtsAll]

theorem mapStmts_newPackage (p : Str) : mapStmts (newPackage p) = 0 := by
  rw [mapStmts_eq]
  simp [newPackage, kidsOf, Node.zero, mapStmtsAll]

theorem mapStmts_newRoot (r : Str) : mapStmts (newRoot r) = 0 := by
  rw [mapStmts_eq]
  simp [newRoot, kidsOf, Node.zero, mapStmtsAll]

theorem mergeAt_adds (f s : Str) (v : NodeInfo) (paths : List Str) :
    Adds (mergeAt f s v paths) v := by
  induction paths with
  | nil => exact withChild_adds (mergeValue_adds s v) f (newFile f) (mapStmts_newFile f)
  | cons path rest ih =>
    exact withChild_adds ih path (newPackage path) (mapStmts_newPackage path)

theorem mergeLoop_adds (items : List (Str × NodeInfo)) :
    ∀ t t', mergeLoop items t = .ok t' →
      mapStmts t' = mapStmts t + (items.map (fun e => e.2.NumberStmts)).sum := by
  induction items with
  | nil =>
    intro t t' h
    simp only [mergeLoop, Except.ok.injEq] at h
    subst h
    simp
  | cons kv items ih =>
    obtain ⟨key, value⟩ := kv
    intro t t' h
    simp only [mergeLoop] at h
    cases hm : mergeEntry t key value with
    | error e => rw [hm] at h; cases h
    | ok t1 =>
      rw [hm] at h
      rw [ih t1 t' h, mergeAt_adds _ _ value _ t t1 hm]
      simp only [List.map_cons, List.sum_cons]
      ring

/-- The merged tree holds the statements of the entries. -/
theorem buildTree_stmts {items : List (Str × NodeInfo)} {r : Str} {tree : Node}
    (h : buildTree items r = .ok tree) :
    mapStmts tree = (items.map (fun e => e.2.NumberStmts)).sum := by
  rw [mergeLoop_adds items _ tree h, mapStmts_newRoot, zero_add]

/-! ## The statements of the finished tree -/

theorem stmtsOf_append (a b : List (Str × Node)) : stmtsOf (a ++ b) = stmtsOf a + stmtsOf b := by
  simp [stmtsOf]

theorem stmtsOf_visitsOf (cur : Str) (n : Node) :
    stmtsOf (visitsOf cur n) =
      n.NumberOfStmts + stmtsOf (visitsOfChildren (packageNameAt cur n) n.Children) := by
  rw [visitsOf_eq, stmtsOf_cons]

theorem stmtsOf_visitsOfChildren (cur : Str) (l : List Node) :
    stmtsOf (visitsOfChildren cur l) = (l.map (fun c => stmtsOf (visitsOf cur c))).sum := by
  induction l with
  | nil => rw [visitsOfChildren]; rfl
  | cons c l ih =>
    rw [visitsOfChildren, stmtsOf_append, ih]
    simp

theorem sizeOf_kid_lt {n : Node} {kc : Str × Node} (h : kc ∈ kidsOf n) :
    sizeOf kc.2 < sizeOf n := by
  obtain ⟨name, url, ty, w, d, pos, nl, nm, na, ns, children, line, cm⟩ := n
  cases cm with
  | none => cases h
  | some m =>
    have h' : kc ∈ m := h
    have h1 := List.sizeOf_lt_of_mem h'
    obtain ⟨k, c⟩ := kc
    simp only [Node.mk.sizeOf_spec, Option.some.sizeOf_spec]
    simp only [Prod.mk.sizeOf_spec] at h1
    omega

theorem stmts_of_img_aux (ord : RangeOrder) :
    ∀ k n, sizeOf n = k → WfTree n → ∀ raw X cur, Img ord n raw X →
      stmtsOf (visitsOf cur X) = mapStmts n := by
  intro k
  induction k using Nat.strong_induction_on with
  | _ k ih =>
    intro n hk hw raw X cur hi
    rw [stmtsOf_visitsOf, stmtsOf_visitsOfChildren, mapStmts_eq, mapStmtsAll_eq_sum,
      hi.same.stmts]
    congr 1
    rw [(hi.children.map _).sum_eq, List.map_map]
    congr 1
    apply List.map_congr_left
    intro kc hkc
    obtain ⟨-, hwc, -⟩ := hw.of_mem hkc
    exact ih (sizeOf kc.2) (by rw [← hk]; exact sizeOf_kid_lt hkc) kc.2 rfl hwc _ _ _
      (img_finNode ord kc.2 raw hwc.root.children)

/-- The finished tree holds the statements of the merged tree. -/
theorem stmts_of_img {ord : RangeOrder} {n : Node} (hw : WfTree n) {raw : Str} {X : Node}
    (hi : Img ord n raw X) (cur : Str) : stmtsOf (visitsOf cur X) = mapStmts n :=
  stmts_of_img_aux ord (sizeOf n) n rfl hw raw X cur hi

end CodeAnalyzer

namespace CodeAnalyzer

/-! ## What the aggregation walk counts -/

theorem sum_storeComponent (k : Str) (v : Component) (m : List (Str × Component)) :
    ((storeComponent k v m).map (fun kc => kc.2.nbStmts)).sum =
      (m.map (fun kc => kc.2.nbStmts)).sum + v.nbStmts -
        (match lookupComponent k m with
         | some c => c.nbStmts
         | none => 0) := by
  induction m with
  | nil => simp [storeComponent, lookupComponent]
  | cons a m ih =>
    obtain ⟨k', c'⟩ := a
    by_cases hk : k' = k
    · simp only [storeComponent, lookupComponent, hk, if_true, List.map_cons, List.sum_cons]
      ring
    · simp only [storeComponent, lookupComponent, hk, if_false, List.map_cons, List.sum_cons, ih]
      ring

theorem visitAt_sumInv (r p : Str) (n : Node) (st : Int × List (Str × Component))
    (h : SumInv st) : SumInv (visitAt r p n st) := by
  unfold SumInv at h ⊢
  unfold visitAt
  by_cases hT : n.Type_ = NodeType.PackageType
  · cases hl : lookupComponent p st.2 with
    | some c =>
      simp only [hT, if_true, hl]
      rw [sum_storeComponent, hl, h]
      simp only
      ring
    | none =>
      simp only [hT, if_true, hl, lookupComponent_storeComponent_same]
      rw [sum_storeComponent, lookupComponent_storeComponent_same, sum_storeComponent, hl, h]
      simp only
      ring
  · cases hl : lookupComponent p st.2 with
    | some c =>
      simp only [hT, if_false, hl]
      rw [sum_storeComponent, hl, h]
      simp only
      ring
    | none =>
      simp only [hT, if_false, hl]
      exact h

theorem foldl_visitAt_sumInv (r : Str) (vs : List (Str × Node)) :
    ∀ st, SumInv st → SumInv (vs.foldl (fun st v => visitAt r v.1 v.2 st) st) := by
  induction vs with
  | nil => intro st h; exact h
  | cons v vs ih =>
    intro st h
    rw [List.foldl_cons]
    exact ih _ (visitAt_sumInv r v.1 v.2 st h)

/-- After the walk, the statement count is the sum of the statement counts of
the components. -/
theorem walk_sumInv (r cur : Str) (n : Node) :
    SumInv (generateStateByComponents r cur n (0, [])) := by
  rw [generateStateByComponents_foldl]
  exact foldl_visitAt_sumInv r _ _ rfl

theorem visitAt_mono (r p : Str) (n : Node) (st : Int × List (Str × Component)) (k : Str)
    (h : (lookupComponent k st.2).isSome = true) :
    (lookupComponent k (visitAt r p n st).2).isSome = true := by
  by_cases hk : p = k
  · subst hk
    cases hl : lookupComponent p st.2 with
    | none => rw [hl] at h; cases h
    | some c => rw [visitAt_present n st c hl]; rfl
  · rw [visitAt_other hk]
    exact h

theorem foldl_visitAt_mono (r : Str) (vs : List (Str × Node)) (k : Str) :
    ∀ st, (lookupComponent k st.2).isSome = true →
      (lookupComponent k (vs.foldl (fun st v => visitAt r v.1 v.2 st) st).2).isSome = true := by
  induction vs with
  | nil => intro st h; exact h
  | cons v vs ih =>
    intro st h
    rw [List.foldl_cons]
    exact ih _ (visitAt_mono r v.1 v.2 st k h)

theorem walk_mono (r cur : Str) (n : Node) (st : Int × List (Str × Component)) (k : Str)
    (h : (lookupComponent k st.2).isSome = true) :
    (lookupComponent k (generateStateByComponents r cur n st).2).isSome = true := by
  rw [generateStateByComponents_foldl]
  exact foldl_visitAt_mono r _ k st h

theorem visitAt_covered (r p : Str) (n : Node) (st : Int × List (Str × Component))
    (h : n.Type_ = NodeType.PackageType ∨ (lookupComponent p st.2).isSome = true) :
    (visitAt r p n st).1 = st.1 + n.NumberOfStmts ∧
      (lookupComponent p (visitAt r p n st).2).isSome = true := by
  cases hl : lookupComponent p st.2 with
  | some c =>
    refine ⟨?_, by rw [visitAt_present n st c hl]; rfl⟩
    unfold visitAt
    by_cases hT : n.Type_ = NodeType.PackageType
    · simp only [hT, if_true, hl]
    · simp only [hT, if_false, hl]
  | none =>
    have hT : n.Type_ = NodeType.PackageType := by
      rcases h with h | h
      · exact h
      · rw [hl] at h; cases h
    refine ⟨?_, by rw [visitAt_absent_package n st hl hT]; rfl⟩
    unfold visitAt
    simp only [hT, if_true, hl, lookupComponent_storeComponent_same]

theorem packageNameAt_of_not_package {n : Node} (h : n.Type_ ≠ NodeType.PackageType)
    (cur : Str) : packageNameAt cur n = cur := by
  unfold packageNameAt
  rw [if_neg h]

theorem children_covered (r cur : Str) (l : List Node)
    (ih : ∀ c ∈ l, ∀ cur st,
      (c.Type_ = NodeType.PackageType ∨ (lookupComponent cur st.2).isSome = true) →
      (generateStateByComponents r cur c st).1 = st.1 + stmtsOf (visitsOf cur c)) :
    ∀ st, ((∀ c ∈ l, c.Type_ = NodeType.PackageType) ∨
        (lookupComponent cur st.2).isSome = true) →
      (generateStateOfChildren r cur l st).1 = st.1 + stmtsOf (visitsOfChildren cur l) := by
  induction l with
  | nil =>
    intro st _
    rw [generateStateOfChildren, visitsOfChildren]
    simp [stmtsOf]
  | cons c l ihl =>
    intro st h
    rw [generateStateOfChildren, visitsOfChildren, stmtsOf_append]
    have hc : c.Type_ = NodeType.PackageType ∨ (lookupComponent cur st.2).isSome = true := by
      rcases h with h | h
      · exact Or.inl (h c (List.mem_cons_self _ _))
      · exact Or.inr h
    have h1 := ih c (List.mem_cons_self _ _) cur st hc
    have h2 : (∀ c ∈ l, c.Type_ = NodeType.PackageType) ∨
        (lookupComponent cur (generateStateByComponents r cur c st).2).isSome = true := by
      rcases h with h | h
      · exact Or.inl (fun x hx => h x (List.mem_cons_of_mem _ hx))
      · exact Or.inr (walk_mono r cur c st cur h)
    rw [ihl (fun x hx => ih x (List.mem_cons_of_mem _ hx)) _ h2, h1]
    ring

theorem walk_covered_aux (r : Str) :
    ∀ k n, sizeOf n = k → ∀ cur st,
      (n.Type_ = NodeType.PackageType ∨ (lookupComponent cur st.2).isSome = true) →
      (generateStateByComponents r cur n st).1 = st.1 + stmtsOf (visitsOf cur n) := by
  intro k
  induction k using Nat.strong_induction_on with
  | _ k ih =>
    intro n hk cur st h
    rw [generateStateByComponents_eq, visitNode_eq, stmtsOf_visitsOf]
    have hcov : n.Type_ = NodeType.PackageType ∨
        (lookupComponent (packageNameAt cur n) st.2).isSome = true := by
      rcases h with h | h
      · exact Or.inl h
      · by_cases hT : n.Type_ = NodeType.PackageType
        · exact Or.inl hT
        · rw [packageNameAt_of_not_package hT]; exact Or.inr h
    obtain ⟨h1, h2⟩ := visitAt_covered r (packageNameAt cur n) n st hcov
    rw [children_covered r (packageNameAt cur n) n.Children
      (fun c hc cur' st' => ih (sizeOf c) (by rw [← hk]; exact sizeOf_child_lt hc) c rfl cur' st')
      _ (Or.inr h2), h1]
    ring

/-- A node that is a PACKAGE, or that is visited under a path that has a
component, is counted with all the nodes below it. -/
theorem walk_covered (r cur : Str) (n : Node) (st : Int × List (Str × Component))
    (h : n.Type_ = NodeType.PackageType ∨ (lookupComponent cur st.2).isSome = true) :
    (generateStateByComponents r cur n st).1 = st.1 + stmtsOf (visitsOf cur n) :=
  walk_covered_aux r (sizeOf n) n rfl cur st h

/-- The walk from a root without a type and without statements of its own,
all of whose children are PACKAGE nodes, counts every node. -/
theorem walk_root (r : Str) (X : Node) (hT : X.Type_ = NodeType.Unset)
    (hs : X.NumberOfStmts = 0) (hc : ∀ c ∈ X.Children, c.Type_ = NodeType.PackageType) :
    (generateStateByComponents r r X (0, [])).1 = stmtsOf (visitsOf r X) := by
  have hnp : X.Type_ ≠ NodeType.PackageType := by rw [hT]; decide
  rw [generateStateByComponents_eq, visitNode_eq, stmtsOf_visitsOf,
    packageNameAt_of_not_package hnp]
  have hv : visitAt r r X (0, []) = (0, []) := by
    unfold visitAt
    simp only [hnp, if_false, lookupComponent]
  rw [hv, children_covered r r X.Children (fun c _ cur st h => walk_covered r cur c st h) _
    (Or.inl hc), hs]

theorem Split_length_of_mem (sep : Char) (s : Str) (h : sep ∈ s) :
    2 ≤ (Split sep s).length := by
  induction s with
  | nil => cases h
  | cons c cs ih =>
    unfold Split
    by_cases hc : c = sep
    · rw [if_pos hc, List.length_cons]
      have := List.length_pos.2 (Split_ne_nil sep cs)
      omega
    · rw [if_neg hc]
      have hm : sep ∈ cs := by
        rcases List.mem_cons.1 h with h | h
        · exact absurd h.symm hc
        · exact h
      have := ih hm
      cases hs : Split sep cs with
      | nil => rw [hs] at this; simp at this
      | cons a l => rw [hs] at this; simpa using this

theorem dirs_pos_of_slash (k : Str) (h : '/' ∈ k) : 1 ≤ (getPathAndFile k).1.length := by
  have := Split_length_of_mem '/' k h
  unfold getPathAndFile
  simp only [List.length_take]
  omega

end CodeAnalyzer

namespace CodeAnalyzer

/-- C18. For every input in which every identifier contains a slash and on
which `model.New` returns: the statement count that the walk of line 222
accumulates over the returned tree is the sum of `NumberStmts` over the
entries, and is the sum of `nbStmts` over the components. -/
theorem statements_counted_once {σ : Type} (G : Generator σ) (ord : RangeOrder)
    (items : List (Str × NodeInfo)) (r : Str) (t : Node) (h : New G ord items r = .ok t)
    (hdir : ∀ e ∈ items, '/' ∈ e.1) :
    (walkOf r t).1 = (items.map (fun e => e.2.NumberStmts)).sum ∧
      (walkOf r t).1 = ((walkOf r t).2.map (fun kc => kc.2.nbStmts)).sum := by
  refine ⟨?_, walk_sumInv r r t⟩
  obtain ⟨tree, hb, ht⟩ := New_ok h
  subst ht
  unfold walkOf finishTree
  rw [generateStateByComponents_layout]
  have hw := buildTree_wf hb
  have hi := img_GenerateChildList ord tree (rootPath r) hw.root.children
  obtain ⟨ho, hroot, hstm, -⟩ := buildTree_origin hb
  rw [walk_root r _ (hi.same.type.trans hroot) (hi.same.stmts.trans hstm), stmts_of_img hw hi,
    buildTree_stmts hb]
  intro c hc
  obtain ⟨kc, hkc, e⟩ := List.mem_map.1 (hi.children.subset hc)
  obtain ⟨hl, hwc, -⟩ := hw.of_mem hkc
  have hty : c.Type_ = kc.2.Type_ := by
    rw [← e]
    exact (img_finNode ord kc.2 (rootPath r) hwc.root.children).same.type
  have hna : nodeAt tree [kc.1] = some kc.2 := by
    rw [nodeAt_cons_of_lookup hl]; rfl
  obtain ⟨e1, he1, hp1, ht1, -⟩ := ho [kc.1] kc.2.info (infoAt_of_nodeAt hna) (by simp)
  have ht1' : kc.2.Type_ = roleOf (getPathAndFile e1.1).1.length 1 := ht1
  have hd := dirs_pos_of_slash e1.1 (hdir e1 he1)
  rw [hty, ht1']
  unfold roleOf
  rw [if_pos hd]

/-- C18 at the struct `Widget` and the file `pkg/sub/file.go`: eight
statements in all. -/
theorem statements_counted_once_witness :
    New shelfGenerator RangeOrder.same sampleWidget sampleRepository = .ok sampleWidgetTree ∧
      (∀ e ∈ sampleWidget, '/' ∈ e.1) ∧
      (walkOf sampleRepository sampleWidgetTree).1 =
        (sampleWidget.map (fun e => e.2.NumberStmts)).sum ∧
      (walkOf sampleRepository sampleWidgetTree).1 =
        ((walkOf sampleRepository sampleWidgetTree).2.map (fun kc => kc.2.nbStmts)).sum :=
  ⟨sampleWidget_New, by decide,
    statements_counted_once shelfGenerator RangeOrder.same sampleWidget sampleRepository
      sampleWidgetTree sampleWidget_New (by decide)⟩

end CodeAnalyzer
